import Mathlib

/-!
# The clerk keeper: record ingestion and indexing

A shallow embedding of `clerk/keeper.go`.  The key-value store is state that is
passed explicitly: every keeper method that writes takes the store and returns
the store it leaves behind together with its Go result.  Unsigned 64-bit
integers are natural numbers, reduced modulo `2^64` where the Go code can
overflow.  Byte strings and Go strings are lists of byte values.

The serialization codec, the time formatter of the SDK and the two root chain
type constants are not part of `keeper.go`; they are the fields of `Keeper`.
-/

namespace Clerk

/-! ## Byte strings -/

/-- Byte strings: Go values of type `[]byte` and `string`, one number per byte. -/
abbrev Bytes := List Nat

/-- Bytewise lexicographic order (Go `bytes.Compare(a, b) < 0`), the order in
which the store iterates its keys. -/
def bytesLt : Bytes → Bytes → Bool
  | [], [] => false
  | [], _ :: _ => true
  | _ :: _, [] => false
  | a :: as, b :: bs => if a < b then true else if b < a then false else bytesLt as bs

/-! ## Decimal formatting and parsing of unsigned 64-bit integers -/

/-- Number of values of a Go `uint64`. -/
def uint64Size : Nat := 2 ^ 64

/-- Largest `uint64`. -/
def maxUint64 : Nat := 2 ^ 64 - 1

/-- Decimal digits of `n`, most significant first, as ASCII bytes; `fuel` bounds
the number of digits produced. -/
def formatDigits : Nat → Nat → Bytes
  | 0, _ => []
  | fuel + 1, n => if n < 10 then [48 + n] else formatDigits fuel (n / 10) ++ [48 + n % 10]

/-- Go `strconv.FormatUint(n, 10)` as bytes.  A `uint64` has at most 20 decimal
digits. -/
def FormatUint (n : Nat) : Bytes := formatDigits 20 n

/-- Digit loop of Go `strconv.ParseUint(s, 10, 64)`: `n` is the value read so
far; a byte that is not a decimal digit is a syntax error, a value above
`maxUint64` a range error. -/
def parseDigits : Bytes → Nat → Option Nat
  | [], n => some n
  | c :: cs, n =>
    if 48 ≤ c ∧ c ≤ 57 then
      if n ≥ maxUint64 / 10 + 1 then none
      else if n * 10 + (c - 48) > maxUint64 then none
      else parseDigits cs (n * 10 + (c - 48))
    else none

/-- Go `strconv.ParseUint(s, 10, 64)`; `none` stands for a returned error. -/
def ParseUint (s : Bytes) : Option Nat :=
  if s = [] then none else parseDigits s 0

/-! ## The key-value store -/

/-- Store of the SDK, as the list of its entries in ascending key order. -/
abbrev KVStore := List (Bytes × Bytes)

/-- Value stored at `key`, if any. -/
def KVStore.find : KVStore → Bytes → Option Bytes
  | [], _ => none
  | (k, v) :: s, key => if k = key then some v else KVStore.find s key

/-- Store method `Has`. -/
def KVStore.Has (s : KVStore) (key : Bytes) : Bool := (KVStore.find s key).isSome

/-- Store method `Get`; an absent key gives `nil`, the empty byte string. -/
def KVStore.Get (s : KVStore) (key : Bytes) : Bytes := (KVStore.find s key).getD []

/-- Store method `Set`: replaces the value of a present key, and puts an absent
key at its place in key order. -/
def KVStore.Set : KVStore → Bytes → Bytes → KVStore
  | [], key, value => [(key, value)]
  | (k, v) :: s, key, value =>
    if k = key then (key, value) :: s
    else if bytesLt key k then (key, value) :: (k, v) :: s
    else (k, v) :: KVStore.Set s key value

/-- Store method `Iterator(start, stop)`: the entries with `start ≤ key < stop`
in ascending key order; the end of the domain is exclusive. -/
def KVStore.Iterator (s : KVStore) (start stop : Bytes) : List (Bytes × Bytes) :=
  s.filter (fun e => !bytesLt e.1 start && bytesLt e.1 stop)

/-- Function `sdk.KVStorePrefixIterator`: the entries whose key starts with `p`,
in ascending key order. -/
def KVStorePrefixIterator (s : KVStore) (p : Bytes) : List (Bytes × Bytes) :=
  s.filter (fun e => p.isPrefixOf e.1)

/-- Modelled from the spec: `hmTypes.KVStorePrefixIteratorPaginated` is not among
the sources.  The spec has `page` as a 1-based offset in units of `limit`: the
iterator skips `(page - 1) * limit` entries of the prefix scan and yields at most
`limit` entries. -/
def KVStorePrefixIteratorPaginated (s : KVStore) (p : Bytes) (page limit : Nat) :
    List (Bytes × Bytes) :=
  ((KVStorePrefixIterator s p).drop ((page - 1) * limit)).take limit

/-- Modelled from the spec: `hmTypes.KVStorePrefixRangeIteratorPaginated` is not
among the sources.  The spec gives the range listing the same page offset and
item ceiling as the prefix listing. -/
def KVStorePrefixRangeIteratorPaginated (s : KVStore) (page limit : Nat) (start stop : Bytes) :
    List (Bytes × Bytes) :=
  ((KVStore.Iterator s start stop).drop ((page - 1) * limit)).take limit

/-- Keys are strictly ascending: the shape of every store the SDK hands out. -/
def KVStore.Sorted (s : KVStore) : Prop :=
  List.Pairwise (fun a b => bytesLt a.1 b.1 = true) s

/-! ## Data model -/

/-- Modelled from the spec: the declaration of `types.EventRecord` is not among
the sources.  The keeper reads `ID`, `RootChainType` and `RecordTime`; the
remaining fields are the opaque payload.  `RecordTime` is a point in time, as a
number. -/
structure EventRecord where
  ID : Nat
  RootChainType : Bytes
  RecordTime : Nat
  Payload : Bytes
deriving DecidableEq, Repr

/-- Errors returned by the keeper. -/
inductive Err where
  | marshal
  | unmarshal
  | unknownRootChain
  | keyExists
  | notFound
deriving DecidableEq, Repr

/-- Keeper together with the collaborators it calls that live outside
`keeper.go`: the codec `cdc` (`none` is a returned error), `sdk.FormatTimeBytes`,
and the constants `hmTypes.RootChainTypeEth` and `hmTypes.RootChainTypeTron`. -/
structure Keeper where
  MarshalRecord : EventRecord → Option Bytes
  UnmarshalRecord : Bytes → Option EventRecord
  MarshalUint64 : Nat → Option Bytes
  UnmarshalUint64 : Bytes → Option Nat
  FormatTimeBytes : Nat → Bytes
  RootChainTypeEth : Bytes
  RootChainTypeTron : Bytes

/-! ## Key encoder -/

def StateRecordPrefixKey : Bytes := [0x11]

def DefaultValue : Bytes := [0x01]

def RecordSequencePrefixKey : Bytes := [0x12]

def StateRecordPrefixKeyWithTime : Bytes := [0x13]

def TronStateRecordPrefixKeyWithTime : Bytes := [0x14]

def EthStateRecordPrefixKeyWithTime : Bytes := [0x15]

def TronStateRecordPrefixKey : Bytes := [0x16]

def EthStateRecordPrefixKey : Bytes := [0x17]

def LatestMsgIDPrefixKey : Bytes := [0x18]

def RootIdToHeimdallIDPrefixKey : Bytes := [0x19]

/-- Key for a state record: the decimal digits of the id after the given bytes. -/
def GetRecordKey (p : Bytes) (stateID : Nat) : Bytes := p ++ FormatUint stateID

def GetEventRecordKey (stateID : Nat) : Bytes := GetRecordKey StateRecordPrefixKey stateID

/-- Dedupe key of a root chain event; `none` is the `nil` of the Go code. -/
def Keeper.GetRootChainEventRecordKey (k : Keeper) (rootChainType : Bytes) (stateID : Nat) :
    Option Bytes :=
  if rootChainType = k.RootChainTypeEth then some (GetRecordKey EthStateRecordPrefixKey stateID)
  else if rootChainType = k.RootChainTypeTron then
    some (GetRecordKey TronStateRecordPrefixKey stateID)
  else none

def Keeper.GetRecordKeyWithTimePrefix (k : Keeper) (p : Bytes) (recordTime : Nat) : Bytes :=
  p ++ k.FormatTimeBytes recordTime

def Keeper.GetEventRecordKeyWithTimePrefix (k : Keeper) (recordTime : Nat) : Bytes :=
  k.GetRecordKeyWithTimePrefix StateRecordPrefixKeyWithTime recordTime

def Keeper.GetEventRecordKeyWithTime (k : Keeper) (stateID : Nat) (recordTime : Nat) : Bytes :=
  GetRecordKey (k.GetEventRecordKeyWithTimePrefix recordTime) stateID

def GetRootToHeimdallIdKey (rootChainType : Bytes) (stateID : Nat) : Bytes :=
  GetRecordKey (RootIdToHeimdallIDPrefixKey ++ rootChainType) stateID

/-- Root chain time index key; `none` is the `nil` of the Go code. -/
def Keeper.GetRootChainEventRecordKeyWithTimePrefix (k : Keeper) (rootChainType : Bytes)
    (id : Nat) (recordTime : Nat) : Option Bytes :=
  if rootChainType = k.RootChainTypeEth then
    some (GetRecordKey (k.GetRecordKeyWithTimePrefix EthStateRecordPrefixKeyWithTime recordTime) id)
  else if rootChainType = k.RootChainTypeTron then
    some (GetRecordKey (k.GetRecordKeyWithTimePrefix TronStateRecordPrefixKeyWithTime recordTime) id)
  else none

def GetRecordSequenceKey (sequence : Bytes) : Bytes := RecordSequencePrefixKey ++ sequence

/-! ## Record store -/

/-- Write-once primitive: adds value to store by key, unless the key is set. -/
def setEventRecordStore (s : KVStore) (key value : Bytes) : KVStore × Option Err :=
  if KVStore.Has s key then (s, some Err.keyExists)
  else (KVStore.Set s key value, none)

/-- Latest msg id: the counter parsed from its key, `0` when absent or unparsable. -/
def GetLatestID (s : KVStore) : Nat :=
  if KVStore.Has s LatestMsgIDPrefixKey then
    match ParseUint (KVStore.Get s LatestMsgIDPrefixKey) with
    | some result => result
    | none => 0
  else 0

def SetLatestID (s : KVStore) (num : Nat) : KVStore :=
  KVStore.Set s LatestMsgIDPrefixKey (FormatUint num)

/-- Method `SetEventRecordWithTime`: writes the root chain time index entry, then
the time index entry of the id `latestID + 1`. -/
def Keeper.SetEventRecordWithTime (k : Keeper) (s : KVStore) (record : EventRecord)
    (latestID : Nat) : KVStore × Option Err :=
  let rootChainKey :=
    k.GetRootChainEventRecordKeyWithTimePrefix record.RootChainType record.ID record.RecordTime
  match k.MarshalUint64 record.ID with
  | none => (s, some Err.marshal)
  | some value =>
    match rootChainKey with
    | none => (s, some Err.unknownRootChain)
    | some rootChainKey =>
      match setEventRecordStore s rootChainKey value with
      | (s1, some e) => (s1, some e)
      | (s1, none) =>
        let record := { record with ID := (latestID + 1) % uint64Size }
        match k.MarshalUint64 record.ID with
        | none => (s1, some Err.marshal)
        | some value =>
          let key := k.GetEventRecordKeyWithTime record.ID record.RecordTime
          setEventRecordStore s1 key value

/-- Method `SetEventRecordWithID`: writes the dedupe entry, the cross-reference
entry and the canonical record, advances the counter and returns the counter
value it read. -/
def Keeper.SetEventRecordWithID (k : Keeper) (s : KVStore) (record : EventRecord) :
    KVStore × Except Err Nat :=
  let rootChainKey := k.GetRootChainEventRecordKey record.RootChainType record.ID
  match k.MarshalRecord record with
  | none => (s, Except.error Err.marshal)
  | some value =>
    match rootChainKey with
    | none => (s, Except.error Err.unknownRootChain)
    | some rootChainKey =>
      match setEventRecordStore s rootChainKey value with
      | (s1, some e) => (s1, Except.error e)
      | (s1, none) =>
        let latestID := GetLatestID s1
        let rootToHeimdallKey := GetRootToHeimdallIdKey record.RootChainType record.ID
        match k.MarshalUint64 ((latestID + 1) % uint64Size) with
        | none => (s1, Except.error Err.marshal)
        | some value =>
          match setEventRecordStore s1 rootToHeimdallKey value with
          | (s2, some e) => (s2, Except.error e)
          | (s2, none) =>
            let record := { record with ID := (latestID + 1) % uint64Size }
            let key := GetEventRecordKey record.ID
            match k.MarshalRecord record with
            | none => (s2, Except.error Err.marshal)
            | some value =>
              match setEventRecordStore s2 key value with
              | (s3, some e) => (s3, Except.error e)
              | (s3, none) =>
                (SetLatestID s3 ((latestID + 1) % uint64Size), Except.ok latestID)

/-- Method `SetEventRecord`: adds record to store. -/
def Keeper.SetEventRecord (k : Keeper) (s : KVStore) (record : EventRecord) :
    KVStore × Option Err :=
  match k.SetEventRecordWithID s record with
  | (s1, Except.error e) => (s1, some e)
  | (s1, Except.ok latestID) => k.SetEventRecordWithTime s1 record latestID

/-! ## Query layer -/

def Keeper.GetHeimdallIDByRootID (k : Keeper) (s : KVStore) (rootChainType : Bytes) (id : Nat) :
    Except Err Nat :=
  let key := GetRootToHeimdallIdKey rootChainType id
  if KVStore.Has s key then
    match k.UnmarshalUint64 (KVStore.Get s key) with
    | none => Except.error Err.unmarshal
    | some heimdallID => Except.ok heimdallID
  else Except.error Err.notFound

def Keeper.GetEventRecord (k : Keeper) (s : KVStore) (stateID : Nat) : Except Err EventRecord :=
  let key := GetEventRecordKey stateID
  if KVStore.Has s key then
    match k.UnmarshalRecord (KVStore.Get s key) with
    | none => Except.error Err.unmarshal
    | some record => Except.ok record
  else Except.error Err.notFound

def HasEventRecord (s : KVStore) (stateID : Nat) : Bool :=
  KVStore.Has s (GetEventRecordKey stateID)

/-- Loop of `GetEventRecordList`: the entries whose value decodes, in order. -/
def Keeper.decodeRecords (k : Keeper) : List (Bytes × Bytes) → List EventRecord
  | [] => []
  | e :: es =>
    match k.UnmarshalRecord e.2 with
    | some record => record :: k.decodeRecords es
    | none => k.decodeRecords es

/-- Method `GetEventRecordList`; its error result is always `nil`. -/
def Keeper.GetEventRecordList (k : Keeper) (s : KVStore) (page limit : Nat) : List EventRecord :=
  let limit := if limit > 50 then 50 else limit
  k.decodeRecords (KVStorePrefixIteratorPaginated s StateRecordPrefixKey page limit)

/-- Loop of `GetEventRecordListWithTime`: an entry whose value decodes to an id
is resolved with `GetEventRecord`; entries that fail either step are skipped. -/
def Keeper.resolveRecords (k : Keeper) (s : KVStore) : List (Bytes × Bytes) → List EventRecord
  | [] => []
  | e :: es =>
    match k.UnmarshalUint64 e.2 with
    | some stateID =>
      match k.GetEventRecord s stateID with
      | Except.ok record => record :: k.resolveRecords s es
      | Except.error _ => k.resolveRecords s es
    | none => k.resolveRecords s es

/-- Method `GetEventRecordListWithTime`; its error result is always `nil`. -/
def Keeper.GetEventRecordListWithTime (k : Keeper) (s : KVStore) (fromTime toTime : Nat)
    (page limit : Nat) : List EventRecord :=
  let limit := if limit > 50 then 50 else limit
  let iterator :=
    if page = 0 ∧ limit = 0 then
      KVStore.Iterator s (k.GetEventRecordKeyWithTimePrefix fromTime)
        (k.GetEventRecordKeyWithTimePrefix toTime)
    else
      KVStorePrefixRangeIteratorPaginated s page limit (k.GetEventRecordKeyWithTimePrefix fromTime)
        (k.GetEventRecordKeyWithTimePrefix toTime)
  k.resolveRecords s iterator

/-! ## Sequence ledger -/

/-- Method `SetRecordSequence`: sets mapping for sequence id to the default
value. -/
def SetRecordSequence (s : KVStore) (sequence : Bytes) : KVStore :=
  KVStore.Set s (GetRecordSequenceKey sequence) DefaultValue

/-- Method `HasRecordSequence`: checks if record already exists. -/
def HasRecordSequence (s : KVStore) (sequence : Bytes) : Bool :=
  KVStore.Has s (GetRecordSequenceKey sequence)

/-- Loop of `IterateRecordSequencesAndApplyFn` over the entries of the iterator:
the sequence is the key without the leading bytes of the sequence family; the
loop ends at the first call of `f` that returns an error.  The state that the Go
closure mutates is passed through `f`. -/
def iterateSequences {σ : Type} (f : σ → Bytes → σ × Option Err) :
    List (Bytes × Bytes) → σ → σ
  | [], acc => acc
  | e :: es, acc =>
    match f acc (e.1.drop RecordSequencePrefixKey.length) with
    | (acc1, some _) => acc1
    | (acc1, none) => iterateSequences f es acc1

/-- Method `IterateRecordSequencesAndApplyFn`: iterates the sequence family and
applies the given function. -/
def IterateRecordSequencesAndApplyFn {σ : Type} (s : KVStore) (f : σ → Bytes → σ × Option Err)
    (init : σ) : σ :=
  iterateSequences f (KVStorePrefixIterator s RecordSequencePrefixKey) init

/-- Method `GetRecordSequences`: the callback appends every sequence and returns
no error. -/
def GetRecordSequences (s : KVStore) : List Bytes :=
  IterateRecordSequencesAndApplyFn s (fun sequences sequence => (sequences ++ [sequence], none)) []

/-! ## Interrupted ingestion -/

/-- Statements of `SetEventRecordWithID` from its start to the write of the
canonical record, without `SetLatestID` that follows them: the store left by a
failure between the write of the canonical record and the advance of the counter.
The result is `none` when one of the statements returns an error. -/
def Keeper.SetEventRecordWithIDUntilCounter (k : Keeper) (s : KVStore) (record : EventRecord) :
    Option KVStore :=
  let rootChainKey := k.GetRootChainEventRecordKey record.RootChainType record.ID
  match k.MarshalRecord record with
  | none => none
  | some value =>
    match rootChainKey with
    | none => none
    | some rootChainKey =>
      match setEventRecordStore s rootChainKey value with
      | (_, some _) => none
      | (s1, none) =>
        let latestID := GetLatestID s1
        let rootToHeimdallKey := GetRootToHeimdallIdKey record.RootChainType record.ID
        match k.MarshalUint64 ((latestID + 1) % uint64Size) with
        | none => none
        | some value =>
          match setEventRecordStore s1 rootToHeimdallKey value with
          | (_, some _) => none
          | (s2, none) =>
            let record := { record with ID := (latestID + 1) % uint64Size }
            let key := GetEventRecordKey record.ID
            match k.MarshalRecord record with
            | none => none
            | some value =>
              match setEventRecordStore s2 key value with
              | (_, some _) => none
              | (s3, none) => some s3

/-! ## Listing of all records -/

/-- The nine index families, one for each of the key variables of the keeper
that is written to the store. -/
inductive KeyFamily where
  | canonicalRecord
  | sequence
  | canonicalTime
  | tronTime
  | ethTime
  | tronDedupe
  | ethDedupe
  | counter
  | crossReference
deriving DecidableEq, Repr

/-- Key variable of a family: the bytes its encoder puts first. -/
def KeyFamily.firstBytes : KeyFamily → Bytes
  | KeyFamily.canonicalRecord => StateRecordPrefixKey
  | KeyFamily.sequence => RecordSequencePrefixKey
  | KeyFamily.canonicalTime => StateRecordPrefixKeyWithTime
  | KeyFamily.tronTime => TronStateRecordPrefixKeyWithTime
  | KeyFamily.ethTime => EthStateRecordPrefixKeyWithTime
  | KeyFamily.tronDedupe => TronStateRecordPrefixKey
  | KeyFamily.ethDedupe => EthStateRecordPrefixKey
  | KeyFamily.counter => LatestMsgIDPrefixKey
  | KeyFamily.crossReference => RootIdToHeimdallIDPrefixKey

/-- Keys built by the encoder of a family, for some ids, times, chain types and
tokens.  For the dedupe and the root chain time index the encoder is the branch
of `GetRootChainEventRecordKey` and `GetRootChainEventRecordKeyWithTimePrefix`
of that family; for the canonical time index the bounds of a range scan count as
keys, too. -/
def Keeper.IsKeyOf (k : Keeper) : KeyFamily → Bytes → Prop
  | KeyFamily.canonicalRecord, key => ∃ id, key = GetEventRecordKey id
  | KeyFamily.sequence, key => ∃ t, key = GetRecordSequenceKey t
  | KeyFamily.canonicalTime, key =>
    (∃ id t, key = k.GetEventRecordKeyWithTime id t) ∨
      (∃ t, key = k.GetEventRecordKeyWithTimePrefix t)
  | KeyFamily.tronTime, key =>
    ∃ id t, key = GetRecordKey (k.GetRecordKeyWithTimePrefix TronStateRecordPrefixKeyWithTime t) id
  | KeyFamily.ethTime, key =>
    ∃ id t, key = GetRecordKey (k.GetRecordKeyWithTimePrefix EthStateRecordPrefixKeyWithTime t) id
  | KeyFamily.tronDedupe, key => ∃ id, key = GetRecordKey TronStateRecordPrefixKey id
  | KeyFamily.ethDedupe, key => ∃ id, key = GetRecordKey EthStateRecordPrefixKey id
  | KeyFamily.counter, key => key = LatestMsgIDPrefixKey
  | KeyFamily.crossReference, key => ∃ c id, key = GetRootToHeimdallIdKey c id

/-! ## Sequences of calls -/

/-- Store after a sequence of `SetEventRecord` calls, made in order on `s`. -/
def Keeper.SetEventRecords (k : Keeper) : KVStore → List EventRecord → KVStore
  | s, [] => s
  | s, r :: rs => k.SetEventRecords (k.SetEventRecord s r).1 rs

/-- Stores on which the calls of a sequence run: the store before each call. -/
def Keeper.storesBefore (k : Keeper) : KVStore → List EventRecord → List KVStore
  | _, [] => []
  | s, r :: rs => s :: k.storesBefore (k.SetEventRecord s r).1 rs

/-- The successful calls of a sequence of `SetEventRecord` calls, in call order:
for each the store before the call, the record submitted and the store after. -/
def Keeper.successfulCalls (k : Keeper) :
    KVStore → List EventRecord → List (KVStore × EventRecord × KVStore)
  | _, [] => []
  | s, r :: rs =>
    match (k.SetEventRecord s r).2 with
    | none => (s, r, (k.SetEventRecord s r).1) :: k.successfulCalls (k.SetEventRecord s r).1 rs
    | some _ => k.successfulCalls (k.SetEventRecord s r).1 rs

/-- Invariant of the stores reached by ingestion, relative to the list `log` of
the records ingested so far, each with its canonical id: every entry of the
canonical time index is the entry of a logged record, and every logged record has
its time index entry and its canonical record in the store. -/
def Keeper.TimeIndexInv (k : Keeper) (V : Nat → Prop) (s : KVStore) (log : List EventRecord) :
    Prop :=
  (∀ e ∈ s, ∀ rest, e.1 = 0x13 :: rest →
    ∃ rec ∈ log, e.1 = k.GetEventRecordKeyWithTime rec.ID rec.RecordTime ∧
      k.MarshalUint64 rec.ID = some e.2) ∧
  (∀ rec ∈ log, V rec.RecordTime ∧ rec.ID < uint64Size ∧
    (∃ v, k.MarshalUint64 rec.ID = some v ∧
      KVStore.find s (k.GetEventRecordKeyWithTime rec.ID rec.RecordTime) = some v) ∧
    (∃ w, k.MarshalRecord rec = some w ∧ KVStore.find s (GetEventRecordKey rec.ID) = some w))

/-- Record that a call of `SetEventRecord` on `s` adds to the log: the record with
the assigned canonical id when the call succeeds, nothing when it fails. -/
def Keeper.ingestedBy (k : Keeper) (s : KVStore) (r : EventRecord) : List EventRecord :=
  match (k.SetEventRecord s r).2 with
  | none => [{ r with ID := (GetLatestID s + 1) % uint64Size }]
  | some _ => []

/-- The records ingested by the successful calls of a sequence of `SetEventRecord`
calls, in call order, each as it is stored: with its canonical id as `ID`. -/
def Keeper.ingested (k : Keeper) : KVStore → List EventRecord → List EventRecord
  | _, [] => []
  | s, r :: rs => k.ingestedBy s r ++ k.ingested (k.SetEventRecord s r).1 rs

/-- The canonical ids in use have no gaps: a canonical record is stored under an
id of the `uint64` range exactly when the id lies between 1 and `GetLatestID`. -/
def CanonicalIdsGapless (s : KVStore) : Prop :=
  ∀ id, id < uint64Size → (HasEventRecord s id = true ↔ 1 ≤ id ∧ id ≤ GetLatestID s)

/-- Invariant of the stores reached by ingestion, for the times in `V`: the
canonical ids have no gaps; every cross-reference entry and every root chain
time index entry belongs to a chain type and id whose dedupe key is set; and
every canonical time index entry belongs to an id up to the counter. -/
def Keeper.IngestInv (k : Keeper) (V : Nat → Prop) (s : KVStore) : Prop :=
  CanonicalIdsGapless s ∧
  (∀ e ∈ s, ∀ rest, e.1 = 0x19 :: rest →
    ∃ c i rootKey, e.1 = GetRootToHeimdallIdKey c i ∧
      k.GetRootChainEventRecordKey c i = some rootKey ∧ KVStore.Has s rootKey = true) ∧
  (∀ e ∈ s, ∀ rest, (e.1 = 0x15 :: rest ∨ e.1 = 0x14 :: rest) →
    ∃ c i t rootKey, V t ∧ k.GetRootChainEventRecordKeyWithTimePrefix c i t = some e.1 ∧
      k.GetRootChainEventRecordKey c i = some rootKey ∧ KVStore.Has s rootKey = true) ∧
  (∀ e ∈ s, ∀ rest, e.1 = 0x13 :: rest →
    ∃ t j, V t ∧ j < uint64Size ∧ j ≤ GetLatestID s ∧ e.1 = k.GetEventRecordKeyWithTime j t)

/-! ## Stores written by the keeper -/

/-- Stores written by the keeper: the empty store, and the store that each of its
five mutating methods leaves on such a store, whatever the outcome of the call. -/
inductive Keeper.Reached (k : Keeper) : KVStore → Prop
  | empty : Keeper.Reached k []
  | setEventRecord (s : KVStore) (r : EventRecord) :
    Keeper.Reached k s → Keeper.Reached k (k.SetEventRecord s r).1
  | setEventRecordWithID (s : KVStore) (r : EventRecord) :
    Keeper.Reached k s → Keeper.Reached k (k.SetEventRecordWithID s r).1
  | setEventRecordWithTime (s : KVStore) (r : EventRecord) (latestID : Nat) :
    Keeper.Reached k s → Keeper.Reached k (k.SetEventRecordWithTime s r latestID).1
  | setLatestID (s : KVStore) (num : Nat) :
    Keeper.Reached k s → Keeper.Reached k (SetLatestID s num)
  | setRecordSequence (s : KVStore) (t : Bytes) :
    Keeper.Reached k s → Keeper.Reached k (SetRecordSequence s t)

/-! ## A concrete keeper, for evaluating the definitions -/

/-- Toy record codec: the numeric fields, the length of the chain type, then the
chain type and the payload. -/
def demoMarshalRecord (r : EventRecord) : Option Bytes :=
  some (r.ID :: r.RecordTime :: r.RootChainType.length :: (r.RootChainType ++ r.Payload))

def demoUnmarshalRecord : Bytes → Option EventRecord
  | id :: t :: n :: rest => some ⟨id, rest.take n, t, rest.drop n⟩
  | _ => none

/-- Keeper with the toy codec, decimal integers, one digit of time, and the
chain types `"eth"` and `"tron"`. -/
def demoKeeper : Keeper where
  MarshalRecord := demoMarshalRecord
  UnmarshalRecord := demoUnmarshalRecord
  MarshalUint64 := fun n => some (FormatUint n)
  UnmarshalUint64 := ParseUint
  FormatTimeBytes := fun t => [48 + t % 10]
  RootChainTypeEth := [101, 116, 104]
  RootChainTypeTron := [116, 114, 111, 110]

/-- Eth event 7, observed at time 3. -/
def demoEthA : EventRecord := ⟨7, [101, 116, 104], 3, [9]⟩

/-- Eth event 7 submitted again, at time 4. -/
def demoEthB : EventRecord := ⟨7, [101, 116, 104], 4, [8]⟩

/-- Tron event 7, observed at time 5. -/
def demoTronC : EventRecord := ⟨7, [116, 114, 111, 110], 5, [6]⟩

/-- Store left by `demoKeeper.SetEventRecord` of `demoEthA` on the empty store. -/
def demoStoreA : KVStore :=
  [([17, 49], [1, 3, 3, 101, 116, 104, 9]),
   ([19, 51, 49], [49]),
   ([21, 51, 55], [55]),
   ([23, 55], [7, 3, 3, 101, 116, 104, 9]),
   ([24], [49]),
   ([25, 101, 116, 104, 55], [49])]

/-- Store left by `demoKeeper.SetEventRecordWithID` of `demoEthA` on the empty
store. -/
def demoStoreID : KVStore :=
  [([17, 49], [1, 3, 3, 101, 116, 104, 9]),
   ([23, 55], [7, 3, 3, 101, 116, 104, 9]),
   ([24], [49]),
   ([25, 101, 116, 104, 55], [49])]

/-- Store in which the eth time index entry of event 7 at time 3 is set while
its dedupe entry is not. -/
def demoStoreTimeKey : KVStore := [([0x15, 51, 55], [1])]

/-- Store left by the failing `demoKeeper.SetEventRecord` of `demoEthA` on
`demoStoreTimeKey`. -/
def demoStoreFailed : KVStore :=
  [([17, 49], [1, 3, 3, 101, 116, 104, 9]),
   ([21, 51, 55], [1]),
   ([23, 55], [7, 3, 3, 101, 116, 104, 9]),
   ([24], [49]),
   ([25, 101, 116, 104, 55], [49])]

/-- Store left on the empty store by the statements of
`demoKeeper.SetEventRecordWithID` of `demoEthA` that precede `SetLatestID`. -/
def demoStoreUntilCounter : KVStore :=
  [([17, 49], [1, 3, 3, 101, 116, 104, 9]),
   ([23, 55], [7, 3, 3, 101, 116, 104, 9]),
   ([25, 101, 116, 104, 55], [49])]

/-- Store whose counter holds the digit 5. -/
def demoStoreCounterFive : KVStore := [([0x18], [53])]

/-- Store whose counter holds the letter x, which is no decimal number. -/
def demoStoreCounterLetter : KVStore := [([0x18], [120])]

/-- Store with the sequence `"a"` marked and the counter at 5. -/
def demoStoreSequence : KVStore := [([0x12, 97], [0x01]), ([0x18], [53])]

/-- Store with the sequences `"a"` and `"b"` marked among entries of other
families. -/
def demoStoreTwoSequences : KVStore :=
  [([0x11, 49], [1, 3, 3, 101, 116, 104, 9]), ([0x12, 97], [0x01]), ([0x12, 98], [0x01]),
   ([0x18], [49])]

/-- Ten eth events, with the root chain ids 1 to 10, all observed at time 3. -/
def demoTenRecords : List EventRecord :=
  (List.range 10).map (fun i => ⟨i + 1, [101, 116, 104], 3, []⟩)

/-- Eth event 11, observed at time 3. -/
def demoEthEleven : EventRecord := ⟨11, [101, 116, 104], 3, [9]⟩

/-- Codec encode/decode round-trips: decoding what was encoded gives the value
back, for records and for the integers of the `uint64` range. -/
def Keeper.CodecRoundTrips (k : Keeper) : Prop :=
  (∀ r b, k.MarshalRecord r = some b → k.UnmarshalRecord b = some r) ∧
  (∀ n b, n < uint64Size → k.MarshalUint64 n = some b → k.UnmarshalUint64 b = some n)

/-- Codec marshalling never fails on records and on integers of the `uint64`
range. -/
def Keeper.CodecTotal (k : Keeper) : Prop :=
  (∀ r, (k.MarshalRecord r).isSome = true) ∧
  (∀ n, n < uint64Size → (k.MarshalUint64 n).isSome = true)

/-- Time formatting is fixed-width and order-preserving on the times in `V`. -/
def Keeper.TimeFormatOrdered (k : Keeper) (V : Nat → Prop) : Prop :=
  (∀ t1 t2, V t1 → V t2 → (k.FormatTimeBytes t1).length = (k.FormatTimeBytes t2).length) ∧
  (∀ t1 t2, V t1 → V t2 → t1 < t2 →
    bytesLt (k.FormatTimeBytes t1) (k.FormatTimeBytes t2) = true)

/-- Time formatting is fixed-width on the times in `V`. -/
def Keeper.TimeFormatFixedWidth (k : Keeper) (V : Nat → Prop) : Prop :=
  ∀ t1 t2, V t1 → V t2 → (k.FormatTimeBytes t1).length = (k.FormatTimeBytes t2).length

/-- The two chain type constants stay apart when decimal digits follow them: no
cross-reference key of the one is a cross-reference key of the other. -/
def Keeper.ChainTypesSeparated (k : Keeper) : Prop :=
  ∀ a b, k.RootChainTypeEth ++ FormatUint a ≠ k.RootChainTypeTron ++ FormatUint b

/-- A byte string does not end in a decimal digit. -/
def NoDigitAtEnd (c : Bytes) : Prop :=
  ∀ b, c.getLast? = some b → ¬ (48 ≤ b ∧ b ≤ 57)

/-! ## Lemmas: the store -/

theorem KVStore.find_Set_same (s : KVStore) (key value : Bytes) :
    KVStore.find (KVStore.Set s key value) key = some value := by
  induction s with
  | nil => simp [KVStore.Set, KVStore.find]
  | cons e s ih =>
    obtain ⟨k, v⟩ := e
    simp only [KVStore.Set]
    split
    · simp [KVStore.find]
    · split
      · simp [KVStore.find]
      · rename_i h _
        simp [KVStore.find, h, ih]

theorem KVStore.find_Set_other (s : KVStore) (key value key2 : Bytes) (h : key2 ≠ key) :
    KVStore.find (KVStore.Set s key value) key2 = KVStore.find s key2 := by
  induction s with
  | nil => simp [KVStore.Set, KVStore.find, Ne.symm h]
  | cons e s ih =>
    obtain ⟨k, v⟩ := e
    simp only [KVStore.Set]
    split
    · rename_i hk
      subst hk
      simp [KVStore.find, Ne.symm h]
    · split
      · simp [KVStore.find, Ne.symm h]
      · simp [KVStore.find, ih]

theorem KVStore.Has_Set_same (s : KVStore) (key value : Bytes) :
    KVStore.Has (KVStore.Set s key value) key = true := by
  simp [KVStore.Has, KVStore.find_Set_same]

theorem KVStore.Has_Set_other (s : KVStore) (key value key2 : Bytes) (h : key2 ≠ key) :
    KVStore.Has (KVStore.Set s key value) key2 = KVStore.Has s key2 := by
  simp [KVStore.Has, KVStore.find_Set_other s key value key2 h]

theorem KVStore.Get_Set_same (s : KVStore) (key value : Bytes) :
    KVStore.Get (KVStore.Set s key value) key = value := by
  simp [KVStore.Get, KVStore.find_Set_same]

theorem KVStore.Get_Set_other (s : KVStore) (key value key2 : Bytes) (h : key2 ≠ key) :
    KVStore.Get (KVStore.Set s key value) key2 = KVStore.Get s key2 := by
  simp [KVStore.Get, KVStore.find_Set_other s key value key2 h]

/-- A key that is set stays set under `Set`. -/
theorem KVStore.Has_Set_of_Has (s : KVStore) (key value key2 : Bytes)
    (h : KVStore.Has s key2 = true) : KVStore.Has (KVStore.Set s key value) key2 = true := by
  by_cases hk : key2 = key
  · subst hk
    exact KVStore.Has_Set_same s key2 value
  · rw [KVStore.Has_Set_other s key value key2 hk]
    exact h

/-! ## Lemmas: decimal round trip -/

theorem parseDigits_append (xs : Bytes) (c n : Nat) :
    parseDigits (xs ++ [c]) n = (parseDigits xs n).bind (fun m => parseDigits [c] m) := by
  induction xs generalizing n with
  | nil => simp [parseDigits]
  | cons x xs ih =>
    simp only [List.cons_append, parseDigits]
    split
    · split
      · rfl
      · split
        · rfl
        · exact ih _
    · rfl

theorem formatDigits_ne_nil (fuel n : Nat) : formatDigits (fuel + 1) n ≠ [] := by
  simp only [formatDigits]
  split <;> simp

theorem parseDigits_formatDigits (fuel n : Nat) (hf : n < 10 ^ fuel) (hn : n ≤ maxUint64) :
    parseDigits (formatDigits fuel n) 0 = some n := by
  induction fuel generalizing n with
  | zero =>
    have : n = 0 := by simpa using hf
    subst this
    simp [formatDigits, parseDigits]
  | succ fuel ih =>
    simp only [formatDigits]
    split
    · rename_i h10
      simp only [maxUint64] at hn
      simp [parseDigits, maxUint64]
      omega
    · rename_i h10
      have h1 : n / 10 < 10 ^ fuel := by
        rw [pow_succ] at hf
        omega
      have h2 : n / 10 ≤ maxUint64 := by omega
      rw [parseDigits_append, ih (n / 10) h1 h2]
      simp only [maxUint64] at hn h2
      simp [parseDigits, maxUint64]
      omega

/-- Decimal formatting followed by base-10 parsing is the identity on `uint64`. -/
theorem ParseUint_FormatUint (n : Nat) (hn : n < uint64Size) :
    ParseUint (FormatUint n) = some n := by
  simp only [uint64Size] at hn
  have h1 : n < 10 ^ 20 := by omega
  have h2 : n ≤ maxUint64 := by simp only [maxUint64]; omega
  simp only [ParseUint, FormatUint, formatDigits_ne_nil, if_false]
  exact parseDigits_formatDigits 20 n h1 h2

theorem GetLatestID_SetLatestID (s : KVStore) (n : Nat) (hn : n < uint64Size) :
    GetLatestID (SetLatestID s n) = n := by
  simp [GetLatestID, SetLatestID, KVStore.Has_Set_same, KVStore.Get_Set_same,
    ParseUint_FormatUint n hn]

/-- Writing a key other than the counter key leaves the counter as it is. -/
theorem GetLatestID_Set_other (s : KVStore) (key value : Bytes)
    (h : key ≠ LatestMsgIDPrefixKey) : GetLatestID (KVStore.Set s key value) = GetLatestID s := by
  simp [GetLatestID, KVStore.Has_Set_other s key value _ (Ne.symm h),
    KVStore.Get_Set_other s key value _ (Ne.symm h)]

/-! ## Lemmas: the byte order -/

theorem bytesLt_nil_right (a : Bytes) : bytesLt a [] = false := by
  cases a <;> rfl

theorem bytesLt_cons_cons (x y : Nat) (a b : Bytes) :
    bytesLt (x :: a) (y :: b) = if x < y then true else if y < x then false else bytesLt a b :=
  rfl

theorem bytesLt_irrefl (a : Bytes) : bytesLt a a = false := by
  induction a with
  | nil => rfl
  | cons x a ih => simp [bytesLt_cons_cons, ih]

theorem bytesLt_trans (a b c : Bytes) (h1 : bytesLt a b = true) (h2 : bytesLt b c = true) :
    bytesLt a c = true := by
  induction a generalizing b c with
  | nil =>
    cases c with
    | nil => rw [bytesLt_nil_right] at h2; exact absurd h2 (by simp)
    | cons z c => rfl
  | cons x a ih =>
    cases b with
    | nil => exact absurd h1 (by simp [bytesLt])
    | cons y b =>
      cases c with
      | nil => exact absurd h2 (by simp [bytesLt])
      | cons z c =>
        rw [bytesLt_cons_cons] at h1 h2 ⊢
        by_cases hxy : x < y
        · by_cases hyz : y < z
          · simp [lt_trans hxy hyz]
          · by_cases hzy : z < y
            · simp [hyz, hzy] at h2
            · have : y = z := by omega
              subst this
              simp [hxy]
        · by_cases hyx : y < x
          · simp [hxy, hyx] at h1
          · have : x = y := by omega
            subst this
            simp only [hxy, if_false] at h1
            by_cases hxz : x < z
            · simp [hxz]
            · by_cases hzx : z < x
              · simp [hxz, hzx] at h2
              · simp only [hxz, hzx, if_false] at h2 ⊢
                exact ih b c h1 h2

theorem bytesLt_asymm (a b : Bytes) (h : bytesLt a b = true) : bytesLt b a = false := by
  cases hh : bytesLt b a with
  | false => rfl
  | true =>
    have := bytesLt_trans a b a h hh
    rw [bytesLt_irrefl] at this
    exact absurd this (by simp)

theorem bytesLt_total (a b : Bytes) (hne : a ≠ b) (h : bytesLt a b = false) :
    bytesLt b a = true := by
  induction a generalizing b with
  | nil =>
    cases b with
    | nil => exact absurd rfl hne
    | cons y b => simp [bytesLt] at h
  | cons x a ih =>
    cases b with
    | nil => rfl
    | cons y b =>
      rw [bytesLt_cons_cons] at h ⊢
      by_cases hxy : x < y
      · simp [hxy] at h
      · by_cases hyx : y < x
        · simp [hyx]
        · have : x = y := by omega
          subst this
          simp only [hxy, if_false] at h ⊢
          exact ih b (fun hab => hne (by rw [hab])) h

/-- Bytes appended to the smaller side do not change a comparison of byte
strings of the same length. -/
theorem bytesLt_append_left (a b d : Bytes) (hlen : a.length = b.length) :
    bytesLt (a ++ d) b = bytesLt a b := by
  induction a generalizing b with
  | nil =>
    cases b with
    | nil => simp [bytesLt_nil_right]
    | cons y b => simp at hlen
  | cons x a ih =>
    cases b with
    | nil => simp at hlen
    | cons y b =>
      simp only [List.cons_append, bytesLt_cons_cons]
      rw [ih b (by simpa using hlen)]

/-! ## Lemmas: the store as a sorted list -/

theorem KVStore.find_Set (s : KVStore) (key value key2 : Bytes) :
    KVStore.find (KVStore.Set s key value) key2 =
      if key2 = key then some value else KVStore.find s key2 := by
  split
  · rename_i h
    rw [h, KVStore.find_Set_same]
  · rename_i h
    exact KVStore.find_Set_other s key value key2 h

theorem KVStore.Has_Set (s : KVStore) (key value key2 : Bytes) :
    KVStore.Has (KVStore.Set s key value) key2 = (decide (key2 = key) || KVStore.Has s key2) := by
  by_cases h : key2 = key
  · subst h
    simp [KVStore.Has_Set_same]
  · simp [KVStore.Has_Set_other s key value key2 h, h]

theorem KVStore.mem_Set (s : KVStore) (key value : Bytes) (e : Bytes × Bytes)
    (h : e ∈ KVStore.Set s key value) : e = (key, value) ∨ e ∈ s := by
  induction s with
  | nil => simpa [KVStore.Set] using h
  | cons e0 s ih =>
    obtain ⟨k0, v0⟩ := e0
    simp only [KVStore.Set] at h
    split at h
    · rcases List.mem_cons.mp h with h1 | h1
      · exact Or.inl h1
      · exact Or.inr (List.mem_cons_of_mem _ h1)
    · split at h
      · rcases List.mem_cons.mp h with h1 | h1
        · exact Or.inl h1
        · exact Or.inr h1
      · rcases List.mem_cons.mp h with h1 | h1
        · exact Or.inr (by rw [h1]; exact List.mem_cons_self _ _)
        · rcases ih h1 with h2 | h2
          · exact Or.inl h2
          · exact Or.inr (List.mem_cons_of_mem _ h2)

theorem KVStore.find_some_mem (s : KVStore) (key value : Bytes)
    (h : KVStore.find s key = some value) : (key, value) ∈ s := by
  induction s with
  | nil => simp [KVStore.find] at h
  | cons e0 s ih =>
    obtain ⟨k0, v0⟩ := e0
    simp only [KVStore.find] at h
    split at h
    · rename_i hk
      simp only [Option.some.injEq] at h
      rw [hk, h]
      exact List.mem_cons_self _ _
    · exact List.mem_cons_of_mem _ (ih h)

theorem KVStore.Sorted_nil : KVStore.Sorted [] := List.Pairwise.nil

/-- Store method `Set` keeps the keys strictly ascending. -/
theorem KVStore.Sorted_Set (s : KVStore) (key value : Bytes) (h : KVStore.Sorted s) :
    KVStore.Sorted (KVStore.Set s key value) := by
  induction s with
  | nil => simp [KVStore.Set, KVStore.Sorted]
  | cons e0 s ih =>
    obtain ⟨k0, v0⟩ := e0
    have hp := List.pairwise_cons.mp h
    simp only [KVStore.Set]
    split
    · rename_i hk
      subst hk
      exact List.pairwise_cons.mpr ⟨fun e he => hp.1 e he, hp.2⟩
    · rename_i hk
      split
      · rename_i hlt
        refine List.pairwise_cons.mpr ⟨?_, h⟩
        intro e he
        rcases List.mem_cons.mp he with h1 | h1
        · rw [h1]; exact hlt
        · exact bytesLt_trans _ _ _ hlt (hp.1 e h1)
      · rename_i hlt
        refine List.pairwise_cons.mpr ⟨?_, ih hp.2⟩
        intro e he
        rcases KVStore.mem_Set s key value e he with h1 | h1
        · rw [h1]
          exact bytesLt_total key k0 (fun hh => hk hh.symm) (by simpa using hlt)
        · exact hp.1 e h1

/-- A key outside the scanned family: `Set` does not change the scan. -/
theorem KVStorePrefixIterator_Set_other (s : KVStore) (p key value : Bytes)
    (hp : p.isPrefixOf key = false) :
    KVStorePrefixIterator (KVStore.Set s key value) p = KVStorePrefixIterator s p := by
  induction s with
  | nil => simp [KVStore.Set, KVStorePrefixIterator, hp]
  | cons e0 s ih =>
    obtain ⟨k0, v0⟩ := e0
    simp only [KVStorePrefixIterator] at ih ⊢
    simp only [KVStore.Set]
    split
    · rename_i hk
      subst hk
      simp [List.filter_cons, hp]
    · split
      · simp [List.filter_cons, hp]
      · simp only [List.filter_cons, ih]

theorem KVStore.Set_cons_of_lt (s : KVStore) (key value : Bytes)
    (h : ∀ e ∈ s, bytesLt key e.1 = true) : KVStore.Set s key value = (key, value) :: s := by
  cases s with
  | nil => rfl
  | cons e0 s =>
    obtain ⟨k0, v0⟩ := e0
    have h0 : bytesLt key k0 = true := h (k0, v0) (List.mem_cons_self _ _)
    have hne : k0 ≠ key := by
      intro hk
      rw [hk, bytesLt_irrefl] at h0
      exact absurd h0 (by simp)
    simp [KVStore.Set, hne, h0]

/-- A key of the scanned family: on a sorted store, the scan after `Set` is the
scan before it with the entry set. -/
theorem KVStorePrefixIterator_Set_same (s : KVStore) (p key value : Bytes)
    (hs : KVStore.Sorted s) (hp : p.isPrefixOf key = true) :
    KVStorePrefixIterator (KVStore.Set s key value) p =
      KVStore.Set (KVStorePrefixIterator s p) key value := by
  induction s with
  | nil => simp [KVStore.Set, KVStorePrefixIterator, hp]
  | cons e0 s ih =>
    obtain ⟨k0, v0⟩ := e0
    have hpw := List.pairwise_cons.mp hs
    have ih2 := ih hpw.2
    simp only [KVStorePrefixIterator] at ih2 ⊢
    simp only [KVStore.Set]
    split
    · rename_i hk
      subst hk
      simp [List.filter_cons, hp, KVStore.Set]
    · rename_i hk
      split
      · rename_i hlt
        have hall : ∀ e ∈ List.filter (fun e => p.isPrefixOf e.1) ((k0, v0) :: s),
            bytesLt key e.1 = true := by
          intro e he
          have he2 := (List.mem_filter.mp he).1
          rcases List.mem_cons.mp he2 with h1 | h1
          · rw [h1]; exact hlt
          · exact bytesLt_trans _ _ _ hlt (hpw.1 e h1)
        rw [KVStore.Set_cons_of_lt _ key value hall]
        simp [List.filter_cons, hp]
      · rename_i hlt
        by_cases hp0 : p.isPrefixOf k0 = true
        · simp only [List.filter_cons, hp0, if_true, ih2]
          simp [KVStore.Set, hk, hlt]
        · simp only [List.filter_cons, hp0, ih2]
          simp

/-! ## Lemmas: the key encoder -/

theorem GetEventRecordKey_ne_counter (n : Nat) : GetEventRecordKey n ≠ LatestMsgIDPrefixKey := by
  simp [GetEventRecordKey, GetRecordKey, StateRecordPrefixKey, LatestMsgIDPrefixKey]

theorem GetRootToHeimdallIdKey_ne_counter (c : Bytes) (n : Nat) :
    GetRootToHeimdallIdKey c n ≠ LatestMsgIDPrefixKey := by
  simp [GetRootToHeimdallIdKey, GetRecordKey, RootIdToHeimdallIDPrefixKey, LatestMsgIDPrefixKey]

theorem GetEventRecordKey_ne_GetRootToHeimdallIdKey (c : Bytes) (n m : Nat) :
    GetEventRecordKey m ≠ GetRootToHeimdallIdKey c n := by
  simp [GetEventRecordKey, GetRootToHeimdallIdKey, GetRecordKey, StateRecordPrefixKey,
    RootIdToHeimdallIDPrefixKey]

/-- A dedupe key starts with the byte of the eth or of the tron dedupe family. -/
theorem Keeper.GetRootChainEventRecordKey_some (k : Keeper) (c : Bytes) (n : Nat) (key : Bytes)
    (h : k.GetRootChainEventRecordKey c n = some key) :
    (c = k.RootChainTypeEth ∨ c = k.RootChainTypeTron) ∧
      (key = 0x17 :: FormatUint n ∨ key = 0x16 :: FormatUint n) := by
  simp only [Keeper.GetRootChainEventRecordKey] at h
  split at h
  · rename_i hc
    simp only [Option.some.injEq] at h
    exact ⟨Or.inl hc, Or.inl (by simp [← h, GetRecordKey, EthStateRecordPrefixKey])⟩
  · split at h
    · rename_i hc
      simp only [Option.some.injEq] at h
      exact ⟨Or.inr hc, Or.inr (by simp [← h, GetRecordKey, TronStateRecordPrefixKey])⟩
    · exact absurd h (by simp)

/-- A root chain time index key starts with the byte of the eth or of the tron
time index family. -/
theorem Keeper.GetRootChainEventRecordKeyWithTimePrefix_some (k : Keeper) (c : Bytes) (n t : Nat)
    (key : Bytes) (h : k.GetRootChainEventRecordKeyWithTimePrefix c n t = some key) :
    key = 0x15 :: (k.FormatTimeBytes t ++ FormatUint n) ∨
      key = 0x14 :: (k.FormatTimeBytes t ++ FormatUint n) := by
  simp only [Keeper.GetRootChainEventRecordKeyWithTimePrefix] at h
  split at h
  · simp only [Option.some.injEq] at h
    exact Or.inl (by
      simp [← h, GetRecordKey, Keeper.GetRecordKeyWithTimePrefix, EthStateRecordPrefixKeyWithTime])
  · split at h
    · simp only [Option.some.injEq] at h
      exact Or.inr (by
        simp [← h, GetRecordKey, Keeper.GetRecordKeyWithTimePrefix,
          TronStateRecordPrefixKeyWithTime])
    · exact absurd h (by simp)

theorem Keeper.GetEventRecordKeyWithTime_eq (k : Keeper) (n t : Nat) :
    k.GetEventRecordKeyWithTime n t = 0x13 :: (k.FormatTimeBytes t ++ FormatUint n) := by
  simp [Keeper.GetEventRecordKeyWithTime, Keeper.GetEventRecordKeyWithTimePrefix,
    Keeper.GetRecordKeyWithTimePrefix, GetRecordKey, StateRecordPrefixKeyWithTime]

theorem GetEventRecordKey_eq (n : Nat) : GetEventRecordKey n = 0x11 :: FormatUint n := by
  simp [GetEventRecordKey, GetRecordKey, StateRecordPrefixKey]

theorem GetRootToHeimdallIdKey_eq (c : Bytes) (n : Nat) :
    GetRootToHeimdallIdKey c n = 0x19 :: (c ++ FormatUint n) := by
  simp [GetRootToHeimdallIdKey, GetRecordKey, RootIdToHeimdallIDPrefixKey]

/-! ## Lemmas: the record store -/

theorem setEventRecordStore_ok (s s1 : KVStore) (key value : Bytes)
    (h : setEventRecordStore s key value = (s1, none)) :
    KVStore.Has s key = false ∧ s1 = KVStore.Set s key value := by
  simp only [setEventRecordStore] at h
  split at h
  · simp at h
  · rename_i hh
    simp only [Prod.mk.injEq, and_true] at h
    exact ⟨by simpa using hh, h.symm⟩

theorem setEventRecordStore_error (s s1 : KVStore) (key value : Bytes) (e : Err)
    (h : setEventRecordStore s key value = (s1, some e)) :
    KVStore.Has s key = true ∧ s1 = s ∧ e = Err.keyExists := by
  simp only [setEventRecordStore] at h
  split at h
  · rename_i hh
    simp only [Prod.mk.injEq, Option.some.injEq] at h
    exact ⟨hh, h.1.symm, h.2.symm⟩
  · simp at h

/-- What a successful `SetEventRecordWithID` did: the three entries it wrote, in
order, the counter it stored and the counter value it returns. -/
theorem Keeper.SetEventRecordWithID_ok (k : Keeper) (s s1 : KVStore) (r : EventRecord) (n : Nat)
    (h : k.SetEventRecordWithID s r = (s1, Except.ok n)) :
    ∃ rootKey v1 v2 v3,
      k.GetRootChainEventRecordKey r.RootChainType r.ID = some rootKey ∧
      k.MarshalRecord r = some v1 ∧
      KVStore.Has s rootKey = false ∧
      n = GetLatestID s ∧
      k.MarshalUint64 ((n + 1) % uint64Size) = some v2 ∧
      KVStore.Has (KVStore.Set s rootKey v1) (GetRootToHeimdallIdKey r.RootChainType r.ID)
        = false ∧
      k.MarshalRecord { r with ID := (n + 1) % uint64Size } = some v3 ∧
      KVStore.Has
        (KVStore.Set (KVStore.Set s rootKey v1) (GetRootToHeimdallIdKey r.RootChainType r.ID) v2)
        (GetEventRecordKey ((n + 1) % uint64Size)) = false ∧
      s1 = SetLatestID
        (KVStore.Set
          (KVStore.Set (KVStore.Set s rootKey v1)
            (GetRootToHeimdallIdKey r.RootChainType r.ID) v2)
          (GetEventRecordKey ((n + 1) % uint64Size)) v3)
        ((n + 1) % uint64Size) := by
  simp only [Keeper.SetEventRecordWithID] at h
  split at h
  · simp at h
  rename_i v1 hv1
  split at h
  · simp at h
  rename_i rootKey hroot
  split at h
  · simp at h
  rename_i sa hsa
  obtain ⟨hhas1, rfl⟩ := setEventRecordStore_ok _ _ _ _ hsa
  split at h
  · simp at h
  rename_i v2 hv2
  split at h
  · simp at h
  rename_i sb hsb
  obtain ⟨hhas2, rfl⟩ := setEventRecordStore_ok _ _ _ _ hsb
  split at h
  · simp at h
  rename_i v3 hv3
  split at h
  · simp at h
  rename_i sc hsc
  obtain ⟨hhas3, rfl⟩ := setEventRecordStore_ok _ _ _ _ hsc
  simp only [Prod.mk.injEq, Except.ok.injEq] at h
  obtain ⟨hs, hn⟩ := h
  have hne : rootKey ≠ LatestMsgIDPrefixKey := by
    rcases (k.GetRootChainEventRecordKey_some _ _ _ hroot).2 with h1 | h1 <;>
      simp [h1, LatestMsgIDPrefixKey]
  rw [GetLatestID_Set_other _ _ _ hne] at hn hs hv2 hv3 hhas3
  subst hn
  exact ⟨rootKey, v1, v2, v3, hroot, hv1, hhas1, rfl, hv2, hhas2, hv3, hhas3, hs.symm⟩

/-- What a successful `SetEventRecordWithTime` did: the two time index entries it
wrote, in order. -/
theorem Keeper.SetEventRecordWithTime_ok (k : Keeper) (s s1 : KVStore) (r : EventRecord)
    (n : Nat) (h : k.SetEventRecordWithTime s r n = (s1, none)) :
    ∃ tkey v4 v5,
      k.GetRootChainEventRecordKeyWithTimePrefix r.RootChainType r.ID r.RecordTime = some tkey ∧
      k.MarshalUint64 r.ID = some v4 ∧
      KVStore.Has s tkey = false ∧
      k.MarshalUint64 ((n + 1) % uint64Size) = some v5 ∧
      KVStore.Has (KVStore.Set s tkey v4)
        (k.GetEventRecordKeyWithTime ((n + 1) % uint64Size) r.RecordTime) = false ∧
      s1 = KVStore.Set (KVStore.Set s tkey v4)
        (k.GetEventRecordKeyWithTime ((n + 1) % uint64Size) r.RecordTime) v5 := by
  simp only [Keeper.SetEventRecordWithTime] at h
  split at h
  · simp at h
  rename_i v4 hv4
  split at h
  · simp at h
  rename_i tkey htkey
  split at h
  · simp at h
  rename_i sa hsa
  obtain ⟨hhas1, rfl⟩ := setEventRecordStore_ok _ _ _ _ hsa
  split at h
  · simp at h
  rename_i v5 hv5
  obtain ⟨hhas2, hs⟩ := setEventRecordStore_ok _ _ _ _ h
  exact ⟨tkey, v4, v5, htkey, hv4, hhas1, hv5, hhas2, hs⟩

/-- Whatever its outcome, `SetEventRecordWithTime` touches only keys of the three
time index families. -/
theorem Keeper.SetEventRecordWithTime_find (k : Keeper) (s : KVStore) (r : EventRecord)
    (n : Nat) (key2 : Bytes)
    (hk : ∀ rest, key2 ≠ 0x13 :: rest ∧ key2 ≠ 0x14 :: rest ∧ key2 ≠ 0x15 :: rest) :
    KVStore.find (k.SetEventRecordWithTime s r n).1 key2 = KVStore.find s key2 := by
  simp only [Keeper.SetEventRecordWithTime]
  split
  · rfl
  split
  · rfl
  rename_i tkey htkey
  have h1 : key2 ≠ tkey := by
    rcases k.GetRootChainEventRecordKeyWithTimePrefix_some _ _ _ _ htkey with h | h
    · rw [h]; exact (hk _).2.2
    · rw [h]; exact (hk _).2.1
  split
  · rename_i sa e hsa
    obtain ⟨_, rfl, _⟩ := setEventRecordStore_error _ _ _ _ _ hsa
    rfl
  rename_i sa hsa
  obtain ⟨_, rfl⟩ := setEventRecordStore_ok _ _ _ _ hsa
  split
  · exact KVStore.find_Set_other _ _ _ _ h1
  have h2 : key2 ≠ k.GetEventRecordKeyWithTime ((n + 1) % uint64Size) r.RecordTime := by
    rw [k.GetEventRecordKeyWithTime_eq]; exact (hk _).1
  simp only [setEventRecordStore]
  split
  · exact KVStore.find_Set_other _ _ _ _ h1
  · simp only
    rw [KVStore.find_Set_other _ _ _ _ h2, KVStore.find_Set_other _ _ _ _ h1]

theorem GetLatestID_congr (s s1 : KVStore)
    (h : KVStore.find s1 LatestMsgIDPrefixKey = KVStore.find s LatestMsgIDPrefixKey) :
    GetLatestID s1 = GetLatestID s := by
  simp [GetLatestID, KVStore.Has, KVStore.Get, h]

theorem Keeper.SetEventRecordWithTime_GetLatestID (k : Keeper) (s : KVStore) (r : EventRecord)
    (n : Nat) : GetLatestID (k.SetEventRecordWithTime s r n).1 = GetLatestID s := by
  apply GetLatestID_congr
  apply k.SetEventRecordWithTime_find
  intro rest
  simp [LatestMsgIDPrefixKey]

/-- A failing `SetEventRecordWithID` leaves the counter as it was. -/
theorem Keeper.SetEventRecordWithID_error (k : Keeper) (s s1 : KVStore) (r : EventRecord)
    (e : Err) (h : k.SetEventRecordWithID s r = (s1, Except.error e)) :
    GetLatestID s1 = GetLatestID s := by
  simp only [Keeper.SetEventRecordWithID] at h
  split at h
  · simp only [Prod.mk.injEq] at h
    rw [← h.1]
  split at h
  · simp only [Prod.mk.injEq] at h
    rw [← h.1]
  rename_i rootKey hroot
  have hne : rootKey ≠ LatestMsgIDPrefixKey := by
    rcases (k.GetRootChainEventRecordKey_some _ _ _ hroot).2 with h1 | h1 <;>
      simp [h1, LatestMsgIDPrefixKey]
  split at h
  · rename_i sa e1 hsa
    obtain ⟨_, rfl, _⟩ := setEventRecordStore_error _ _ _ _ _ hsa
    simp only [Prod.mk.injEq] at h
    rw [← h.1]
  rename_i sa hsa
  obtain ⟨_, rfl⟩ := setEventRecordStore_ok _ _ _ _ hsa
  split at h
  · simp only [Prod.mk.injEq] at h
    rw [← h.1, GetLatestID_Set_other _ _ _ hne]
  split at h
  · rename_i sb e1 hsb
    obtain ⟨_, rfl, _⟩ := setEventRecordStore_error _ _ _ _ _ hsb
    simp only [Prod.mk.injEq] at h
    rw [← h.1, GetLatestID_Set_other _ _ _ hne]
  rename_i sb hsb
  obtain ⟨_, rfl⟩ := setEventRecordStore_ok _ _ _ _ hsb
  split at h
  · simp only [Prod.mk.injEq] at h
    rw [← h.1, GetLatestID_Set_other _ _ _ (GetRootToHeimdallIdKey_ne_counter _ _),
      GetLatestID_Set_other _ _ _ hne]
  split at h
  · rename_i sc e1 hsc
    obtain ⟨_, rfl, _⟩ := setEventRecordStore_error _ _ _ _ _ hsc
    simp only [Prod.mk.injEq] at h
    rw [← h.1, GetLatestID_Set_other _ _ _ (GetRootToHeimdallIdKey_ne_counter _ _),
      GetLatestID_Set_other _ _ _ hne]
  · simp at h

/-- A dedupe key that is set makes `SetEventRecordWithID` fail without a write. -/
theorem Keeper.SetEventRecordWithID_duplicate (k : Keeper) (s : KVStore) (r : EventRecord)
    (rootKey : Bytes) (hroot : k.GetRootChainEventRecordKey r.RootChainType r.ID = some rootKey)
    (hhas : KVStore.Has s rootKey = true) :
    ∃ e, k.SetEventRecordWithID s r = (s, Except.error e) := by
  simp only [Keeper.SetEventRecordWithID, hroot, setEventRecordStore, hhas, if_true]
  split
  · exact ⟨_, rfl⟩
  · exact ⟨_, rfl⟩

/-- What a successful `SetEventRecord` did: the entries written by its two
halves. -/
theorem Keeper.SetEventRecord_ok (k : Keeper) (s s2 : KVStore) (r : EventRecord)
    (h : k.SetEventRecord s r = (s2, none)) :
    ∃ s1, k.SetEventRecordWithID s r = (s1, Except.ok (GetLatestID s)) ∧
      k.SetEventRecordWithTime s1 r (GetLatestID s) = (s2, none) := by
  simp only [Keeper.SetEventRecord] at h
  split at h
  · simp at h
  rename_i s1 n hid
  obtain ⟨_, _, _, _, _, _, _, hn, _⟩ := k.SetEventRecordWithID_ok _ _ _ _ hid
  subst hn
  exact ⟨s1, hid, h⟩

theorem KVStore.Has_false_of_Set (s : KVStore) (key value key2 : Bytes)
    (h : KVStore.Has (KVStore.Set s key value) key2 = false) : KVStore.Has s key2 = false := by
  cases hh : KVStore.Has s key2 with
  | false => rfl
  | true => rw [KVStore.Has_Set_of_Has s key value key2 hh] at h; exact absurd h (by simp)

/-- Store after a successful `SetEventRecordWithID`, read back key by key. -/
theorem Keeper.SetEventRecordWithID_post (k : Keeper) (s s1 : KVStore) (r : EventRecord) (n : Nat)
    (h : k.SetEventRecordWithID s r = (s1, Except.ok n)) :
    ∃ rootKey v1 v2 v3,
      n = GetLatestID s ∧
      GetLatestID s1 = (n + 1) % uint64Size ∧
      k.GetRootChainEventRecordKey r.RootChainType r.ID = some rootKey ∧
      k.MarshalRecord r = some v1 ∧
      k.MarshalUint64 ((n + 1) % uint64Size) = some v2 ∧
      k.MarshalRecord { r with ID := (n + 1) % uint64Size } = some v3 ∧
      KVStore.Has s rootKey = false ∧
      KVStore.Has s (GetRootToHeimdallIdKey r.RootChainType r.ID) = false ∧
      KVStore.Has s (GetEventRecordKey ((n + 1) % uint64Size)) = false ∧
      KVStore.find s1 rootKey = some v1 ∧
      KVStore.find s1 (GetRootToHeimdallIdKey r.RootChainType r.ID) = some v2 ∧
      KVStore.find s1 (GetEventRecordKey ((n + 1) % uint64Size)) = some v3 := by
  obtain ⟨rootKey, v1, v2, v3, hroot, hv1, hh1, hn, hv2, hh2, hv3, hh3, hs⟩ :=
    k.SetEventRecordWithID_ok _ _ _ _ h
  have hlt : (n + 1) % uint64Size < uint64Size := Nat.mod_lt _ (by simp [uint64Size])
  have hroot2 := (k.GetRootChainEventRecordKey_some _ _ _ hroot).2
  have hne1 : rootKey ≠ LatestMsgIDPrefixKey := by
    rcases hroot2 with h1 | h1 <;> simp [h1, LatestMsgIDPrefixKey]
  have hne2 : rootKey ≠ GetRootToHeimdallIdKey r.RootChainType r.ID := by
    rcases hroot2 with h1 | h1 <;> simp [h1, GetRootToHeimdallIdKey_eq]
  have hne3 : rootKey ≠ GetEventRecordKey ((n + 1) % uint64Size) := by
    rcases hroot2 with h1 | h1 <;> simp [h1, GetEventRecordKey_eq]
  have hne4 := GetRootToHeimdallIdKey_ne_counter r.RootChainType r.ID
  have hne5 := GetEventRecordKey_ne_GetRootToHeimdallIdKey r.RootChainType r.ID
    ((n + 1) % uint64Size)
  have hne6 := GetEventRecordKey_ne_counter ((n + 1) % uint64Size)
  refine ⟨rootKey, v1, v2, v3, hn, ?_, hroot, hv1, hv2, hv3, hh1, ?_, ?_, ?_, ?_, ?_⟩
  · rw [hs, GetLatestID_SetLatestID _ _ hlt]
  · exact KVStore.Has_false_of_Set _ _ _ _ hh2
  · exact KVStore.Has_false_of_Set _ _ _ _ (KVStore.Has_false_of_Set _ _ _ _ hh3)
  · rw [hs, SetLatestID, KVStore.find_Set_other _ _ _ _ hne1,
      KVStore.find_Set_other _ _ _ _ hne3, KVStore.find_Set_other _ _ _ _ hne2,
      KVStore.find_Set_same]
  · rw [hs, SetLatestID, KVStore.find_Set_other _ _ _ _ hne4,
      KVStore.find_Set_other _ _ _ _ hne5.symm, KVStore.find_Set_same]
  · rw [hs, SetLatestID, KVStore.find_Set_other _ _ _ _ hne6, KVStore.find_Set_same]

/-- Store after a successful `SetEventRecord`, read back key by key: the counter,
the dedupe entry, the cross-reference entry and the canonical record. -/
theorem Keeper.SetEventRecord_post (k : Keeper) (s s2 : KVStore) (r : EventRecord)
    (h : k.SetEventRecord s r = (s2, none)) :
    ∃ rootKey v1 v2 v3,
      GetLatestID s2 = (GetLatestID s + 1) % uint64Size ∧
      k.GetRootChainEventRecordKey r.RootChainType r.ID = some rootKey ∧
      k.MarshalRecord r = some v1 ∧
      k.MarshalUint64 ((GetLatestID s + 1) % uint64Size) = some v2 ∧
      k.MarshalRecord { r with ID := (GetLatestID s + 1) % uint64Size } = some v3 ∧
      KVStore.Has s rootKey = false ∧
      KVStore.Has s (GetRootToHeimdallIdKey r.RootChainType r.ID) = false ∧
      KVStore.Has s (GetEventRecordKey ((GetLatestID s + 1) % uint64Size)) = false ∧
      KVStore.find s2 rootKey = some v1 ∧
      KVStore.find s2 (GetRootToHeimdallIdKey r.RootChainType r.ID) = some v2 ∧
      KVStore.find s2 (GetEventRecordKey ((GetLatestID s + 1) % uint64Size)) = some v3 := by
  obtain ⟨s1, hid, htime⟩ := k.SetEventRecord_ok _ _ _ h
  obtain ⟨rootKey, v1, v2, v3, _, hl, hroot, hv1, hv2, hv3, hh1, hh2, hh3, hf1, hf2, hf3⟩ :=
    k.SetEventRecordWithID_post _ _ _ _ hid
  have hs2 : s2 = (k.SetEventRecordWithTime s1 r (GetLatestID s)).1 := by rw [htime]
  have hroot2 := (k.GetRootChainEventRecordKey_some _ _ _ hroot).2
  refine ⟨rootKey, v1, v2, v3, ?_, hroot, hv1, hv2, hv3, hh1, hh2, hh3, ?_, ?_, ?_⟩
  · rw [hs2, k.SetEventRecordWithTime_GetLatestID, hl]
  · rw [hs2, k.SetEventRecordWithTime_find, hf1]
    intro rest
    rcases hroot2 with h1 | h1 <;> simp [h1]
  · rw [hs2, k.SetEventRecordWithTime_find, hf2]
    intro rest
    simp [GetRootToHeimdallIdKey_eq]
  · rw [hs2, k.SetEventRecordWithTime_find, hf3]
    intro rest
    simp [GetEventRecordKey_eq]

/-! ## Lemmas: ingestion on sorted stores -/

theorem setEventRecordStore_Sorted (s s1 : KVStore) (key value : Bytes) (oe : Option Err)
    (hs : setEventRecordStore s key value = (s1, oe)) (h : KVStore.Sorted s) :
    KVStore.Sorted s1 := by
  simp only [setEventRecordStore] at hs
  split at hs
  · simp only [Prod.mk.injEq] at hs
    rw [← hs.1]; exact h
  · simp only [Prod.mk.injEq] at hs
    rw [← hs.1]; exact KVStore.Sorted_Set s key value h

theorem Keeper.SetEventRecordWithID_Sorted (k : Keeper) (s : KVStore) (r : EventRecord)
    (h : KVStore.Sorted s) : KVStore.Sorted (k.SetEventRecordWithID s r).1 := by
  simp only [Keeper.SetEventRecordWithID]
  split
  · exact h
  split
  · exact h
  split
  · rename_i hsa
    exact setEventRecordStore_Sorted _ _ _ _ _ hsa h
  rename_i hsa
  have ha := setEventRecordStore_Sorted _ _ _ _ _ hsa h
  split
  · exact ha
  split
  · rename_i hsb
    exact setEventRecordStore_Sorted _ _ _ _ _ hsb ha
  rename_i hsb
  have hb := setEventRecordStore_Sorted _ _ _ _ _ hsb ha
  split
  · exact hb
  split
  · rename_i hsc
    exact setEventRecordStore_Sorted _ _ _ _ _ hsc hb
  rename_i hsc
  exact KVStore.Sorted_Set _ _ _ (setEventRecordStore_Sorted _ _ _ _ _ hsc hb)

theorem Keeper.SetEventRecordWithTime_Sorted (k : Keeper) (s : KVStore) (r : EventRecord)
    (n : Nat) (h : KVStore.Sorted s) : KVStore.Sorted (k.SetEventRecordWithTime s r n).1 := by
  simp only [Keeper.SetEventRecordWithTime]
  split
  · exact h
  split
  · exact h
  split
  · rename_i hsa
    exact setEventRecordStore_Sorted _ _ _ _ _ hsa h
  rename_i hsa
  have ha := setEventRecordStore_Sorted _ _ _ _ _ hsa h
  split
  · exact ha
  exact setEventRecordStore_Sorted _ _ _ _ _ rfl ha

/-- Ingestion keeps the keys of the store strictly ascending, whatever its
outcome. -/
theorem Keeper.SetEventRecord_Sorted (k : Keeper) (s : KVStore) (r : EventRecord)
    (h : KVStore.Sorted s) : KVStore.Sorted (k.SetEventRecord s r).1 := by
  have h1 := k.SetEventRecordWithID_Sorted s r h
  simp only [Keeper.SetEventRecord]
  split
  · rename_i he
    rw [he] at h1
    exact h1
  · rename_i he
    rw [he] at h1
    exact k.SetEventRecordWithTime_Sorted _ _ _ h1

/-- On a sorted store, a successful ingestion adds to the scan of the canonical
records exactly the entry of the canonical id it assigned. -/
theorem Keeper.SetEventRecord_scan (k : Keeper) (s s2 : KVStore) (r : EventRecord)
    (hs : KVStore.Sorted s) (h : k.SetEventRecord s r = (s2, none)) :
    ∃ v3, k.MarshalRecord { r with ID := (GetLatestID s + 1) % uint64Size } = some v3 ∧
      KVStorePrefixIterator s2 StateRecordPrefixKey =
        KVStore.Set (KVStorePrefixIterator s StateRecordPrefixKey)
          (GetEventRecordKey ((GetLatestID s + 1) % uint64Size)) v3 := by
  obtain ⟨s1, hid, htime⟩ := k.SetEventRecord_ok _ _ _ h
  obtain ⟨rootKey, v1, v2, v3, hroot, _, _, _, _, _, hv3, _, hs1⟩ :=
    k.SetEventRecordWithID_ok _ _ _ _ hid
  obtain ⟨tkey, v4, v5, htkey, _, _, _, _, hs2⟩ := k.SetEventRecordWithTime_ok _ _ _ _ htime
  refine ⟨v3, hv3, ?_⟩
  have hsorted : KVStore.Sorted
      (KVStore.Set (KVStore.Set s rootKey v1) (GetRootToHeimdallIdKey r.RootChainType r.ID) v2) :=
    KVStore.Sorted_Set _ _ _ (KVStore.Sorted_Set _ _ _ hs)
  have p1 : StateRecordPrefixKey.isPrefixOf rootKey = false := by
    rcases (k.GetRootChainEventRecordKey_some _ _ _ hroot).2 with h1 | h1 <;>
      (rw [h1]; rfl)
  have p2 : StateRecordPrefixKey.isPrefixOf (GetRootToHeimdallIdKey r.RootChainType r.ID)
      = false := by
    rw [GetRootToHeimdallIdKey_eq]; rfl
  have p3 : StateRecordPrefixKey.isPrefixOf (GetEventRecordKey ((GetLatestID s + 1) % uint64Size))
      = true := by
    simp [GetEventRecordKey_eq, StateRecordPrefixKey]
  have p4 : StateRecordPrefixKey.isPrefixOf LatestMsgIDPrefixKey = false := rfl
  have p5 : StateRecordPrefixKey.isPrefixOf tkey = false := by
    rcases k.GetRootChainEventRecordKeyWithTimePrefix_some _ _ _ _ htkey with h1 | h1 <;>
      (rw [h1]; rfl)
  have p6 : StateRecordPrefixKey.isPrefixOf
      (k.GetEventRecordKeyWithTime ((GetLatestID s + 1) % uint64Size) r.RecordTime) = false := by
    rw [Keeper.GetEventRecordKeyWithTime_eq]; rfl
  rw [hs2, hs1, SetLatestID, KVStorePrefixIterator_Set_other _ _ _ _ p6,
    KVStorePrefixIterator_Set_other _ _ _ _ p5, KVStorePrefixIterator_Set_other _ _ _ _ p4,
    KVStorePrefixIterator_Set_same _ _ _ _ hsorted p3,
    KVStorePrefixIterator_Set_other _ _ _ _ p2, KVStorePrefixIterator_Set_other _ _ _ _ p1]

/-- Conditions under which an ingestion succeeds: the codec marshals, the chain
type is known, and none of the five keys it writes is set. -/
theorem Keeper.SetEventRecord_succeeds (k : Keeper) (htotal : k.CodecTotal) (s : KVStore)
    (r : EventRecord) (rootKey tkey : Bytes) (hid : r.ID < uint64Size)
    (hroot : k.GetRootChainEventRecordKey r.RootChainType r.ID = some rootKey)
    (htkey : k.GetRootChainEventRecordKeyWithTimePrefix r.RootChainType r.ID r.RecordTime
      = some tkey)
    (h1 : KVStore.Has s rootKey = false)
    (h2 : KVStore.Has s (GetRootToHeimdallIdKey r.RootChainType r.ID) = false)
    (h3 : KVStore.Has s (GetEventRecordKey ((GetLatestID s + 1) % uint64Size)) = false)
    (h4 : KVStore.Has s tkey = false)
    (h5 : KVStore.Has s
      (k.GetEventRecordKeyWithTime ((GetLatestID s + 1) % uint64Size) r.RecordTime) = false) :
    ∃ s2, k.SetEventRecord s r = (s2, none) := by
  have hlt : (GetLatestID s + 1) % uint64Size < uint64Size := Nat.mod_lt _ (by simp [uint64Size])
  obtain ⟨v1, hv1⟩ := Option.isSome_iff_exists.mp (htotal.1 r)
  obtain ⟨v2, hv2⟩ := Option.isSome_iff_exists.mp (htotal.2 _ hlt)
  obtain ⟨v3, hv3⟩ := Option.isSome_iff_exists.mp
    (htotal.1 { r with ID := (GetLatestID s + 1) % uint64Size })
  obtain ⟨v4, hv4⟩ := Option.isSome_iff_exists.mp (htotal.2 _ hid)
  have hroot2 := (k.GetRootChainEventRecordKey_some _ _ _ hroot).2
  have htkey2 := k.GetRootChainEventRecordKeyWithTimePrefix_some _ _ _ _ htkey
  have hne1 : rootKey ≠ LatestMsgIDPrefixKey := by
    rcases hroot2 with h | h <;> simp [h, LatestMsgIDPrefixKey]
  have hL : GetLatestID (KVStore.Set s rootKey v1) = GetLatestID s :=
    GetLatestID_Set_other _ _ _ hne1
  have q2 : KVStore.Has (KVStore.Set s rootKey v1) (GetRootToHeimdallIdKey r.RootChainType r.ID)
      = false := by
    rw [KVStore.Has_Set, h2]
    rcases hroot2 with h | h <;> simp [h, GetRootToHeimdallIdKey_eq]
  have q3 : KVStore.Has
      (KVStore.Set (KVStore.Set s rootKey v1) (GetRootToHeimdallIdKey r.RootChainType r.ID) v2)
      (GetEventRecordKey ((GetLatestID s + 1) % uint64Size)) = false := by
    rw [KVStore.Has_Set, KVStore.Has_Set, h3]
    rcases hroot2 with h | h <;> simp [h, GetRootToHeimdallIdKey_eq, GetEventRecordKey_eq]
  have hidok : k.SetEventRecordWithID s r =
      (SetLatestID
        (KVStore.Set
          (KVStore.Set (KVStore.Set s rootKey v1)
            (GetRootToHeimdallIdKey r.RootChainType r.ID) v2)
          (GetEventRecordKey ((GetLatestID s + 1) % uint64Size)) v3)
        ((GetLatestID s + 1) % uint64Size), Except.ok (GetLatestID s)) := by
    simp only [Keeper.SetEventRecordWithID, hroot, hv1, setEventRecordStore, h1, hL, hv2, q2, hv3,
      q3, Bool.false_eq_true, if_false]
  have q4 : KVStore.Has
      (SetLatestID
        (KVStore.Set
          (KVStore.Set (KVStore.Set s rootKey v1)
            (GetRootToHeimdallIdKey r.RootChainType r.ID) v2)
          (GetEventRecordKey ((GetLatestID s + 1) % uint64Size)) v3)
        ((GetLatestID s + 1) % uint64Size)) tkey = false := by
    rw [SetLatestID, KVStore.Has_Set, KVStore.Has_Set, KVStore.Has_Set, KVStore.Has_Set, h4]
    rcases hroot2 with h | h <;> rcases htkey2 with h' | h' <;>
      simp [h, h', GetRootToHeimdallIdKey_eq, GetEventRecordKey_eq, LatestMsgIDPrefixKey]
  have q5 : KVStore.Has
      (KVStore.Set
        (SetLatestID
          (KVStore.Set
            (KVStore.Set (KVStore.Set s rootKey v1)
              (GetRootToHeimdallIdKey r.RootChainType r.ID) v2)
            (GetEventRecordKey ((GetLatestID s + 1) % uint64Size)) v3)
          ((GetLatestID s + 1) % uint64Size)) tkey v4)
      (k.GetEventRecordKeyWithTime ((GetLatestID s + 1) % uint64Size) r.RecordTime) = false := by
    rw [SetLatestID, KVStore.Has_Set, KVStore.Has_Set, KVStore.Has_Set, KVStore.Has_Set,
      KVStore.Has_Set, h5]
    rcases hroot2 with h | h <;> rcases htkey2 with h' | h' <;>
      simp [h, h', GetRootToHeimdallIdKey_eq, GetEventRecordKey_eq, LatestMsgIDPrefixKey,
        Keeper.GetEventRecordKeyWithTime_eq]
  refine ⟨KVStore.Set
      (KVStore.Set
        (SetLatestID
          (KVStore.Set
            (KVStore.Set (KVStore.Set s rootKey v1)
              (GetRootToHeimdallIdKey r.RootChainType r.ID) v2)
            (GetEventRecordKey ((GetLatestID s + 1) % uint64Size)) v3)
          ((GetLatestID s + 1) % uint64Size)) tkey v4)
      (k.GetEventRecordKeyWithTime ((GetLatestID s + 1) % uint64Size) r.RecordTime) v2, ?_⟩
  simp only [Keeper.SetEventRecord, hidok, Keeper.SetEventRecordWithTime, htkey, hv4,
    setEventRecordStore, q4, hv2, q5, Bool.false_eq_true, if_false]

/-- The keys that are set after a successful ingestion: the six keys it wrote and
the keys set before. -/
theorem Keeper.SetEventRecord_Has (k : Keeper) (s s2 : KVStore) (r : EventRecord)
    (h : k.SetEventRecord s r = (s2, none)) :
    ∃ rootKey tkey,
      k.GetRootChainEventRecordKey r.RootChainType r.ID = some rootKey ∧
      k.GetRootChainEventRecordKeyWithTimePrefix r.RootChainType r.ID r.RecordTime = some tkey ∧
      ∀ key2, KVStore.Has s2 key2 =
        (decide (key2 =
            k.GetEventRecordKeyWithTime ((GetLatestID s + 1) % uint64Size) r.RecordTime) ||
          (decide (key2 = tkey) ||
          (decide (key2 = LatestMsgIDPrefixKey) ||
          (decide (key2 = GetEventRecordKey ((GetLatestID s + 1) % uint64Size)) ||
          (decide (key2 = GetRootToHeimdallIdKey r.RootChainType r.ID) ||
          (decide (key2 = rootKey) || KVStore.Has s key2)))))) := by
  obtain ⟨s1, hid, htime⟩ := k.SetEventRecord_ok _ _ _ h
  obtain ⟨rootKey, v1, v2, v3, hroot, _, _, _, _, _, _, _, hs1⟩ :=
    k.SetEventRecordWithID_ok _ _ _ _ hid
  obtain ⟨tkey, v4, v5, htkey, _, _, _, _, hs2⟩ := k.SetEventRecordWithTime_ok _ _ _ _ htime
  refine ⟨rootKey, tkey, hroot, htkey, ?_⟩
  intro key2
  rw [hs2, hs1, SetLatestID, KVStore.Has_Set, KVStore.Has_Set, KVStore.Has_Set, KVStore.Has_Set,
    KVStore.Has_Set, KVStore.Has_Set]

/-- After a successful ingestion the dedupe key of the record is set, and a
further ingestion for the same root chain type and id fails without a write. -/
theorem Keeper.SetEventRecord_duplicate (k : Keeper) (s s1 : KVStore) (r1 r2 : EventRecord)
    (hc : r1.RootChainType = r2.RootChainType) (hid : r1.ID = r2.ID)
    (h1 : k.SetEventRecord s r1 = (s1, none)) :
    ∃ e, k.SetEventRecord s1 r2 = (s1, some e) := by
  obtain ⟨rootKey, v1, _, _, _, hroot, _, _, _, _, _, _, hf1, _, _⟩ := k.SetEventRecord_post _ _ _ h1
  rw [hc, hid] at hroot
  have hhas : KVStore.Has s1 rootKey = true := by simp [KVStore.Has, hf1]
  obtain ⟨e, he⟩ := k.SetEventRecordWithID_duplicate s1 r2 rootKey hroot hhas
  exact ⟨e, by simp only [Keeper.SetEventRecord, he]⟩

/-- After a successful ingestion `GetEventRecord` of the assigned canonical id
returns the record with that id. -/
theorem Keeper.GetEventRecord_after_ingest (k : Keeper) (hcodec : k.CodecRoundTrips)
    (s s2 : KVStore) (r : EventRecord) (h : k.SetEventRecord s r = (s2, none)) :
    k.GetEventRecord s2 ((GetLatestID s + 1) % uint64Size) =
      Except.ok { r with ID := (GetLatestID s + 1) % uint64Size } := by
  obtain ⟨_, _, _, v3, _, _, _, _, hv3, _, _, _, _, _, hf3⟩ := k.SetEventRecord_post _ _ _ h
  simp only [Keeper.GetEventRecord, KVStore.Has, KVStore.Get, hf3, Option.isSome_some,
    Option.getD_some, if_true, hcodec.1 _ _ hv3]

theorem append_singleton_ne (xs ys : Bytes) (a b : Nat) (h : a ≠ b) : xs ++ [a] ≠ ys ++ [b] := by
  intro heq
  have := congrArg List.getLast? heq
  simp at this
  exact h this

theorem demoKeeper_CodecTotal : demoKeeper.CodecTotal := by
  constructor
  · intro r; rfl
  · intro n _; rfl

/-! ## Lemmas: the time index -/

/-- Entries of the store are only added by the write-once primitive: an entry of
the result is an entry of the store or the entry just written. -/
theorem setEventRecordStore_mem (s s1 : KVStore) (key value : Bytes) (oe : Option Err)
    (hs : setEventRecordStore s key value = (s1, oe)) (e : Bytes × Bytes) (he : e ∈ s1) :
    e ∈ s ∨ (oe = none ∧ e = (key, value)) := by
  simp only [setEventRecordStore] at hs
  split at hs
  · simp only [Prod.mk.injEq] at hs
    rw [← hs.1] at he
    exact Or.inl he
  · simp only [Prod.mk.injEq] at hs
    rw [← hs.1] at he
    rcases KVStore.mem_Set _ _ _ _ he with h | h
    · exact Or.inr ⟨hs.2.symm, h⟩
    · exact Or.inl h

/-- The write-once primitive keeps every entry of the store. -/
theorem setEventRecordStore_find (s s1 : KVStore) (key value : Bytes) (oe : Option Err)
    (hs : setEventRecordStore s key value = (s1, oe)) (key2 v : Bytes)
    (hf : KVStore.find s key2 = some v) : KVStore.find s1 key2 = some v := by
  simp only [setEventRecordStore] at hs
  split at hs
  · simp only [Prod.mk.injEq] at hs
    rw [← hs.1]; exact hf
  · rename_i hh
    simp only [Prod.mk.injEq] at hs
    have hne : key2 ≠ key := by
      intro heq
      rw [heq] at hf
      simp [KVStore.Has, hf] at hh
    rw [← hs.1, KVStore.find_Set_other _ _ _ _ hne]; exact hf

/-- Whatever its outcome, `SetEventRecordWithID` adds no entry to the canonical
time index. -/
theorem Keeper.SetEventRecordWithID_mem (k : Keeper) (s : KVStore) (r : EventRecord)
    (e : Bytes × Bytes) (rest : Bytes) (he : e ∈ (k.SetEventRecordWithID s r).1)
    (hk : e.1 = 0x13 :: rest) : e ∈ s := by
  simp only [Keeper.SetEventRecordWithID] at he
  split at he
  · exact he
  split at he
  · exact he
  rename_i rootKey hroot
  have hroot2 := (k.GetRootChainEventRecordKey_some _ _ _ hroot).2
  have ha : ∀ value sa oe, setEventRecordStore s rootKey value = (sa, oe) → e ∈ sa → e ∈ s := by
    intro value sa oe hsa hm
    rcases setEventRecordStore_mem _ _ _ _ _ hsa e hm with h | h
    · exact h
    · rw [h.2] at hk
      rcases hroot2 with h1 | h1 <;> simp [h1] at hk
  split at he
  · rename_i hsa
    exact ha _ _ _ hsa he
  rename_i sa hsa
  split at he
  · exact ha _ _ _ hsa he
  rename_i v2 _
  have hb : ∀ sb oe, setEventRecordStore sa (GetRootToHeimdallIdKey r.RootChainType r.ID) v2
      = (sb, oe) → e ∈ sb → e ∈ s := by
    intro sb oe hsb hm
    rcases setEventRecordStore_mem _ _ _ _ _ hsb e hm with h | h
    · exact ha _ _ _ hsa h
    · rw [h.2] at hk
      simp [GetRootToHeimdallIdKey_eq] at hk
  split at he
  · rename_i hsb
    exact hb _ _ hsb he
  rename_i sb hsb
  split at he
  · exact hb _ _ hsb he
  rename_i v3 _
  have hc : ∀ sc oe, setEventRecordStore sb
      (GetEventRecordKey ((GetLatestID sa + 1) % uint64Size)) v3 = (sc, oe) → e ∈ sc → e ∈ s := by
    intro sc oe hsc hm
    rcases setEventRecordStore_mem _ _ _ _ _ hsc e hm with h | h
    · exact hb _ _ hsb h
    · rw [h.2] at hk
      simp [GetEventRecordKey_eq] at hk
  split at he
  · rename_i hsc
    exact hc _ _ hsc he
  rename_i sc hsc
  simp only [SetLatestID] at he
  rcases KVStore.mem_Set _ _ _ _ he with h | h
  · rw [h] at hk
    simp [LatestMsgIDPrefixKey] at hk
  · exact hc _ _ hsc h

/-- Whatever its outcome, `SetEventRecordWithID` keeps every entry of the store
other than the counter. -/
theorem Keeper.SetEventRecordWithID_find (k : Keeper) (s : KVStore) (r : EventRecord)
    (key2 v : Bytes) (hne : key2 ≠ LatestMsgIDPrefixKey) (hf : KVStore.find s key2 = some v) :
    KVStore.find (k.SetEventRecordWithID s r).1 key2 = some v := by
  simp only [Keeper.SetEventRecordWithID]
  split
  · exact hf
  split
  · exact hf
  split
  · rename_i hsa
    exact setEventRecordStore_find _ _ _ _ _ hsa _ _ hf
  rename_i hsa
  have ha := setEventRecordStore_find _ _ _ _ _ hsa _ _ hf
  split
  · exact ha
  split
  · rename_i hsb
    exact setEventRecordStore_find _ _ _ _ _ hsb _ _ ha
  rename_i hsb
  have hb := setEventRecordStore_find _ _ _ _ _ hsb _ _ ha
  split
  · exact hb
  split
  · rename_i hsc
    exact setEventRecordStore_find _ _ _ _ _ hsc _ _ hb
  rename_i hsc
  have hc := setEventRecordStore_find _ _ _ _ _ hsc _ _ hb
  simp only [SetLatestID]
  rw [KVStore.find_Set_other _ _ _ _ hne]
  exact hc

/-- Whatever its outcome, `SetEventRecordWithTime` keeps every entry of the
store. -/
theorem Keeper.SetEventRecordWithTime_keeps (k : Keeper) (s : KVStore) (r : EventRecord)
    (n : Nat) (key2 v : Bytes) (hf : KVStore.find s key2 = some v) :
    KVStore.find (k.SetEventRecordWithTime s r n).1 key2 = some v := by
  simp only [Keeper.SetEventRecordWithTime]
  split
  · exact hf
  split
  · exact hf
  split
  · rename_i hsa
    exact setEventRecordStore_find _ _ _ _ _ hsa _ _ hf
  rename_i hsa
  have ha := setEventRecordStore_find _ _ _ _ _ hsa _ _ hf
  split
  · exact ha
  exact setEventRecordStore_find _ _ _ _ _ rfl _ _ ha

/-- An entry of the canonical time index after `SetEventRecordWithTime` was there
before, or the call succeeded and the entry is the one it wrote for the id
`latestID + 1`. -/
theorem Keeper.SetEventRecordWithTime_mem (k : Keeper) (s : KVStore) (r : EventRecord)
    (n : Nat) (e : Bytes × Bytes) (rest : Bytes) (he : e ∈ (k.SetEventRecordWithTime s r n).1)
    (hk : e.1 = 0x13 :: rest) :
    e ∈ s ∨ ((k.SetEventRecordWithTime s r n).2 = none ∧
      e.1 = k.GetEventRecordKeyWithTime ((n + 1) % uint64Size) r.RecordTime ∧
      k.MarshalUint64 ((n + 1) % uint64Size) = some e.2) := by
  simp only [Keeper.SetEventRecordWithTime] at he
  split at he
  · exact Or.inl he
  rename_i v4 hv4
  split at he
  · exact Or.inl he
  rename_i tkey htkey
  have htkey2 := k.GetRootChainEventRecordKeyWithTimePrefix_some _ _ _ _ htkey
  have ha : ∀ sa oe, setEventRecordStore s tkey v4 = (sa, oe) → e ∈ sa → e ∈ s := by
    intro sa oe hsa hm
    rcases setEventRecordStore_mem _ _ _ _ _ hsa e hm with h | h
    · exact h
    · rw [h.2] at hk
      rcases htkey2 with h1 | h1 <;> simp [h1] at hk
  split at he
  · rename_i hsa
    exact Or.inl (ha _ _ hsa he)
  rename_i sa hsa
  split at he
  · exact Or.inl (ha _ _ hsa he)
  rename_i v5 hv5
  rcases setEventRecordStore_mem _ _ _ _ _ rfl e he with h | h
  · exact Or.inl (ha _ _ hsa h)
  · refine Or.inr ⟨?_, by rw [h.2], by rw [h.2]; exact hv5⟩
    simp only [Keeper.SetEventRecordWithTime, hv4, htkey, hsa, hv5]
    exact h.1

theorem Keeper.mem_resolveRecords (k : Keeper) (s : KVStore) (es : List (Bytes × Bytes))
    (rec : EventRecord) :
    rec ∈ k.resolveRecords s es ↔
      ∃ e ∈ es, ∃ id, k.UnmarshalUint64 e.2 = some id ∧ k.GetEventRecord s id = Except.ok rec := by
  induction es with
  | nil => simp [Keeper.resolveRecords]
  | cons e es ih =>
    simp only [Keeper.resolveRecords]
    split
    · rename_i id hid
      split
      · rename_i record hrec
        simp only [List.mem_cons, ih]
        constructor
        · rintro (h | ⟨e2, he2, h⟩)
          · exact ⟨e, Or.inl rfl, id, hid, by rw [hrec, h]⟩
          · exact ⟨e2, Or.inr he2, h⟩
        · rintro ⟨e2, (h | h), id2, hid2, hrec2⟩
          · subst h
            rw [hid] at hid2
            simp only [Option.some.injEq] at hid2
            subst hid2
            rw [hrec] at hrec2
            simp only [Except.ok.injEq] at hrec2
            exact Or.inl hrec2.symm
          · exact Or.inr ⟨e2, h, id2, hid2, hrec2⟩
      · rename_i err hrec
        simp only [List.mem_cons, ih]
        constructor
        · rintro ⟨e2, he2, h⟩
          exact ⟨e2, Or.inr he2, h⟩
        · rintro ⟨e2, (h | h), id2, hid2, hrec2⟩
          · subst h
            rw [hid] at hid2
            simp only [Option.some.injEq] at hid2
            subst hid2
            rw [hrec] at hrec2
            exact absurd hrec2 (by simp)
          · exact ⟨e2, h, id2, hid2, hrec2⟩
    · rename_i hid
      simp only [List.mem_cons, ih]
      constructor
      · rintro ⟨e2, he2, h⟩
        exact ⟨e2, Or.inr he2, h⟩
      · rintro ⟨e2, (h | h), id2, hid2, hrec2⟩
        · subst h
          rw [hid] at hid2
          exact absurd hid2 (by simp)
        · exact ⟨e2, h, id2, hid2, hrec2⟩

/-- A key in the domain of a range scan between two keys of the canonical time
index is a key of the canonical time index. -/
theorem bytesLt_range_head (key a b : Bytes) (h1 : bytesLt key (0x13 :: a) = false)
    (h2 : bytesLt key (0x13 :: b) = true) : ∃ rest, key = 0x13 :: rest := by
  cases key with
  | nil => simp [bytesLt] at h1
  | cons y rest =>
    rw [bytesLt_cons_cons] at h1 h2
    by_cases hy : y < 0x13
    · simp [hy] at h1
    · by_cases hy2 : 0x13 < y
      · simp [hy, hy2] at h2
      · exact ⟨rest, by rw [show y = 0x13 by omega]⟩

/-- On times for which the formatting is fixed-width and order-preserving, the
formatted times compare as the times do. -/
theorem Keeper.bytesLt_FormatTimeBytes (k : Keeper) (V : Nat → Prop)
    (htime : k.TimeFormatOrdered V) (t x : Nat) (ht : V t) (hx : V x) :
    bytesLt (k.FormatTimeBytes t) (k.FormatTimeBytes x) = true ↔ t < x := by
  constructor
  · intro h
    by_contra hlt
    rcases Nat.lt_or_eq_of_le (Nat.le_of_not_lt hlt) with h1 | h1
    · have := bytesLt_asymm _ _ (htime.2 x t hx ht h1)
      rw [this] at h
      exact absurd h (by simp)
    · rw [h1, bytesLt_irrefl] at h
      exact absurd h (by simp)
  · exact htime.2 t x ht hx

/-- A canonical time index key lies in the domain of the range scan from
`fromTime` to `toTime` exactly when `fromTime ≤ t < toTime`. -/
theorem Keeper.time_key_in_range (k : Keeper) (V : Nat → Prop) (htime : k.TimeFormatOrdered V)
    (t fromTime toTime id : Nat) (ht : V t) (hf : V fromTime) (hto : V toTime) :
    (bytesLt (k.GetEventRecordKeyWithTime id t) (k.GetEventRecordKeyWithTimePrefix fromTime)
        = false ∧
      bytesLt (k.GetEventRecordKeyWithTime id t) (k.GetEventRecordKeyWithTimePrefix toTime)
        = true) ↔ (fromTime ≤ t ∧ t < toTime) := by
  have hp : ∀ x, k.GetEventRecordKeyWithTimePrefix x = 0x13 :: k.FormatTimeBytes x := by
    intro x
    simp [Keeper.GetEventRecordKeyWithTimePrefix, Keeper.GetRecordKeyWithTimePrefix,
      StateRecordPrefixKeyWithTime]
  have hcmp : ∀ x, V x →
      bytesLt (k.GetEventRecordKeyWithTime id t) (k.GetEventRecordKeyWithTimePrefix x) =
        bytesLt (k.FormatTimeBytes t) (k.FormatTimeBytes x) := by
    intro x hx
    rw [k.GetEventRecordKeyWithTime_eq, hp, bytesLt_cons_cons]
    simp only [lt_irrefl, if_false]
    exact bytesLt_append_left _ _ _ (htime.1 t x ht hx)
  rw [hcmp _ hf, hcmp _ hto, k.bytesLt_FormatTimeBytes V htime t toTime ht hto]
  constructor
  · rintro ⟨h1, h2⟩
    refine ⟨?_, h2⟩
    by_contra hlt
    have := (k.bytesLt_FormatTimeBytes V htime t fromTime ht hf).mpr (Nat.lt_of_not_le hlt)
    rw [this] at h1
    exact absurd h1 (by simp)
  · rintro ⟨h1, h2⟩
    refine ⟨?_, h2⟩
    cases hb : bytesLt (k.FormatTimeBytes t) (k.FormatTimeBytes fromTime) with
    | false => rfl
    | true =>
      have := (k.bytesLt_FormatTimeBytes V htime t fromTime ht hf).mp hb
      omega

/-- Whatever its outcome, `SetEventRecord` keeps every entry of the store other
than the counter. -/
theorem Keeper.SetEventRecord_find (k : Keeper) (s : KVStore) (r : EventRecord)
    (key2 v : Bytes) (hne : key2 ≠ LatestMsgIDPrefixKey) (hf : KVStore.find s key2 = some v) :
    KVStore.find (k.SetEventRecord s r).1 key2 = some v := by
  have h1 := k.SetEventRecordWithID_find s r key2 v hne hf
  simp only [Keeper.SetEventRecord]
  split
  · rename_i he
    rw [he] at h1
    exact h1
  · rename_i he
    rw [he] at h1
    exact k.SetEventRecordWithTime_keeps _ _ _ _ _ h1

/-- An entry of the canonical time index after `SetEventRecord` was there before,
or the call succeeded and the entry is the one written for the assigned id. -/
theorem Keeper.SetEventRecord_mem (k : Keeper) (s : KVStore) (r : EventRecord)
    (e : Bytes × Bytes) (rest : Bytes) (he : e ∈ (k.SetEventRecord s r).1)
    (hk : e.1 = 0x13 :: rest) :
    e ∈ s ∨ ((k.SetEventRecord s r).2 = none ∧
      e.1 = k.GetEventRecordKeyWithTime ((GetLatestID s + 1) % uint64Size) r.RecordTime ∧
      k.MarshalUint64 ((GetLatestID s + 1) % uint64Size) = some e.2) := by
  have h1 := k.SetEventRecordWithID_mem s r e rest
  simp only [Keeper.SetEventRecord] at he ⊢
  split at he
  · rename_i heq
    rw [heq] at h1
    exact Or.inl (h1 he hk)
  · rename_i s1 n heq
    rw [heq] at h1
    obtain ⟨_, _, _, _, _, _, _, hn, _⟩ := k.SetEventRecordWithID_ok _ _ _ _ heq
    subst hn
    rcases k.SetEventRecordWithTime_mem s1 r _ e rest he hk with h | h
    · exact Or.inl (h1 h hk)
    · exact Or.inr h

theorem Keeper.TimeIndexInv_step (k : Keeper) (V : Nat → Prop) (s : KVStore)
    (log : List EventRecord) (r : EventRecord) (hinv : k.TimeIndexInv V s log)
    (hV : V r.RecordTime) :
    k.TimeIndexInv V (k.SetEventRecord s r).1 (log ++ k.ingestedBy s r) := by
  have hlt : (GetLatestID s + 1) % uint64Size < uint64Size := Nat.mod_lt _ (by simp [uint64Size])
  constructor
  · intro e he rest hk
    rcases k.SetEventRecord_mem s r e rest he hk with h | h
    · obtain ⟨rec, hrec, h1, h2⟩ := hinv.1 e h rest hk
      exact ⟨rec, List.mem_append_left _ hrec, h1, h2⟩
    · refine ⟨{ r with ID := (GetLatestID s + 1) % uint64Size }, ?_, h.2.1, h.2.2⟩
      apply List.mem_append_right
      simp [Keeper.ingestedBy, h.1]
  · intro rec hrec
    rcases List.mem_append.mp hrec with h | h
    · obtain ⟨h1, h2, ⟨v, hv, hfv⟩, ⟨w, hw, hfw⟩⟩ := hinv.2 rec h
      refine ⟨h1, h2, ⟨v, hv, ?_⟩, ⟨w, hw, ?_⟩⟩
      · apply k.SetEventRecord_find _ _ _ _ _ hfv
        simp [Keeper.GetEventRecordKeyWithTime_eq, LatestMsgIDPrefixKey]
      · exact k.SetEventRecord_find _ _ _ _ (GetEventRecordKey_ne_counter _) hfw
    · simp only [Keeper.ingestedBy] at h
      split at h
      · rename_i hok
        simp only [List.mem_singleton] at h
        subst h
        have hres : k.SetEventRecord s r = ((k.SetEventRecord s r).1, none) := Prod.ext rfl hok
        obtain ⟨s1, hid, htime⟩ := k.SetEventRecord_ok _ _ _ hres
        obtain ⟨tkey, v4, v5, _, _, _, hv5, _, hs2⟩ := k.SetEventRecordWithTime_ok _ _ _ _ htime
        obtain ⟨_, _, _, v3, _, _, _, _, hv3, _, _, _, _, _, hf3⟩ := k.SetEventRecord_post _ _ _ hres
        refine ⟨hV, hlt, ⟨v5, hv5, ?_⟩, ⟨v3, hv3, hf3⟩⟩
        rw [hs2]
        exact KVStore.find_Set_same _ _ _
      · exact absurd h (List.not_mem_nil _)

/-- The invariant holds along every sequence of calls. -/
theorem Keeper.TimeIndexInv_run (k : Keeper) (V : Nat → Prop) (rs : List EventRecord) :
    ∀ (s : KVStore) (log : List EventRecord), k.TimeIndexInv V s log →
      (∀ r ∈ rs, V r.RecordTime) →
      k.TimeIndexInv V (k.SetEventRecords s rs) (log ++ k.ingested s rs) := by
  induction rs with
  | nil =>
    intro s log hinv _
    simpa [Keeper.SetEventRecords, Keeper.ingested] using hinv
  | cons r rs ih =>
    intro s log hinv hV
    have hstep := k.TimeIndexInv_step V s log r hinv (hV r (List.mem_cons_self _ _))
    have := ih _ _ hstep (fun r2 h2 => hV r2 (List.mem_cons_of_mem _ h2))
    simpa [Keeper.SetEventRecords, Keeper.ingested, List.append_assoc] using this

theorem Keeper.TimeIndexInv_nil (k : Keeper) (V : Nat → Prop) : k.TimeIndexInv V [] [] := by
  constructor
  · intro e he; simp at he
  · intro rec hrec; simp at hrec

/-- Listing by time range on a store that satisfies the invariant: a logged record
is listed exactly when its time is at or after `fromTime` and before `toTime`. -/
theorem Keeper.TimeIndexInv_listing (k : Keeper) (V : Nat → Prop) (hcodec : k.CodecRoundTrips)
    (htime : k.TimeFormatOrdered V) (s : KVStore) (log : List EventRecord)
    (hinv : k.TimeIndexInv V s log) (fromTime toTime : Nat) (hf : V fromTime) (hto : V toTime)
    (rec : EventRecord) (hrec : rec ∈ log) :
    rec ∈ k.GetEventRecordListWithTime s fromTime toTime 0 0 ↔
      (fromTime ≤ rec.RecordTime ∧ rec.RecordTime < toTime) := by
  have hget : ∀ rec2 ∈ log, k.GetEventRecord s rec2.ID = Except.ok rec2 := by
    intro rec2 h2
    obtain ⟨_, _, _, ⟨w, hw, hfw⟩⟩ := hinv.2 rec2 h2
    simp only [Keeper.GetEventRecord, KVStore.Has, KVStore.Get, hfw, Option.isSome_some,
      Option.getD_some, if_true, hcodec.1 _ _ hw]
  have hlist : k.GetEventRecordListWithTime s fromTime toTime 0 0 =
      k.resolveRecords s (KVStore.Iterator s (k.GetEventRecordKeyWithTimePrefix fromTime)
        (k.GetEventRecordKeyWithTimePrefix toTime)) := by
    simp [Keeper.GetEventRecordListWithTime]
  rw [hlist]
  simp only [Keeper.mem_resolveRecords, KVStore.Iterator, List.mem_filter, Bool.and_eq_true,
    Bool.not_eq_true']
  constructor
  · rintro ⟨e, ⟨hes, hlo, hhi⟩, id, hid, hgid⟩
    have hp : ∀ x, k.GetEventRecordKeyWithTimePrefix x = 0x13 :: k.FormatTimeBytes x := by
      intro x
      simp [Keeper.GetEventRecordKeyWithTimePrefix, Keeper.GetRecordKeyWithTimePrefix,
        StateRecordPrefixKeyWithTime]
    obtain ⟨rest, hrest⟩ := bytesLt_range_head e.1 _ _ (by rw [← hp]; exact hlo)
      (by rw [← hp]; exact hhi)
    obtain ⟨rec2, hrec2, hkey, hval⟩ := hinv.1 e hes rest hrest
    obtain ⟨hV2, hlt2, _, _⟩ := hinv.2 rec2 hrec2
    have hid2 := hcodec.2 _ _ hlt2 hval
    rw [hid] at hid2
    simp only [Option.some.injEq] at hid2
    subst hid2
    rw [hget rec2 hrec2] at hgid
    simp only [Except.ok.injEq] at hgid
    subst hgid
    rw [hkey] at hlo hhi
    exact (k.time_key_in_range V htime _ _ _ _ hV2 hf hto).mp ⟨hlo, hhi⟩
  · intro hrange
    obtain ⟨hV1, hlt1, ⟨v, hv, hfv⟩, _⟩ := hinv.2 rec hrec
    have hin := (k.time_key_in_range V htime rec.RecordTime fromTime toTime rec.ID hV1 hf hto).mpr
      hrange
    exact ⟨(k.GetEventRecordKeyWithTime rec.ID rec.RecordTime, v),
      ⟨KVStore.find_some_mem _ _ _ hfv, hin.1, hin.2⟩, rec.ID, hcodec.2 _ _ hlt1 hv,
      hget rec hrec⟩

theorem demoKeeper_TimeFormatOrdered : demoKeeper.TimeFormatOrdered (fun t => t < 10) := by
  constructor
  · intro t1 t2 _ _; rfl
  · intro t1 t2 h1 h2 h
    simp only [demoKeeper, bytesLt_cons_cons]
    have : 48 + t1 % 10 < 48 + t2 % 10 := by omega
    simp [this]

/-! ## Lemmas: interrupted ingestion, counter and sequence ledger -/

/-- What the statements of `SetEventRecordWithID` before `SetLatestID` did when
none of them failed: the three entries written, in order. -/
theorem Keeper.SetEventRecordWithIDUntilCounter_some (k : Keeper) (s s3 : KVStore)
    (r : EventRecord) (h : k.SetEventRecordWithIDUntilCounter s r = some s3) :
    ∃ rootKey v1 v2 v3,
      k.GetRootChainEventRecordKey r.RootChainType r.ID = some rootKey ∧
      s3 = KVStore.Set
        (KVStore.Set (KVStore.Set s rootKey v1) (GetRootToHeimdallIdKey r.RootChainType r.ID) v2)
        (GetEventRecordKey ((GetLatestID s + 1) % uint64Size)) v3 ∧
      k.SetEventRecordWithID s r =
        (SetLatestID s3 ((GetLatestID s + 1) % uint64Size), Except.ok (GetLatestID s)) := by
  simp only [Keeper.SetEventRecordWithIDUntilCounter] at h
  split at h
  · simp at h
  rename_i v1 hv1
  split at h
  · simp at h
  rename_i rootKey hroot
  split at h
  · simp at h
  rename_i sa hsa
  obtain ⟨hhas1, rfl⟩ := setEventRecordStore_ok _ _ _ _ hsa
  split at h
  · simp at h
  rename_i v2 hv2
  split at h
  · simp at h
  rename_i sb hsb
  obtain ⟨hhas2, rfl⟩ := setEventRecordStore_ok _ _ _ _ hsb
  split at h
  · simp at h
  rename_i v3 hv3
  split at h
  · simp at h
  rename_i sc hsc
  obtain ⟨hhas3, rfl⟩ := setEventRecordStore_ok _ _ _ _ hsc
  simp only [Option.some.injEq] at h
  have hne : rootKey ≠ LatestMsgIDPrefixKey := by
    rcases (k.GetRootChainEventRecordKey_some _ _ _ hroot).2 with h1 | h1 <;>
      simp [h1, LatestMsgIDPrefixKey]
  have hL := GetLatestID_Set_other s rootKey v1 hne
  refine ⟨rootKey, v1, v2, v3, hroot, ?_, ?_⟩
  · rw [← h, hL]
  · simp only [Keeper.SetEventRecordWithID, hroot, hv1, hsa, hv2, hsb, hv3, hsc]
    rw [← h, hL]

/-- Store method `Set` twice on a key is `Set` once with the later value. -/
theorem KVStore.Set_Set_same (s : KVStore) (key value value2 : Bytes) :
    KVStore.Set (KVStore.Set s key value) key value2 = KVStore.Set s key value2 := by
  induction s with
  | nil => simp [KVStore.Set]
  | cons e0 s ih =>
    obtain ⟨k0, v0⟩ := e0
    simp only [KVStore.Set]
    split
    · simp [KVStore.Set]
    · rename_i hk
      split
      · simp [KVStore.Set]
      · rename_i hlt
        simp only [KVStore.Set, hk, hlt, if_false, ih]
        simp

theorem GetRecordSequenceKey_inj (t u : Bytes)
    (h : GetRecordSequenceKey u = GetRecordSequenceKey t) : u = t := by
  simpa [GetRecordSequenceKey, RecordSequencePrefixKey] using h

theorem KVStore.Has_of_mem (s : KVStore) (key value : Bytes) (h : (key, value) ∈ s) :
    KVStore.Has s key = true := by
  induction s with
  | nil => simp at h
  | cons e0 s ih =>
    obtain ⟨k0, v0⟩ := e0
    simp only [KVStore.Has, KVStore.find]
    split
    · rfl
    · rename_i hk
      rcases List.mem_cons.mp h with h1 | h1
      · simp only [Prod.mk.injEq] at h1
        exact absurd h1.1.symm hk
      · exact ih h1

theorem KVStore.Has_iff_mem (s : KVStore) (key : Bytes) :
    KVStore.Has s key = true ↔ ∃ value, (key, value) ∈ s := by
  constructor
  · intro h
    cases hf : KVStore.find s key with
    | none => simp [KVStore.Has, hf] at h
    | some v => exact ⟨v, KVStore.find_some_mem s key v hf⟩
  · rintro ⟨v, hv⟩
    exact KVStore.Has_of_mem s key v hv

/-- The loop of `GetRecordSequences` appends the sequence of every entry. -/
theorem iterateSequences_append (es : List (Bytes × Bytes)) (acc : List Bytes) :
    iterateSequences (fun sequences sequence => (sequences ++ [sequence], none)) es acc =
      acc ++ es.map (fun e => e.1.drop RecordSequencePrefixKey.length) := by
  induction es generalizing acc with
  | nil => simp [iterateSequences]
  | cons e es ih =>
    simp only [iterateSequences, ih, List.map_cons, List.append_assoc, List.singleton_append]

theorem GetRecordSequences_eq (s : KVStore) :
    GetRecordSequences s =
      (KVStorePrefixIterator s RecordSequencePrefixKey).map (fun e => e.1.drop 1) := by
  simp [GetRecordSequences, IterateRecordSequencesAndApplyFn, iterateSequences_append,
    RecordSequencePrefixKey]

theorem isPrefixOf_sequence_key (key : Bytes)
    (h : RecordSequencePrefixKey.isPrefixOf key = true) : key = GetRecordSequenceKey (key.drop 1) := by
  cases key with
  | nil => simp [RecordSequencePrefixKey] at h
  | cons y rest =>
    simp [RecordSequencePrefixKey] at h
    simp [GetRecordSequenceKey, RecordSequencePrefixKey, h]

/-! ## Lemmas: canonical ids and the order of keys -/

theorem FormatUint_inj (a b : Nat) (ha : a < uint64Size) (hb : b < uint64Size)
    (h : FormatUint a = FormatUint b) : a = b := by
  have h1 := ParseUint_FormatUint a ha
  rw [h, ParseUint_FormatUint b hb] at h1
  exact (Option.some.inj h1).symm

theorem GetEventRecordKey_inj (a b : Nat) (ha : a < uint64Size) (hb : b < uint64Size)
    (h : GetEventRecordKey a = GetEventRecordKey b) : a = b := by
  rw [GetEventRecordKey_eq, GetEventRecordKey_eq] at h
  exact FormatUint_inj a b ha hb (List.cons.inj h).2

/-- A failing `SetEventRecordWithID` touches only keys of the dedupe families and
of the cross-reference family. -/
theorem Keeper.SetEventRecordWithID_error_find (k : Keeper) (s s1 : KVStore) (r : EventRecord)
    (e : Err) (h : k.SetEventRecordWithID s r = (s1, Except.error e)) (key2 : Bytes)
    (hk : ∀ rest, key2 ≠ 0x17 :: rest ∧ key2 ≠ 0x16 :: rest ∧ key2 ≠ 0x19 :: rest) :
    KVStore.find s1 key2 = KVStore.find s key2 := by
  simp only [Keeper.SetEventRecordWithID] at h
  split at h
  · simp only [Prod.mk.injEq] at h
    rw [← h.1]
  split at h
  · simp only [Prod.mk.injEq] at h
    rw [← h.1]
  rename_i rootKey hroot
  have hne : key2 ≠ rootKey := by
    rcases (k.GetRootChainEventRecordKey_some _ _ _ hroot).2 with h1 | h1
    · rw [h1]; exact (hk _).1
    · rw [h1]; exact (hk _).2.1
  have hne2 : key2 ≠ GetRootToHeimdallIdKey r.RootChainType r.ID := by
    rw [GetRootToHeimdallIdKey_eq]; exact (hk _).2.2
  split at h
  · rename_i sa e1 hsa
    obtain ⟨_, rfl, _⟩ := setEventRecordStore_error _ _ _ _ _ hsa
    simp only [Prod.mk.injEq] at h
    rw [← h.1]
  rename_i sa hsa
  obtain ⟨_, rfl⟩ := setEventRecordStore_ok _ _ _ _ hsa
  split at h
  · simp only [Prod.mk.injEq] at h
    rw [← h.1, KVStore.find_Set_other _ _ _ _ hne]
  split at h
  · rename_i sb e1 hsb
    obtain ⟨_, rfl, _⟩ := setEventRecordStore_error _ _ _ _ _ hsb
    simp only [Prod.mk.injEq] at h
    rw [← h.1, KVStore.find_Set_other _ _ _ _ hne]
  rename_i sb hsb
  obtain ⟨_, rfl⟩ := setEventRecordStore_ok _ _ _ _ hsb
  split at h
  · simp only [Prod.mk.injEq] at h
    rw [← h.1, KVStore.find_Set_other _ _ _ _ hne2, KVStore.find_Set_other _ _ _ _ hne]
  split at h
  · rename_i sc e1 hsc
    obtain ⟨_, rfl, _⟩ := setEventRecordStore_error _ _ _ _ _ hsc
    simp only [Prod.mk.injEq] at h
    rw [← h.1, KVStore.find_Set_other _ _ _ _ hne2, KVStore.find_Set_other _ _ _ _ hne]
  · simp at h

/-- A call of `SetEventRecord` either leaves the counter and the canonical records
as they were, or advances the counter by one and adds the canonical record of the
new counter value; this also when the call fails. -/
theorem Keeper.SetEventRecord_canonical_step (k : Keeper) (s : KVStore) (r : EventRecord) :
    (GetLatestID (k.SetEventRecord s r).1 = GetLatestID s ∧
      ∀ id, HasEventRecord (k.SetEventRecord s r).1 id = HasEventRecord s id) ∨
    (GetLatestID (k.SetEventRecord s r).1 = (GetLatestID s + 1) % uint64Size ∧
      ∀ id, HasEventRecord (k.SetEventRecord s r).1 id =
        (decide (GetEventRecordKey id = GetEventRecordKey ((GetLatestID s + 1) % uint64Size)) ||
          HasEventRecord s id)) := by
  simp only [Keeper.SetEventRecord]
  split
  · rename_i s1 e he
    left
    refine ⟨k.SetEventRecordWithID_error _ _ _ _ he, ?_⟩
    intro id
    simp only [HasEventRecord, KVStore.Has]
    rw [k.SetEventRecordWithID_error_find _ _ _ _ he]
    intro rest
    simp [GetEventRecordKey_eq]
  · rename_i s1 n hn
    right
    obtain ⟨rootKey, v1, v2, v3, hroot, _, _, hn1, _, _, _, _, hs1⟩ :=
      k.SetEventRecordWithID_ok _ _ _ _ hn
    obtain ⟨_, _, _, _, _, hl, _⟩ := k.SetEventRecordWithID_post _ _ _ _ hn
    subst hn1
    refine ⟨by rw [k.SetEventRecordWithTime_GetLatestID, hl], ?_⟩
    intro id
    have hroot2 := (k.GetRootChainEventRecordKey_some _ _ _ hroot).2
    simp only [HasEventRecord, KVStore.Has]
    rw [k.SetEventRecordWithTime_find]
    · rw [hs1, SetLatestID, KVStore.find_Set, KVStore.find_Set, KVStore.find_Set,
        KVStore.find_Set]
      rcases hroot2 with h1 | h1 <;>
        by_cases hid : FormatUint id = FormatUint ((GetLatestID s + 1) % uint64Size) <;>
        simp [h1, hid, GetEventRecordKey_eq, GetRootToHeimdallIdKey_eq, LatestMsgIDPrefixKey]
    · intro rest
      simp [GetEventRecordKey_eq]

theorem CanonicalIdsGapless_nil : CanonicalIdsGapless [] := by
  intro id _
  have h1 : HasEventRecord [] id = false := rfl
  have h2 : GetLatestID [] = 0 := rfl
  rw [h1, h2]
  constructor
  · intro h; exact absurd h (by simp)
  · intro h; omega

theorem Keeper.CanonicalIdsGapless_step (k : Keeper) (s : KVStore) (r : EventRecord)
    (hinv : CanonicalIdsGapless s) (hlt : GetLatestID s < maxUint64) :
    CanonicalIdsGapless (k.SetEventRecord s r).1 := by
  intro id hid
  have hmod : (GetLatestID s + 1) % uint64Size = GetLatestID s + 1 := by
    apply Nat.mod_eq_of_lt
    simp only [maxUint64] at hlt
    simp only [uint64Size]
    omega
  have hlt2 : GetLatestID s + 1 < uint64Size := by
    simp only [maxUint64] at hlt
    simp only [uint64Size]
    omega
  rcases k.SetEventRecord_canonical_step s r with ⟨hl, hh⟩ | ⟨hl, hh⟩
  · rw [hl, hh]
    exact hinv id hid
  · rw [hl, hh, hmod]
    have := hinv id hid
    simp only [Bool.or_eq_true, decide_eq_true_eq, this]
    constructor
    · rintro (h | h)
      · have := GetEventRecordKey_inj _ _ hid hlt2 h
        omega
      · omega
    · intro h
      by_cases he : id = GetLatestID s + 1
      · exact Or.inl (by rw [he])
      · exact Or.inr (by omega)

theorem Keeper.CanonicalIdsGapless_run (k : Keeper) (rs : List EventRecord) :
    ∀ (s : KVStore), CanonicalIdsGapless s →
      (∀ t ∈ k.storesBefore s rs, GetLatestID t < maxUint64) →
      CanonicalIdsGapless (k.SetEventRecords s rs) := by
  induction rs with
  | nil => intro s hinv _; exact hinv
  | cons r rs ih =>
    intro s hinv hb
    simp only [Keeper.SetEventRecords]
    apply ih
    · exact k.CanonicalIdsGapless_step s r hinv (hb s (by simp [Keeper.storesBefore]))
    · intro t ht
      exact hb t (by simp [Keeper.storesBefore, ht])

theorem bytesLt_append_same (p x y : Bytes) : bytesLt (p ++ x) (p ++ y) = bytesLt x y := by
  induction p with
  | nil => rfl
  | cons a p ih => simp [bytesLt_cons_cons, ih]

/-- Comparison of two byte strings of the same length, each followed by one
byte. -/
theorem bytesLt_snoc (xs ys : Bytes) (c d : Nat) (hlen : xs.length = ys.length) :
    bytesLt (xs ++ [c]) (ys ++ [d]) = (bytesLt xs ys || (decide (xs = ys) && decide (c < d))) := by
  induction xs generalizing ys with
  | nil =>
    cases ys with
    | nil =>
      by_cases hcd : c < d
      · simp [bytesLt, hcd]
      · simp [bytesLt, hcd]
    | cons y ys => simp at hlen
  | cons x xs ih =>
    cases ys with
    | nil => simp at hlen
    | cons y ys =>
      simp only [List.cons_append, bytesLt_cons_cons]
      by_cases hxy : x < y
      · simp [hxy]
      · by_cases hyx : y < x
        · have hne : x ≠ y := by omega
          simp [hxy, hyx, hne]
        · have : x = y := by omega
          subst this
          simp only [hxy, if_false, ih ys (by simpa using hlen)]
          simp

/-- Decimal strings of the same length compare as the numbers do. -/
theorem formatDigits_lt (fuel : Nat) : ∀ (a b : Nat), a < b → b < 10 ^ fuel →
    (formatDigits fuel a).length = (formatDigits fuel b).length →
    bytesLt (formatDigits fuel a) (formatDigits fuel b) = true := by
  induction fuel with
  | zero =>
    intro a b hab hb _
    simp at hb
    omega
  | succ fuel ih =>
    intro a b hab hb hlen
    simp only [formatDigits] at hlen ⊢
    by_cases ha10 : a < 10
    · by_cases hb10 : b < 10
      · simp only [ha10, hb10, if_true, bytesLt_cons_cons]
        have : 48 + a < 48 + b := by omega
        simp [this]
      · simp only [ha10, hb10, if_true, if_false, List.length_append, List.length_singleton]
          at hlen
        cases fuel with
        | zero => simp at hb; omega
        | succ f =>
          have := formatDigits_ne_nil f (b / 10)
          have hpos : 0 < (formatDigits (f + 1) (b / 10)).length := List.length_pos.mpr this
          omega
    · have hb10 : ¬ b < 10 := by omega
      simp only [ha10, hb10, if_false, List.length_append, List.length_singleton] at hlen ⊢
      have hlen2 : (formatDigits fuel (a / 10)).length = (formatDigits fuel (b / 10)).length := by
        omega
      have hb2 : b / 10 < 10 ^ fuel := by
        rw [pow_succ] at hb
        omega
      rw [bytesLt_snoc _ _ _ _ hlen2]
      by_cases hq : a / 10 < b / 10
      · simp [ih _ _ hq hb2 hlen2]
      · have hq2 : a / 10 = b / 10 := by omega
        have hr : 48 + a % 10 < 48 + b % 10 := by omega
        simp [hq2, hr]

/-! ## Lemmas: index families and the cross-reference key -/

/-- Every key of a family starts with the one byte of the key variable of the
family. -/
theorem Keeper.IsKeyOf_head (k : Keeper) (f : KeyFamily) (key : Bytes) (h : k.IsKeyOf f key) :
    ∃ b rest, f.firstBytes = [b] ∧ key = b :: rest := by
  cases f with
  | canonicalRecord =>
    obtain ⟨id, rfl⟩ := h
    exact ⟨0x11, _, rfl, GetEventRecordKey_eq id⟩
  | sequence =>
    obtain ⟨t, rfl⟩ := h
    exact ⟨0x12, t, rfl, rfl⟩
  | canonicalTime =>
    rcases h with ⟨id, t, rfl⟩ | ⟨t, rfl⟩
    · exact ⟨0x13, _, rfl, k.GetEventRecordKeyWithTime_eq id t⟩
    · exact ⟨0x13, k.FormatTimeBytes t, rfl, rfl⟩
  | tronTime =>
    obtain ⟨id, t, rfl⟩ := h
    exact ⟨0x14, k.FormatTimeBytes t ++ FormatUint id, rfl, by
      simp [GetRecordKey, Keeper.GetRecordKeyWithTimePrefix, TronStateRecordPrefixKeyWithTime]⟩
  | ethTime =>
    obtain ⟨id, t, rfl⟩ := h
    exact ⟨0x15, k.FormatTimeBytes t ++ FormatUint id, rfl, by
      simp [GetRecordKey, Keeper.GetRecordKeyWithTimePrefix, EthStateRecordPrefixKeyWithTime]⟩
  | tronDedupe =>
    obtain ⟨id, rfl⟩ := h
    exact ⟨0x16, FormatUint id, rfl, rfl⟩
  | ethDedupe =>
    obtain ⟨id, rfl⟩ := h
    exact ⟨0x17, FormatUint id, rfl, rfl⟩
  | counter =>
    exact ⟨0x18, [], rfl, h⟩
  | crossReference =>
    obtain ⟨c, id, rfl⟩ := h
    exact ⟨0x19, _, rfl, GetRootToHeimdallIdKey_eq c id⟩

theorem KeyFamily.firstBytes_inj (f g : KeyFamily) (h : f.firstBytes = g.firstBytes) : f = g := by
  cases f <;> cases g <;> first | rfl | exact absurd h (by decide)

theorem formatDigits_digits (fuel n : Nat) : ∀ b ∈ formatDigits fuel n, 48 ≤ b ∧ b ≤ 57 := by
  induction fuel generalizing n with
  | zero => intro b hb; simp [formatDigits] at hb
  | succ fuel ih =>
    intro b hb
    simp only [formatDigits] at hb
    split at hb
    · simp only [List.mem_singleton] at hb
      omega
    · rcases List.mem_append.mp hb with h | h
      · exact ih _ b h
      · simp only [List.mem_singleton] at h
        omega

/-- Byte strings that do not end in a digit, each followed by digits: equal
results come from equal parts. -/
theorem append_digits_inj (c1 c2 d1 d2 : Bytes) (h1 : NoDigitAtEnd c1) (h2 : NoDigitAtEnd c2)
    (hd1 : ∀ b ∈ d1, 48 ≤ b ∧ b ≤ 57) (hd2 : ∀ b ∈ d2, 48 ≤ b ∧ b ≤ 57)
    (h : c1 ++ d1 = c2 ++ d2) : c1 = c2 ∧ d1 = d2 := by
  rcases List.append_eq_append_iff.mp h with ⟨a, hc, hd⟩ | ⟨a, hc, hd⟩
  · rcases List.eq_nil_or_concat a with rfl | ⟨init, x, rfl⟩
    · simp at hc hd
      exact ⟨hc.symm, hd⟩
    · exfalso
      have hx : x ∈ d1 := by rw [hd]; simp
      refine h2 x ?_ (hd1 x hx)
      rw [hc]
      simp
  · rcases List.eq_nil_or_concat a with rfl | ⟨init, x, rfl⟩
    · simp at hc hd
      exact ⟨hc, hd.symm⟩
    · exfalso
      have hx : x ∈ d2 := by rw [hd]; simp
      refine h1 x ?_ (hd2 x hx)
      rw [hc]
      simp

theorem Keeper.GetRootChainEventRecordKey_congr (k : Keeper) (c : Bytes) (i j : Nat)
    (h : FormatUint i = FormatUint j) :
    k.GetRootChainEventRecordKey c i = k.GetRootChainEventRecordKey c j := by
  simp [Keeper.GetRootChainEventRecordKey, GetRecordKey, h]

/-- A record with an unknown chain type: `SetEventRecord` fails without a
write. -/
theorem Keeper.SetEventRecord_unknown_chain (k : Keeper) (s : KVStore) (r : EventRecord)
    (hroot : k.GetRootChainEventRecordKey r.RootChainType r.ID = none) :
    ∃ e, k.SetEventRecord s r = (s, some e) := by
  have hid : ∃ e, k.SetEventRecordWithID s r = (s, Except.error e) := by
    simp only [Keeper.SetEventRecordWithID, hroot]
    split
    · exact ⟨_, rfl⟩
    · exact ⟨_, rfl⟩
  obtain ⟨e, he⟩ := hid
  exact ⟨e, by simp only [Keeper.SetEventRecord, he]⟩

/-- A chain type with a dedupe key has a root chain time index key. -/
theorem Keeper.GetRootChainEventRecordKeyWithTimePrefix_of_some (k : Keeper) (c : Bytes)
    (i t : Nat) (rootKey : Bytes) (h : k.GetRootChainEventRecordKey c i = some rootKey) :
    ∃ tkey, k.GetRootChainEventRecordKeyWithTimePrefix c i t = some tkey := by
  simp only [Keeper.GetRootChainEventRecordKey] at h
  simp only [Keeper.GetRootChainEventRecordKeyWithTimePrefix]
  split
  · exact ⟨_, rfl⟩
  · rename_i h1
    simp only [h1, if_false] at h
    split
    · exact ⟨_, rfl⟩
    · rename_i h2
      simp [h2] at h

/-- Branch of `GetRootChainEventRecordKeyWithTimePrefix` that built a key. -/
theorem Keeper.GetRootChainEventRecordKeyWithTimePrefix_branch (k : Keeper) (c : Bytes)
    (i t : Nat) (key : Bytes) (h : k.GetRootChainEventRecordKeyWithTimePrefix c i t = some key) :
    (c = k.RootChainTypeEth ∧ key = 0x15 :: (k.FormatTimeBytes t ++ FormatUint i)) ∨
    (c ≠ k.RootChainTypeEth ∧ c = k.RootChainTypeTron ∧
      key = 0x14 :: (k.FormatTimeBytes t ++ FormatUint i)) := by
  simp only [Keeper.GetRootChainEventRecordKeyWithTimePrefix] at h
  split at h
  · rename_i hc
    simp only [Option.some.injEq] at h
    exact Or.inl ⟨hc, by
      simp [← h, GetRecordKey, Keeper.GetRecordKeyWithTimePrefix, EthStateRecordPrefixKeyWithTime]⟩
  · rename_i hc
    split at h
    · rename_i hc2
      simp only [Option.some.injEq] at h
      exact Or.inr ⟨hc, hc2, by
        simp [← h, GetRecordKey, Keeper.GetRecordKeyWithTimePrefix,
          TronStateRecordPrefixKeyWithTime]⟩
    · exact absurd h (by simp)

theorem Keeper.GetRootChainEventRecordKey_eth (k : Keeper) (c : Bytes) (i : Nat)
    (h : c = k.RootChainTypeEth) :
    k.GetRootChainEventRecordKey c i = some (0x17 :: FormatUint i) := by
  simp [Keeper.GetRootChainEventRecordKey, h, GetRecordKey, EthStateRecordPrefixKey]

theorem Keeper.GetRootChainEventRecordKey_tron (k : Keeper) (c : Bytes) (i : Nat)
    (h1 : c ≠ k.RootChainTypeEth) (h2 : c = k.RootChainTypeTron) :
    k.GetRootChainEventRecordKey c i = some (0x16 :: FormatUint i) := by
  simp only [Keeper.GetRootChainEventRecordKey, h1, if_false]
  simp [h2, GetRecordKey, TronStateRecordPrefixKey]

/-- With fixed-width times, two chain types, ids and times with the same root
chain time index key have the same dedupe key. -/
theorem Keeper.time_key_same_dedupe (k : Keeper) (V : Nat → Prop)
    (hwidth : k.TimeFormatFixedWidth V) (c1 c2 : Bytes) (i1 i2 t1 t2 : Nat) (key : Bytes)
    (hV1 : V t1) (hV2 : V t2)
    (h1 : k.GetRootChainEventRecordKeyWithTimePrefix c1 i1 t1 = some key)
    (h2 : k.GetRootChainEventRecordKeyWithTimePrefix c2 i2 t2 = some key) :
    k.GetRootChainEventRecordKey c1 i1 = k.GetRootChainEventRecordKey c2 i2 := by
  have hlen := hwidth t1 t2 hV1 hV2
  rcases k.GetRootChainEventRecordKeyWithTimePrefix_branch _ _ _ _ h1 with ⟨e1, k1⟩ | ⟨n1, r1, k1⟩ <;>
    rcases k.GetRootChainEventRecordKeyWithTimePrefix_branch _ _ _ _ h2 with
      ⟨e2, k2⟩ | ⟨n2, r2, k2⟩
  · rw [k1] at k2
    have hF := (List.append_inj (List.cons.inj k2).2 hlen).2
    rw [k.GetRootChainEventRecordKey_eth c1 i1 e1, k.GetRootChainEventRecordKey_eth c2 i2 e2, hF]
  · rw [k1] at k2
    exact absurd (List.cons.inj k2).1 (by decide)
  · rw [k1] at k2
    exact absurd (List.cons.inj k2).1 (by decide)
  · rw [k1] at k2
    have hF := (List.append_inj (List.cons.inj k2).2 hlen).2
    rw [k.GetRootChainEventRecordKey_tron c1 i1 n1 r1,
      k.GetRootChainEventRecordKey_tron c2 i2 n2 r2, hF]

/-- Entries of the store after a successful ingestion: those of the store before
and those at the six keys written. -/
theorem Keeper.SetEventRecord_mem_cases (k : Keeper) (s s2 : KVStore) (r : EventRecord)
    (h : k.SetEventRecord s r = (s2, none)) :
    ∃ rootKey tkey,
      k.GetRootChainEventRecordKey r.RootChainType r.ID = some rootKey ∧
      k.GetRootChainEventRecordKeyWithTimePrefix r.RootChainType r.ID r.RecordTime = some tkey ∧
      ∀ e ∈ s2, e ∈ s ∨ e.1 = rootKey ∨ e.1 = GetRootToHeimdallIdKey r.RootChainType r.ID ∨
        e.1 = GetEventRecordKey ((GetLatestID s + 1) % uint64Size) ∨
        e.1 = LatestMsgIDPrefixKey ∨ e.1 = tkey ∨
        e.1 = k.GetEventRecordKeyWithTime ((GetLatestID s + 1) % uint64Size) r.RecordTime := by
  obtain ⟨s1, hid, htime⟩ := k.SetEventRecord_ok _ _ _ h
  obtain ⟨rootKey, v1, v2, v3, hroot, _, _, _, _, _, _, _, hs1⟩ :=
    k.SetEventRecordWithID_ok _ _ _ _ hid
  obtain ⟨tkey, v4, v5, htkey, _, _, _, _, hs2⟩ := k.SetEventRecordWithTime_ok _ _ _ _ htime
  refine ⟨rootKey, tkey, hroot, htkey, ?_⟩
  intro e he
  rw [hs2] at he
  rcases KVStore.mem_Set _ _ _ _ he with h6 | he
  · rw [h6]; simp
  rcases KVStore.mem_Set _ _ _ _ he with h5 | he
  · rw [h5]; simp
  rw [hs1, SetLatestID] at he
  rcases KVStore.mem_Set _ _ _ _ he with h4 | he
  · rw [h4]; simp
  rcases KVStore.mem_Set _ _ _ _ he with h3 | he
  · rw [h3]; simp
  rcases KVStore.mem_Set _ _ _ _ he with h2 | he
  · rw [h2]; simp
  rcases KVStore.mem_Set _ _ _ _ he with h1 | he
  · rw [h1]; simp
  · exact Or.inl he

theorem Keeper.IngestInv_nil (k : Keeper) (V : Nat → Prop) : k.IngestInv V [] := by
  refine ⟨CanonicalIdsGapless_nil, ?_, ?_, ?_⟩ <;> intro e he <;> simp at he

/-- On a store that satisfies the invariant, a call of `SetEventRecord` fails
without a write or succeeds. -/
theorem Keeper.SetEventRecord_fails_clean_or_succeeds (k : Keeper) (V : Nat → Prop)
    (htotal : k.CodecTotal) (hwidth : k.TimeFormatFixedWidth V) (hsep : k.ChainTypesSeparated)
    (s : KVStore) (r : EventRecord) (hinv : k.IngestInv V s) (hVr : V r.RecordTime)
    (hid : r.ID < uint64Size) (hlt : GetLatestID s < maxUint64) :
    (∃ e, k.SetEventRecord s r = (s, some e)) ∨ (∃ s2, k.SetEventRecord s r = (s2, none)) := by
  obtain ⟨hgap, hB, hC, hD⟩ := hinv
  have hlt2 : GetLatestID s + 1 < uint64Size := by
    simp only [maxUint64] at hlt
    simp only [uint64Size]
    omega
  have hmod : (GetLatestID s + 1) % uint64Size = GetLatestID s + 1 := Nat.mod_eq_of_lt hlt2
  cases hroot : k.GetRootChainEventRecordKey r.RootChainType r.ID with
  | none => exact Or.inl (k.SetEventRecord_unknown_chain s r hroot)
  | some rootKey =>
    cases hhas : KVStore.Has s rootKey with
    | true =>
      obtain ⟨e, he⟩ := k.SetEventRecordWithID_duplicate s r rootKey hroot hhas
      exact Or.inl ⟨e, by simp only [Keeper.SetEventRecord, he]⟩
    | false =>
      right
      obtain ⟨tkey, htkey⟩ :=
        k.GetRootChainEventRecordKeyWithTimePrefix_of_some _ r.ID r.RecordTime _ hroot
      have hnot : ∀ c2 i2 rootKey2, k.GetRootChainEventRecordKey c2 i2 = some rootKey2 →
          KVStore.Has s rootKey2 = true →
          k.GetRootChainEventRecordKey r.RootChainType r.ID ≠
            k.GetRootChainEventRecordKey c2 i2 := by
        intro c2 i2 rootKey2 hroot2 hhas2 heq
        rw [hroot, hroot2] at heq
        rw [← Option.some.inj heq, hhas] at hhas2
        exact absurd hhas2 (by simp)
      refine k.SetEventRecord_succeeds htotal s r rootKey tkey hid hroot htkey hhas ?_ ?_ ?_ ?_
      · cases hx : KVStore.Has s (GetRootToHeimdallIdKey r.RootChainType r.ID) with
        | false => rfl
        | true =>
          exfalso
          obtain ⟨v, hv⟩ := (KVStore.Has_iff_mem _ _).mp hx
          obtain ⟨c2, i2, rootKey2, hkey, hroot2, hhas2⟩ :=
            hB _ hv _ (GetRootToHeimdallIdKey_eq _ _)
          apply hnot c2 i2 rootKey2 hroot2 hhas2
          simp only [GetRootToHeimdallIdKey_eq] at hkey
          have hcat := (List.cons.inj hkey).2
          by_cases hcc : r.RootChainType = c2
          · rw [← hcc] at hcat ⊢
            exact k.GetRootChainEventRecordKey_congr _ _ _ (List.append_cancel_left hcat)
          · exfalso
            rcases (k.GetRootChainEventRecordKey_some _ _ _ hroot).1 with h1 | h1 <;>
              rcases (k.GetRootChainEventRecordKey_some _ _ _ hroot2).1 with h2 | h2
            · exact hcc (by rw [h1, h2])
            · rw [h1, h2] at hcat
              exact hsep _ _ hcat
            · rw [h1, h2] at hcat
              exact hsep _ _ hcat.symm
            · exact hcc (by rw [h1, h2])
      · rw [hmod]
        cases hx : KVStore.Has s (GetEventRecordKey (GetLatestID s + 1)) with
        | false => rfl
        | true =>
          have := (hgap (GetLatestID s + 1) hlt2).mp hx
          omega
      · cases hx : KVStore.Has s tkey with
        | false => rfl
        | true =>
          exfalso
          obtain ⟨v, hv⟩ := (KVStore.Has_iff_mem _ _).mp hx
          have hhead : ∃ rest, tkey = 0x15 :: rest ∨ tkey = 0x14 :: rest := by
            rcases k.GetRootChainEventRecordKeyWithTimePrefix_some _ _ _ _ htkey with h | h
            · exact ⟨_, Or.inl h⟩
            · exact ⟨_, Or.inr h⟩
          obtain ⟨rest, hrest⟩ := hhead
          obtain ⟨c2, i2, t2, rootKey2, hV2, hk2, hroot2, hhas2⟩ := hC _ hv rest hrest
          exact hnot c2 i2 rootKey2 hroot2 hhas2
            (k.time_key_same_dedupe V hwidth _ _ _ _ _ _ tkey hVr hV2 htkey hk2)
      · rw [hmod]
        cases hx : KVStore.Has s
            (k.GetEventRecordKeyWithTime (GetLatestID s + 1) r.RecordTime) with
        | false => rfl
        | true =>
          exfalso
          obtain ⟨v, hv⟩ := (KVStore.Has_iff_mem _ _).mp hx
          obtain ⟨t2, j, hV2, hj, hjle, hkey⟩ := hD _ hv _ (k.GetEventRecordKeyWithTime_eq _ _)
          simp only [Keeper.GetEventRecordKeyWithTime_eq] at hkey
          have hF := (List.append_inj (List.cons.inj hkey).2 (hwidth _ _ hVr hV2)).2
          have := FormatUint_inj _ _ hlt2 hj hF
          omega

/-- The invariant is kept by every call of `SetEventRecord`. -/
theorem Keeper.IngestInv_step (k : Keeper) (V : Nat → Prop)
    (htotal : k.CodecTotal) (hwidth : k.TimeFormatFixedWidth V) (hsep : k.ChainTypesSeparated)
    (s : KVStore) (r : EventRecord) (hinv : k.IngestInv V s) (hVr : V r.RecordTime)
    (hid : r.ID < uint64Size) (hlt : GetLatestID s < maxUint64) :
    k.IngestInv V (k.SetEventRecord s r).1 := by
  rcases k.SetEventRecord_fails_clean_or_succeeds V htotal hwidth hsep s r hinv hVr hid hlt with
    ⟨e, he⟩ | ⟨s2, h2⟩
  · rw [he]
    exact hinv
  have hgap := k.CanonicalIdsGapless_step s r hinv.1 hlt
  rw [h2]
  rw [h2] at hgap
  simp only at hgap ⊢
  obtain ⟨_, hB, hC, hD⟩ := hinv
  have hlt2 : GetLatestID s + 1 < uint64Size := by
    simp only [maxUint64] at hlt
    simp only [uint64Size]
    omega
  have hmod : (GetLatestID s + 1) % uint64Size = GetLatestID s + 1 := Nat.mod_eq_of_lt hlt2
  obtain ⟨rootKey, tkey, hroot, htkey, hmem⟩ := k.SetEventRecord_mem_cases _ _ _ h2
  obtain ⟨rootKey1, tkey1, hroot1, htkey1, hHas⟩ := k.SetEventRecord_Has _ _ _ h2
  rw [hroot] at hroot1
  have hr1 : rootKey1 = rootKey := (Option.some.inj hroot1).symm
  subst hr1
  have hmono : ∀ key, KVStore.Has s key = true → KVStore.Has s2 key = true := by
    intro key hk
    rw [hHas, hk]
    simp
  have hrootHas : KVStore.Has s2 rootKey1 = true := by
    rw [hHas]
    simp
  obtain ⟨_, _, _, _, hL, _⟩ := k.SetEventRecord_post _ _ _ h2
  rw [hmod] at hL hmem
  have hrk := (k.GetRootChainEventRecordKey_some _ _ _ hroot).2
  have htk := k.GetRootChainEventRecordKeyWithTimePrefix_some _ _ _ _ htkey
  have hxr := GetRootToHeimdallIdKey_eq r.RootChainType r.ID
  have hcn := GetEventRecordKey_eq (GetLatestID s + 1)
  have hct := k.GetEventRecordKeyWithTime_eq (GetLatestID s + 1) r.RecordTime
  have hco : LatestMsgIDPrefixKey = [0x18] := rfl
  refine ⟨hgap, ?_, ?_, ?_⟩
  · intro e he rest hk
    rcases hmem e he with h | h | h | h | h | h | h
    · obtain ⟨c2, i2, rootKey2, hkey, hroot2, hhas2⟩ := hB e h rest hk
      exact ⟨c2, i2, rootKey2, hkey, hroot2, hmono _ hhas2⟩
    · rcases hrk with h1 | h1 <;> (rw [h, h1] at hk; simp at hk)
    · exact ⟨r.RootChainType, r.ID, rootKey1, h, hroot, hrootHas⟩
    · rw [h, hcn] at hk; simp at hk
    · rw [h, hco] at hk; simp at hk
    · rcases htk with h1 | h1 <;> (rw [h, h1] at hk; simp at hk)
    · rw [h, hct] at hk; simp at hk
  · intro e he rest hk
    rcases hmem e he with h | h | h | h | h | h | h
    · obtain ⟨c2, i2, t2, rootKey2, hV2, hkey, hroot2, hhas2⟩ := hC e h rest hk
      exact ⟨c2, i2, t2, rootKey2, hV2, hkey, hroot2, hmono _ hhas2⟩
    · rcases hrk with h1 | h1 <;> (rw [h, h1] at hk; simp at hk)
    · rw [h, hxr] at hk; simp at hk
    · rw [h, hcn] at hk; simp at hk
    · rw [h, hco] at hk; simp at hk
    · exact ⟨r.RootChainType, r.ID, r.RecordTime, rootKey1, hVr, by rw [h]; exact htkey, hroot,
        hrootHas⟩
    · rw [h, hct] at hk; simp at hk
  · intro e he rest hk
    rcases hmem e he with h | h | h | h | h | h | h
    · obtain ⟨t2, j, hV2, hj, hjle, hkey⟩ := hD e h rest hk
      exact ⟨t2, j, hV2, hj, by rw [hL]; omega, hkey⟩
    · rcases hrk with h1 | h1 <;> (rw [h, h1] at hk; simp at hk)
    · rw [h, hxr] at hk; simp at hk
    · rw [h, hcn] at hk; simp at hk
    · rw [h, hco] at hk; simp at hk
    · rcases htk with h1 | h1 <;> (rw [h, h1] at hk; simp at hk)
    · exact ⟨r.RecordTime, GetLatestID s + 1, hVr, hlt2, by rw [hL], h⟩

/-- The invariant holds along every sequence of calls on records with times in
`V` and ids of the `uint64` range, the counter being below `2^64-1` before each
call. -/
theorem Keeper.IngestInv_run (k : Keeper) (V : Nat → Prop)
    (htotal : k.CodecTotal) (hwidth : k.TimeFormatFixedWidth V) (hsep : k.ChainTypesSeparated)
    (rs : List EventRecord) :
    ∀ (s : KVStore), k.IngestInv V s →
      (∀ q ∈ rs, V q.RecordTime ∧ q.ID < uint64Size) →
      (∀ t ∈ k.storesBefore s rs, GetLatestID t < maxUint64) →
      k.IngestInv V (k.SetEventRecords s rs) := by
  induction rs with
  | nil => intro s hinv _ _; exact hinv
  | cons r rs ih =>
    intro s hinv hq hb
    simp only [Keeper.SetEventRecords]
    apply ih
    · exact k.IngestInv_step V htotal hwidth hsep s r hinv (hq r (List.mem_cons_self _ _)).1
        (hq r (List.mem_cons_self _ _)).2 (hb s (by simp [Keeper.storesBefore]))
    · intro q hqm
      exact hq q (List.mem_cons_of_mem _ hqm)
    · intro t ht
      exact hb t (by simp [Keeper.storesBefore, ht])

theorem demoKeeper_TimeFormatFixedWidth : demoKeeper.TimeFormatFixedWidth (fun t => t < 10) := by
  intro t1 t2 _ _
  rfl

theorem demoKeeper_ChainTypesSeparated : demoKeeper.ChainTypesSeparated := by
  intro a b h
  simp [demoKeeper] at h

/-! ## Lemmas: writes seen key by key -/

/-- The write-once primitive leaves what is found at every other key. -/
theorem setEventRecordStore_find_other (s s1 : KVStore) (key value : Bytes) (oe : Option Err)
    (hs : setEventRecordStore s key value = (s1, oe)) (key2 : Bytes) (hne : key2 ≠ key) :
    KVStore.find s1 key2 = KVStore.find s key2 := by
  simp only [setEventRecordStore] at hs
  split at hs
  · simp only [Prod.mk.injEq] at hs
    rw [← hs.1]
  · simp only [Prod.mk.injEq] at hs
    rw [← hs.1, KVStore.find_Set_other _ _ _ _ hne]

/-- Whatever its outcome, `SetEventRecordWithID` leaves what is found at every
cross-reference key other than the one of the record. -/
theorem Keeper.SetEventRecordWithID_find_crossref (k : Keeper) (s : KVStore) (r : EventRecord)
    (key2 rest : Bytes) (hk : key2 = 0x19 :: rest)
    (hne : key2 ≠ GetRootToHeimdallIdKey r.RootChainType r.ID) :
    KVStore.find (k.SetEventRecordWithID s r).1 key2 = KVStore.find s key2 := by
  simp only [Keeper.SetEventRecordWithID]
  split
  · rfl
  split
  · rfl
  rename_i rootKey hroot
  have hne1 : key2 ≠ rootKey := by
    rcases (k.GetRootChainEventRecordKey_some _ _ _ hroot).2 with h1 | h1 <;>
      (rw [hk, h1]; simp)
  split
  · rename_i hsa
    exact setEventRecordStore_find_other _ _ _ _ _ hsa _ hne1
  rename_i hsa
  have ha := setEventRecordStore_find_other _ _ _ _ _ hsa _ hne1
  split
  · exact ha
  split
  · rename_i hsb
    rw [setEventRecordStore_find_other _ _ _ _ _ hsb _ hne, ha]
  rename_i hsb
  have hb := setEventRecordStore_find_other _ _ _ _ _ hsb _ hne
  split
  · rw [hb, ha]
  have hne3 : ∀ n, key2 ≠ GetEventRecordKey n := by
    intro n
    rw [hk, GetEventRecordKey_eq]
    simp
  have hne4 : key2 ≠ LatestMsgIDPrefixKey := by
    rw [hk]
    simp [LatestMsgIDPrefixKey]
  split
  · rename_i hsc
    rw [setEventRecordStore_find_other _ _ _ _ _ hsc _ (hne3 _), hb, ha]
  rename_i hsc
  simp only [SetLatestID]
  rw [KVStore.find_Set_other _ _ _ _ hne4,
    setEventRecordStore_find_other _ _ _ _ _ hsc _ (hne3 _), hb, ha]

/-- Whatever its outcome, `SetEventRecord` leaves what is found at every
cross-reference key other than the one of the record. -/
theorem Keeper.SetEventRecord_find_crossref (k : Keeper) (s : KVStore) (r : EventRecord)
    (key2 rest : Bytes) (hk : key2 = 0x19 :: rest)
    (hne : key2 ≠ GetRootToHeimdallIdKey r.RootChainType r.ID) :
    KVStore.find (k.SetEventRecord s r).1 key2 = KVStore.find s key2 := by
  have h1 := k.SetEventRecordWithID_find_crossref s r key2 rest hk hne
  simp only [Keeper.SetEventRecord]
  split
  · rename_i he
    rw [he] at h1
    exact h1
  · rename_i he
    rw [he] at h1
    rw [k.SetEventRecordWithTime_find, h1]
    intro rest2
    rw [hk]
    simp

theorem Keeper.GetHeimdallIDByRootID_congr (k : Keeper) (s s1 : KVStore) (c : Bytes) (i : Nat)
    (h : KVStore.find s1 (GetRootToHeimdallIdKey c i) = KVStore.find s (GetRootToHeimdallIdKey c i)) :
    k.GetHeimdallIDByRootID s1 c i = k.GetHeimdallIDByRootID s c i := by
  simp only [Keeper.GetHeimdallIDByRootID, KVStore.Has, KVStore.Get, h]

/-- Whatever its outcome, `SetEventRecordWithID` adds no entry to the sequence
family. -/
theorem Keeper.SetEventRecordWithID_mem_sequence (k : Keeper) (s : KVStore) (r : EventRecord)
    (e : Bytes × Bytes) (rest : Bytes) (he : e ∈ (k.SetEventRecordWithID s r).1)
    (hk : e.1 = 0x12 :: rest) : e ∈ s := by
  simp only [Keeper.SetEventRecordWithID] at he
  split at he
  · exact he
  split at he
  · exact he
  rename_i rootKey hroot
  have hroot2 := (k.GetRootChainEventRecordKey_some _ _ _ hroot).2
  have ha : ∀ value sa oe, setEventRecordStore s rootKey value = (sa, oe) → e ∈ sa → e ∈ s := by
    intro value sa oe hsa hm
    rcases setEventRecordStore_mem _ _ _ _ _ hsa e hm with h | h
    · exact h
    · rw [h.2] at hk
      rcases hroot2 with h1 | h1 <;> simp [h1] at hk
  split at he
  · rename_i hsa
    exact ha _ _ _ hsa he
  rename_i sa hsa
  split at he
  · exact ha _ _ _ hsa he
  rename_i v2 _
  have hb : ∀ sb oe, setEventRecordStore sa (GetRootToHeimdallIdKey r.RootChainType r.ID) v2
      = (sb, oe) → e ∈ sb → e ∈ s := by
    intro sb oe hsb hm
    rcases setEventRecordStore_mem _ _ _ _ _ hsb e hm with h | h
    · exact ha _ _ _ hsa h
    · rw [h.2] at hk
      simp [GetRootToHeimdallIdKey_eq] at hk
  split at he
  · rename_i hsb
    exact hb _ _ hsb he
  rename_i sb hsb
  split at he
  · exact hb _ _ hsb he
  rename_i v3 _
  have hc : ∀ sc oe, setEventRecordStore sb
      (GetEventRecordKey ((GetLatestID sa + 1) % uint64Size)) v3 = (sc, oe) → e ∈ sc → e ∈ s := by
    intro sc oe hsc hm
    rcases setEventRecordStore_mem _ _ _ _ _ hsc e hm with h | h
    · exact hb _ _ hsb h
    · rw [h.2] at hk
      simp [GetEventRecordKey_eq] at hk
  split at he
  · rename_i hsc
    exact hc _ _ hsc he
  rename_i sc hsc
  simp only [SetLatestID] at he
  rcases KVStore.mem_Set _ _ _ _ he with h | h
  · rw [h] at hk
    simp [LatestMsgIDPrefixKey] at hk
  · exact hc _ _ hsc h

/-- Whatever its outcome, `SetEventRecordWithTime` adds no entry to the sequence
family. -/
theorem Keeper.SetEventRecordWithTime_mem_sequence (k : Keeper) (s : KVStore) (r : EventRecord)
    (n : Nat) (e : Bytes × Bytes) (rest : Bytes) (he : e ∈ (k.SetEventRecordWithTime s r n).1)
    (hk : e.1 = 0x12 :: rest) : e ∈ s := by
  simp only [Keeper.SetEventRecordWithTime] at he
  split at he
  · exact he
  rename_i v4 hv4
  split at he
  · exact he
  rename_i tkey htkey
  have htkey2 := k.GetRootChainEventRecordKeyWithTimePrefix_some _ _ _ _ htkey
  have ha : ∀ sa oe, setEventRecordStore s tkey v4 = (sa, oe) → e ∈ sa → e ∈ s := by
    intro sa oe hsa hm
    rcases setEventRecordStore_mem _ _ _ _ _ hsa e hm with h | h
    · exact h
    · rw [h.2] at hk
      rcases htkey2 with h1 | h1 <;> simp [h1] at hk
  split at he
  · rename_i hsa
    exact ha _ _ hsa he
  rename_i sa hsa
  split at he
  · exact ha _ _ hsa he
  rcases setEventRecordStore_mem _ _ _ _ _ rfl e he with h | h
  · exact ha _ _ hsa h
  · rw [h.2] at hk
    simp [Keeper.GetEventRecordKeyWithTime_eq] at hk

/-- In every store written by the keeper, the entries of the sequence family
hold the default value. -/
theorem Keeper.Reached_sequence_value (k : Keeper) (s : KVStore) (h : k.Reached s) :
    ∀ e ∈ s, ∀ t, e.1 = GetRecordSequenceKey t → e.2 = DefaultValue := by
  induction h with
  | empty => intro e he; simp at he
  | setEventRecord s r _ ih =>
    intro e he t hk
    apply ih e _ t hk
    have h1 := k.SetEventRecordWithID_mem_sequence s r e t
    simp only [Keeper.SetEventRecord] at he
    split at he
    · rename_i heq
      rw [heq] at h1
      exact h1 he hk
    · rename_i heq
      rw [heq] at h1
      exact h1 (k.SetEventRecordWithTime_mem_sequence _ _ _ e t he hk) hk
  | setEventRecordWithID s r _ ih =>
    intro e he t hk
    exact ih e (k.SetEventRecordWithID_mem_sequence s r e t he hk) t hk
  | setEventRecordWithTime s r n _ ih =>
    intro e he t hk
    exact ih e (k.SetEventRecordWithTime_mem_sequence s r n e t he hk) t hk
  | setLatestID s num _ ih =>
    intro e he t hk
    rcases KVStore.mem_Set _ _ _ _ he with h1 | h1
    · rw [h1] at hk
      simp [LatestMsgIDPrefixKey, GetRecordSequenceKey, RecordSequencePrefixKey] at hk
    · exact ih e h1 t hk
  | setRecordSequence s t2 _ ih =>
    intro e he t hk
    rcases KVStore.mem_Set _ _ _ _ he with h1 | h1
    · rw [h1]
    · exact ih e h1 t hk

/-- On a store written by the keeper, `SetRecordSequence` leaves the value found
at every key that is set. -/
theorem Keeper.SetRecordSequence_find_of_Reached (k : Keeper) (s : KVStore)
    (hreached : k.Reached s) (t key v : Bytes) (hf : KVStore.find s key = some v) :
    KVStore.find (SetRecordSequence s t) key = some v := by
  rw [SetRecordSequence, KVStore.find_Set]
  split
  · rename_i hkey
    have hv := k.Reached_sequence_value s hreached (key, v) (KVStore.find_some_mem s key v hf) t
      hkey
    simp only at hv
    rw [hv]
  · exact hf

theorem demoKeeper_Reached_demoStoreA : demoKeeper.Reached demoStoreA :=
  Keeper.Reached.setEventRecord [] demoEthA Keeper.Reached.empty

/-! ## Claims -/

/-- C1: for every store and every two records with the same root chain type and
the same root chain id, if `SetEventRecord` of the first succeeds then a following
`SetEventRecord` of the second returns an error, and `GetLatestID` is the same
before and after that second call (the store itself is left as it was). -/
theorem duplicate_root_event_rejected (k : Keeper) (s s1 : KVStore) (r1 r2 : EventRecord)
    (hc : r1.RootChainType = r2.RootChainType) (hid : r1.ID = r2.ID)
    (h1 : k.SetEventRecord s r1 = (s1, none)) :
    (∃ e, k.SetEventRecord s1 r2 = (s1, some e)) ∧
      GetLatestID (k.SetEventRecord s1 r2).1 = GetLatestID s1 := by
  obtain ⟨rootKey, v1, _, _, _, hroot, _, _, _, _, _, _, hf1, _, _⟩ := k.SetEventRecord_post _ _ _ h1
  rw [hc, hid] at hroot
  have hhas : KVStore.Has s1 rootKey = true := by simp [KVStore.Has, hf1]
  obtain ⟨e, he⟩ := k.SetEventRecordWithID_duplicate s1 r2 rootKey hroot hhas
  have h2 : k.SetEventRecord s1 r2 = (s1, some e) := by
    simp only [Keeper.SetEventRecord, he]
  exact ⟨⟨e, h2⟩, by rw [h2]⟩

/-- Witness of C1: on the empty store, eth event 7 is ingested and a second
submission of eth event 7 is rejected. -/
theorem duplicate_root_event_rejected_witness :
    (demoEthA.RootChainType = demoEthB.RootChainType ∧ demoEthA.ID = demoEthB.ID ∧
      demoKeeper.SetEventRecord [] demoEthA = (demoStoreA, none)) ∧
    ((∃ e, demoKeeper.SetEventRecord demoStoreA demoEthB = (demoStoreA, some e)) ∧
      GetLatestID (demoKeeper.SetEventRecord demoStoreA demoEthB).1 = GetLatestID demoStoreA) :=
  ⟨⟨rfl, rfl, by decide⟩,
    duplicate_root_event_rejected demoKeeper [] demoStoreA demoEthA demoEthB rfl rfl (by decide)⟩

/-- After any call the counter is what it was or one more. -/
theorem Keeper.SetEventRecord_GetLatestID (k : Keeper) (s : KVStore) (r : EventRecord) :
    GetLatestID (k.SetEventRecord s r).1 = GetLatestID s ∨
      GetLatestID (k.SetEventRecord s r).1 = (GetLatestID s + 1) % uint64Size := by
  simp only [Keeper.SetEventRecord]
  split
  · rename_i s1 e he
    exact Or.inl (k.SetEventRecordWithID_error _ _ _ _ he)
  · rename_i s1 n hn
    obtain ⟨_, _, _, _, hn1, hl, _⟩ := k.SetEventRecordWithID_post _ _ _ _ hn
    right
    rw [k.SetEventRecordWithTime_GetLatestID, hl, hn1]

theorem Keeper.successfulCalls_before_ge (k : Keeper) (rs : List EventRecord) :
    ∀ (s : KVStore), (∀ t ∈ k.storesBefore s rs, GetLatestID t < maxUint64) →
      ∀ c ∈ k.successfulCalls s rs, GetLatestID s ≤ GetLatestID c.1 := by
  induction rs with
  | nil => intro s _ c hc; simp [Keeper.successfulCalls] at hc
  | cons r rs ih =>
    intro s hb c hc
    have hs : GetLatestID s < maxUint64 := hb s (by simp [Keeper.storesBefore])
    have hb2 : ∀ t ∈ k.storesBefore (k.SetEventRecord s r).1 rs, GetLatestID t < maxUint64 :=
      fun t ht => hb t (by simp [Keeper.storesBefore, ht])
    have hstep : GetLatestID s ≤ GetLatestID (k.SetEventRecord s r).1 := by
      simp only [maxUint64] at hs
      rcases k.SetEventRecord_GetLatestID s r with h | h
      · omega
      · rw [h]; simp only [uint64Size]; omega
    simp only [Keeper.successfulCalls] at hc
    split at hc
    · rcases List.mem_cons.mp hc with h | h
      · rw [h]
      · exact le_trans hstep (ih _ hb2 c h)
    · exact le_trans hstep (ih _ hb2 c hc)

theorem Keeper.successfulCalls_step (k : Keeper) (rs : List EventRecord) :
    ∀ (s : KVStore), ∀ c ∈ k.successfulCalls s rs,
      c.1 ∈ k.storesBefore s rs ∧ k.SetEventRecord c.1 c.2.1 = (c.2.2, none) := by
  induction rs with
  | nil => intro s c hc; simp [Keeper.successfulCalls] at hc
  | cons r rs ih =>
    intro s c hc
    simp only [Keeper.successfulCalls] at hc
    split at hc
    · rename_i hok
      rcases List.mem_cons.mp hc with h | h
      · subst h
        exact ⟨by simp [Keeper.storesBefore], Prod.ext rfl hok⟩
      · exact ⟨by simp [Keeper.storesBefore, (ih _ c h).1], (ih _ c h).2⟩
    · exact ⟨by simp [Keeper.storesBefore, (ih _ c hc).1], (ih _ c hc).2⟩

/-- C2: in a sequence of `SetEventRecord` calls in which `GetLatestID` is below
`2^64-1` before every call, each successful call assigns the canonical id
`GetLatestID` before the call plus one: that id is `GetLatestID` after the call,
its `GetEventRecordKey` was not set before the call and holds the record (with
that id) after it; and the ids assigned by the successful calls are strictly
increasing in call order, hence pairwise distinct. -/
theorem assigned_ids_strictly_increasing (k : Keeper) (s : KVStore) (rs : List EventRecord)
    (hbelow : ∀ t ∈ k.storesBefore s rs, GetLatestID t < maxUint64) :
    (∀ c ∈ k.successfulCalls s rs,
      GetLatestID c.2.2 = GetLatestID c.1 + 1 ∧
      KVStore.Has c.1 (GetEventRecordKey (GetLatestID c.1 + 1)) = false ∧
      (∃ v, k.MarshalRecord { c.2.1 with ID := GetLatestID c.1 + 1 } = some v ∧
        KVStore.find c.2.2 (GetEventRecordKey (GetLatestID c.1 + 1)) = some v)) ∧
    List.Pairwise (fun c d => GetLatestID c.2.2 < GetLatestID d.2.2) (k.successfulCalls s rs) := by
  have hstep : ∀ (s : KVStore) (rs : List EventRecord),
      (∀ t ∈ k.storesBefore s rs, GetLatestID t < maxUint64) →
      ∀ c ∈ k.successfulCalls s rs,
      GetLatestID c.2.2 = GetLatestID c.1 + 1 ∧
      KVStore.Has c.1 (GetEventRecordKey (GetLatestID c.1 + 1)) = false ∧
      (∃ v, k.MarshalRecord { c.2.1 with ID := GetLatestID c.1 + 1 } = some v ∧
        KVStore.find c.2.2 (GetEventRecordKey (GetLatestID c.1 + 1)) = some v) := by
    intro s rs hb c hc
    obtain ⟨hmem, hok⟩ := k.successfulCalls_step rs s c hc
    have hlt := hb _ hmem
    have hmod : (GetLatestID c.1 + 1) % uint64Size = GetLatestID c.1 + 1 := by
      apply Nat.mod_eq_of_lt
      simp only [maxUint64] at hlt
      simp only [uint64Size]
      omega
    obtain ⟨_, _, _, v3, hl, _, _, _, hv3, _, _, hh3, _, _, hf3⟩ := k.SetEventRecord_post _ _ _ hok
    rw [hmod] at hl hv3 hh3 hf3
    exact ⟨hl, hh3, v3, hv3, hf3⟩
  refine ⟨hstep s rs hbelow, ?_⟩
  induction rs generalizing s with
  | nil => simp [Keeper.successfulCalls]
  | cons r rs ih =>
    have hb2 : ∀ t ∈ k.storesBefore (k.SetEventRecord s r).1 rs, GetLatestID t < maxUint64 :=
      fun t ht => hbelow t (by simp [Keeper.storesBefore, ht])
    simp only [Keeper.successfulCalls]
    split
    · refine List.pairwise_cons.mpr ⟨?_, ih _ hb2⟩
      intro d hd
      have h1 := k.successfulCalls_before_ge rs _ hb2 d hd
      have h2 := (hstep _ rs hb2 d hd).1
      simp only
      omega
    · exact ih _ hb2

/-- Witness of C2: eth event 7, its duplicate and tron event 7 on the empty
store. -/
theorem assigned_ids_strictly_increasing_witness :
    (∀ t ∈ demoKeeper.storesBefore [] [demoEthA, demoEthB, demoTronC],
      GetLatestID t < maxUint64) ∧
    ((∀ c ∈ demoKeeper.successfulCalls [] [demoEthA, demoEthB, demoTronC],
      GetLatestID c.2.2 = GetLatestID c.1 + 1 ∧
      KVStore.Has c.1 (GetEventRecordKey (GetLatestID c.1 + 1)) = false ∧
      (∃ v, demoKeeper.MarshalRecord { c.2.1 with ID := GetLatestID c.1 + 1 } = some v ∧
        KVStore.find c.2.2 (GetEventRecordKey (GetLatestID c.1 + 1)) = some v)) ∧
    List.Pairwise (fun c d => GetLatestID c.2.2 < GetLatestID d.2.2)
      (demoKeeper.successfulCalls [] [demoEthA, demoEthB, demoTronC])) :=
  ⟨by decide,
    assigned_ids_strictly_increasing demoKeeper [] [demoEthA, demoEthB, demoTronC] (by decide)⟩

theorem demoKeeper_CodecRoundTrips : demoKeeper.CodecRoundTrips := by
  constructor
  · intro r b h
    simp only [demoKeeper, demoMarshalRecord, Option.some.injEq] at h
    subst h
    simp [demoKeeper, demoUnmarshalRecord]
  · intro n b hn h
    simp only [demoKeeper, Option.some.injEq] at h
    subst h
    exact ParseUint_FormatUint n hn

/-- C3: for every store and every record, with a codec that round-trips, if
`SetEventRecord` succeeds, assigning the canonical id `GetLatestID + 1` (the value
of `GetLatestID` after the call), then `GetHeimdallIDByRootID` of the record's root
chain type and root chain id succeeds afterwards and returns that id. -/
theorem cross_reference_after_ingest (k : Keeper) (hcodec : k.CodecRoundTrips) (s s2 : KVStore)
    (r : EventRecord) (h : k.SetEventRecord s r = (s2, none)) :
    GetLatestID s2 = (GetLatestID s + 1) % uint64Size ∧
      k.GetHeimdallIDByRootID s2 r.RootChainType r.ID =
        Except.ok ((GetLatestID s + 1) % uint64Size) := by
  obtain ⟨_, _, v2, _, hl, _, _, hv2, _, _, _, _, _, hf2, _⟩ := k.SetEventRecord_post _ _ _ h
  have hlt : (GetLatestID s + 1) % uint64Size < uint64Size := Nat.mod_lt _ (by simp [uint64Size])
  refine ⟨hl, ?_⟩
  simp only [Keeper.GetHeimdallIDByRootID, KVStore.Has, KVStore.Get, hf2, Option.isSome_some,
    Option.getD_some, if_true, hcodec.2 _ _ hlt hv2]

/-- Witness of C3: eth event 7 on the empty store. -/
theorem cross_reference_after_ingest_witness :
    (demoKeeper.CodecRoundTrips ∧ demoKeeper.SetEventRecord [] demoEthA = (demoStoreA, none)) ∧
    (GetLatestID demoStoreA = (GetLatestID [] + 1) % uint64Size ∧
      demoKeeper.GetHeimdallIDByRootID demoStoreA demoEthA.RootChainType demoEthA.ID =
        Except.ok ((GetLatestID [] + 1) % uint64Size)) :=
  ⟨⟨demoKeeper_CodecRoundTrips, by decide⟩,
    cross_reference_after_ingest demoKeeper demoKeeper_CodecRoundTrips [] demoStoreA demoEthA
      (by decide)⟩

/-- C4, as amended: for every store and every record, with a codec that
round-trips, if `SetEventRecord` succeeds, assigning the canonical id
`GetLatestID + 1`, then `GetEventRecord` of that id returns the record with its
`ID` field replaced by the canonical id; the root chain type, the record time and
the payload are those submitted. -/
theorem canonical_record_after_ingest (k : Keeper) (hcodec : k.CodecRoundTrips) (s s2 : KVStore)
    (r : EventRecord) (h : k.SetEventRecord s r = (s2, none)) :
    k.GetEventRecord s2 ((GetLatestID s + 1) % uint64Size) =
      Except.ok { r with ID := (GetLatestID s + 1) % uint64Size } := by
  obtain ⟨_, _, _, v3, _, _, _, _, hv3, _, _, _, _, _, hf3⟩ := k.SetEventRecord_post _ _ _ h
  simp only [Keeper.GetEventRecord, KVStore.Has, KVStore.Get, hf3, Option.isSome_some,
    Option.getD_some, if_true, hcodec.1 _ _ hv3]

/-- Witness of C4 as amended: eth event 7 on the empty store. -/
theorem canonical_record_after_ingest_witness :
    (demoKeeper.CodecRoundTrips ∧ demoKeeper.SetEventRecord [] demoEthA = (demoStoreA, none)) ∧
    demoKeeper.GetEventRecord demoStoreA ((GetLatestID [] + 1) % uint64Size) =
      Except.ok { demoEthA with ID := (GetLatestID [] + 1) % uint64Size } :=
  ⟨⟨demoKeeper_CodecRoundTrips, by decide⟩,
    canonical_record_after_ingest demoKeeper demoKeeper_CodecRoundTrips [] demoStoreA demoEthA
      (by decide)⟩

/-- Counterexample to C4 as stated: eth event 7 is ingested on the empty store
and assigned the canonical id 1; the record that `GetEventRecord 1` returns has
`ID` 1, not the root chain id 7 it was submitted with. -/
theorem canonical_record_origin_id_counterexample :
    demoKeeper.CodecRoundTrips ∧
    demoKeeper.SetEventRecord [] demoEthA = (demoStoreA, none) ∧
    GetLatestID [] = 0 ∧ GetLatestID demoStoreA = 1 ∧
    demoKeeper.GetEventRecord demoStoreA 1 = Except.ok ⟨1, [101, 116, 104], 3, [9]⟩ ∧
    demoEthA.ID = 7 :=
  ⟨demoKeeper_CodecRoundTrips, by decide, by decide, by decide, rfl, rfl⟩

/-- C5, as amended: when `SetEventRecord` returns an error, either the error is
that of `SetEventRecordWithID` and `GetLatestID` is what it was; or
`SetEventRecordWithID` had succeeded, so that the dedupe entry, the
cross-reference entry and the canonical record are written and the counter is
advanced by one, and the error is that of `SetEventRecordWithTime`.  The counter
is advanced before the time index entries are written. -/
theorem counter_after_failed_ingest (k : Keeper) (s s2 : KVStore) (r : EventRecord) (e : Err)
    (h : k.SetEventRecord s r = (s2, some e)) :
    (k.SetEventRecordWithID s r = (s2, Except.error e) ∧ GetLatestID s2 = GetLatestID s) ∨
    (∃ s1 rootKey,
      k.SetEventRecordWithID s r = (s1, Except.ok (GetLatestID s)) ∧
      k.SetEventRecordWithTime s1 r (GetLatestID s) = (s2, some e) ∧
      k.GetRootChainEventRecordKey r.RootChainType r.ID = some rootKey ∧
      KVStore.Has s1 rootKey = true ∧
      KVStore.Has s1 (GetRootToHeimdallIdKey r.RootChainType r.ID) = true ∧
      KVStore.Has s1 (GetEventRecordKey ((GetLatestID s + 1) % uint64Size)) = true ∧
      GetLatestID s1 = (GetLatestID s + 1) % uint64Size ∧
      GetLatestID s2 = (GetLatestID s + 1) % uint64Size) := by
  simp only [Keeper.SetEventRecord] at h
  split at h
  · rename_i s1 e1 he
    simp only [Prod.mk.injEq, Option.some.injEq] at h
    obtain ⟨rfl, rfl⟩ := h
    exact Or.inl ⟨he, k.SetEventRecordWithID_error _ _ _ _ he⟩
  · rename_i s1 n hn
    obtain ⟨rootKey, _, _, _, hn1, hl, hroot, _, _, _, _, _, _, hf1, hf2, hf3⟩ :=
      k.SetEventRecordWithID_post _ _ _ _ hn
    subst hn1
    right
    refine ⟨s1, rootKey, hn, h, hroot, ?_, ?_, ?_, hl, ?_⟩
    · simp [KVStore.Has, hf1]
    · simp [KVStore.Has, hf2]
    · simp [KVStore.Has, hf3]
    · have h2 := k.SetEventRecordWithTime_GetLatestID s1 r (GetLatestID s)
      rw [h] at h2
      rw [h2, hl]

/-- Witness of C5 as amended: the call that fails on `demoStoreTimeKey`. -/
theorem counter_after_failed_ingest_witness :
    demoKeeper.SetEventRecord demoStoreTimeKey demoEthA =
      (demoStoreFailed, some Err.keyExists) ∧
    ((demoKeeper.SetEventRecordWithID demoStoreTimeKey demoEthA =
        (demoStoreFailed, Except.error Err.keyExists) ∧
      GetLatestID (demoStoreFailed) = GetLatestID demoStoreTimeKey) ∨
    (∃ s1 rootKey,
      demoKeeper.SetEventRecordWithID demoStoreTimeKey demoEthA =
        (s1, Except.ok (GetLatestID demoStoreTimeKey)) ∧
      demoKeeper.SetEventRecordWithTime s1 demoEthA (GetLatestID demoStoreTimeKey) =
        (demoStoreFailed, some Err.keyExists) ∧
      demoKeeper.GetRootChainEventRecordKey demoEthA.RootChainType demoEthA.ID = some rootKey ∧
      KVStore.Has s1 rootKey = true ∧
      KVStore.Has s1 (GetRootToHeimdallIdKey demoEthA.RootChainType demoEthA.ID) = true ∧
      KVStore.Has s1 (GetEventRecordKey ((GetLatestID demoStoreTimeKey + 1) % uint64Size))
        = true ∧
      GetLatestID s1 = (GetLatestID demoStoreTimeKey + 1) % uint64Size ∧
      GetLatestID (demoStoreFailed) =
        (GetLatestID demoStoreTimeKey + 1) % uint64Size)) :=
  ⟨by decide,
    counter_after_failed_ingest demoKeeper demoStoreTimeKey _ demoEthA Err.keyExists
      (by decide)⟩

/-- Counterexample to C5 as stated: on a store in which the eth time index entry
of event 7 at time 3 is set, `SetEventRecord` of that event returns an error and
`GetLatestID` has moved from 0 to 1. -/
theorem counter_after_failed_ingest_counterexample :
    demoKeeper.SetEventRecord demoStoreTimeKey demoEthA =
      (demoStoreFailed, some Err.keyExists) ∧
    GetLatestID demoStoreTimeKey = 0 ∧
    GetLatestID (demoStoreFailed) = 1 := by
  decide

/-- C6: for every store and every record whose root chain type is neither the
eth nor the tron constant, `SetEventRecord` returns an error and the store after
the call is the store before it. -/
theorem unknown_root_chain_rejected (k : Keeper) (s : KVStore) (r : EventRecord)
    (heth : r.RootChainType ≠ k.RootChainTypeEth)
    (htron : r.RootChainType ≠ k.RootChainTypeTron) :
    ∃ e, k.SetEventRecord s r = (s, some e) := by
  have hid : ∃ e, k.SetEventRecordWithID s r = (s, Except.error e) := by
    simp only [Keeper.SetEventRecordWithID, Keeper.GetRootChainEventRecordKey, heth, htron,
      if_false]
    split
    · exact ⟨_, rfl⟩
    · exact ⟨_, rfl⟩
  obtain ⟨e, he⟩ := hid
  exact ⟨e, by simp only [Keeper.SetEventRecord, he]⟩

/-- Witness of C6: a record of the chain type `"bsc"` on the store `demoStoreA`. -/
theorem unknown_root_chain_rejected_witness :
    ((⟨7, [98, 115, 99], 3, [9]⟩ : EventRecord).RootChainType ≠ demoKeeper.RootChainTypeEth ∧
      (⟨7, [98, 115, 99], 3, [9]⟩ : EventRecord).RootChainType ≠
        demoKeeper.RootChainTypeTron) ∧
    ∃ e, demoKeeper.SetEventRecord demoStoreA ⟨7, [98, 115, 99], 3, [9]⟩ =
      (demoStoreA, some e) :=
  ⟨⟨by decide, by decide⟩,
    unknown_root_chain_rejected demoKeeper demoStoreA ⟨7, [98, 115, 99], 3, [9]⟩ (by decide)
      (by decide)⟩

/-- C7, as amended: when `SetEventRecordWithID` succeeds, the value it returns is
`GetLatestID` before the call; the canonical id it assigned is that value plus one
(modulo `2^64`): the id that `GetLatestID` returns after the call, and whose
`GetEventRecordKey`, not set before the call, holds the record with that id. -/
theorem SetEventRecordWithID_returns_counter_read (k : Keeper) (s s1 : KVStore)
    (r : EventRecord) (n : Nat) (h : k.SetEventRecordWithID s r = (s1, Except.ok n)) :
    n = GetLatestID s ∧
    GetLatestID s1 = (n + 1) % uint64Size ∧
    KVStore.Has s (GetEventRecordKey ((n + 1) % uint64Size)) = false ∧
    ∃ v, k.MarshalRecord { r with ID := (n + 1) % uint64Size } = some v ∧
      KVStore.find s1 (GetEventRecordKey ((n + 1) % uint64Size)) = some v := by
  obtain ⟨_, _, _, v3, hn, hl, _, _, _, hv3, _, _, hh3, _, _, hf3⟩ :=
    k.SetEventRecordWithID_post _ _ _ _ h
  exact ⟨hn, hl, hh3, v3, hv3, hf3⟩

/-- Witness of C7 as amended: eth event 7 on the empty store. -/
theorem SetEventRecordWithID_returns_counter_read_witness :
    demoKeeper.SetEventRecordWithID [] demoEthA = (demoStoreID, Except.ok 0) ∧
    (0 = GetLatestID [] ∧
    GetLatestID demoStoreID = (0 + 1) % uint64Size ∧
    KVStore.Has [] (GetEventRecordKey ((0 + 1) % uint64Size)) = false ∧
    ∃ v, demoKeeper.MarshalRecord { demoEthA with ID := (0 + 1) % uint64Size } = some v ∧
      KVStore.find demoStoreID (GetEventRecordKey ((0 + 1) % uint64Size)) = some v) :=
  ⟨rfl, SetEventRecordWithID_returns_counter_read demoKeeper [] demoStoreID demoEthA 0 rfl⟩

/-- Counterexample to C7 as stated: on the empty store, where `GetLatestID` is 0,
`SetEventRecordWithID` of eth event 7 succeeds and returns 0, while the canonical
id it assigned, `GetLatestID` after the call, is 1. -/
theorem SetEventRecordWithID_returns_counter_read_counterexample :
    GetLatestID [] = 0 ∧
    demoKeeper.SetEventRecordWithID [] demoEthA = (demoStoreID, Except.ok 0) ∧
    GetLatestID demoStoreID = 1 ∧
    KVStore.find demoStoreID (GetEventRecordKey 1) =
      demoKeeper.MarshalRecord { demoEthA with ID := 1 } :=
  ⟨by decide, rfl, by decide, by decide⟩

/-- C8, as amended: for every store built from the empty store by
`SetEventRecord` calls and all times `fromTime` and `toTime`, the time formatting
being fixed-width and order-preserving on the times involved and the codec
round-tripping: `GetEventRecordListWithTime fromTime toTime 0 0` contains an
ingested record (as stored, with its canonical id) if and only if
`fromTime ≤ RecordTime < toTime`; the lower bound is inclusive, the upper bound
exclusive. -/
theorem time_range_listing_half_open (k : Keeper) (V : Nat → Prop) (hcodec : k.CodecRoundTrips)
    (htime : k.TimeFormatOrdered V) (rs : List EventRecord) (hV : ∀ r ∈ rs, V r.RecordTime)
    (fromTime toTime : Nat) (hf : V fromTime) (hto : V toTime) (rec : EventRecord)
    (hrec : rec ∈ k.ingested [] rs) :
    rec ∈ k.GetEventRecordListWithTime (k.SetEventRecords [] rs) fromTime toTime 0 0 ↔
      (fromTime ≤ rec.RecordTime ∧ rec.RecordTime < toTime) := by
  have hinv := k.TimeIndexInv_run V rs [] [] (k.TimeIndexInv_nil V) hV
  rw [List.nil_append] at hinv
  exact k.TimeIndexInv_listing V hcodec htime _ _ hinv fromTime toTime hf hto rec hrec

/-- Witness of C8 as amended: eth event 7 at time 3, its duplicate and tron event
7 at time 5; the record ingested at time 3 and the range from 3 to 5. -/
theorem time_range_listing_half_open_witness :
    (demoKeeper.CodecRoundTrips ∧ demoKeeper.TimeFormatOrdered (fun t => t < 10) ∧
      (∀ r ∈ [demoEthA, demoEthB, demoTronC], r.RecordTime < 10) ∧ 3 < 10 ∧ 5 < 10 ∧
      (⟨1, [101, 116, 104], 3, [9]⟩ : EventRecord) ∈
        demoKeeper.ingested [] [demoEthA, demoEthB, demoTronC]) ∧
    ((⟨1, [101, 116, 104], 3, [9]⟩ : EventRecord) ∈
        demoKeeper.GetEventRecordListWithTime
          (demoKeeper.SetEventRecords [] [demoEthA, demoEthB, demoTronC]) 3 5 0 0 ↔
      (3 ≤ (⟨1, [101, 116, 104], 3, [9]⟩ : EventRecord).RecordTime ∧
        (⟨1, [101, 116, 104], 3, [9]⟩ : EventRecord).RecordTime < 5)) :=
  ⟨⟨demoKeeper_CodecRoundTrips, demoKeeper_TimeFormatOrdered, by decide, by decide, by decide,
      by decide⟩,
    time_range_listing_half_open demoKeeper (fun t => t < 10) demoKeeper_CodecRoundTrips
      demoKeeper_TimeFormatOrdered [demoEthA, demoEthB, demoTronC] (by decide) 3 5 (by decide)
      (by decide) ⟨1, [101, 116, 104], 3, [9]⟩ (by decide)⟩

/-- Counterexample to C8 as stated: eth event 7 at time 3 and tron event 7 at time
5 are ingested on the empty store; the listing from time 3 to time 5 contains the
record of time 3 and not the record of time 5, although `3 ≤ 5 ≤ 5`. -/
theorem time_range_listing_upper_bound_counterexample :
    demoKeeper.CodecRoundTrips ∧ demoKeeper.TimeFormatOrdered (fun t => t < 10) ∧
    demoKeeper.ingested [] [demoEthA, demoEthB, demoTronC] =
      [⟨1, [101, 116, 104], 3, [9]⟩, ⟨2, [116, 114, 111, 110], 5, [6]⟩] ∧
    demoKeeper.GetEventRecordListWithTime
      (demoKeeper.SetEventRecords [] [demoEthA, demoEthB, demoTronC]) 3 5 0 0 =
      [⟨1, [101, 116, 104], 3, [9]⟩] ∧
    (3 ≤ (⟨2, [116, 114, 111, 110], 5, [6]⟩ : EventRecord).RecordTime ∧
      (⟨2, [116, 114, 111, 110], 5, [6]⟩ : EventRecord).RecordTime ≤ 5) :=
  ⟨demoKeeper_CodecRoundTrips, demoKeeper_TimeFormatOrdered, by decide, by decide, by decide⟩

theorem Keeper.decodeRecords_length (k : Keeper) (es : List (Bytes × Bytes)) :
    (k.decodeRecords es).length ≤ es.length := by
  induction es with
  | nil => simp [Keeper.decodeRecords]
  | cons e es ih =>
    simp only [Keeper.decodeRecords]
    split
    · simp only [List.length_cons]; omega
    · simp only [List.length_cons]; omega

/-- C9: for every store, every page and every limit above 50,
`GetEventRecordList` returns at most 50 records, and returns what it returns for
the limit 50. -/
theorem listing_limit_clamped (k : Keeper) (s : KVStore) (page limit : Nat) (h : limit > 50) :
    (k.GetEventRecordList s page limit).length ≤ 50 ∧
      k.GetEventRecordList s page limit = k.GetEventRecordList s page 50 := by
  have heq : k.GetEventRecordList s page limit = k.GetEventRecordList s page 50 := by
    simp [Keeper.GetEventRecordList, h]
  refine ⟨?_, heq⟩
  rw [heq]
  refine le_trans (k.decodeRecords_length _) ?_
  simp [KVStorePrefixIteratorPaginated, List.length_take]

/-- Witness of C9: page 1 with limit 60 on the store `demoStoreA`. -/
theorem listing_limit_clamped_witness :
    (60 > 50) ∧
    ((demoKeeper.GetEventRecordList demoStoreA 1 60).length ≤ 50 ∧
      demoKeeper.GetEventRecordList demoStoreA 1 60 =
        demoKeeper.GetEventRecordList demoStoreA 1 50) :=
  ⟨by decide, listing_limit_clamped demoKeeper demoStoreA 1 60 (by decide)⟩

/-- C10: starting from the empty store, with a codec that round-trips and never
fails and distinct eth and tron constants: `SetEventRecord` of eth event 7
succeeds and is assigned the canonical id 1; `SetEventRecord` of eth event 7 at
another time then fails and `GetLatestID` stays 1; `SetEventRecord` of tron event
7 then succeeds and is assigned the canonical id 2; and `GetEventRecordList 1 10`
then returns exactly the two records, with the canonical ids 1 and 2, in that
order. -/
theorem scenario_eth_duplicate_tron (k : Keeper) (hcodec : k.CodecRoundTrips)
    (htotal : k.CodecTotal) (hne : k.RootChainTypeEth ≠ k.RootChainTypeTron)
    (t1 t2 t3 : Nat) (p1 p2 p3 : Bytes) :
    ∃ s1 s2 e s3,
      k.SetEventRecord [] ⟨7, k.RootChainTypeEth, t1, p1⟩ = (s1, none) ∧
      GetLatestID s1 = 1 ∧
      k.GetEventRecord s1 1 = Except.ok ⟨1, k.RootChainTypeEth, t1, p1⟩ ∧
      k.SetEventRecord s1 ⟨7, k.RootChainTypeEth, t2, p2⟩ = (s2, some e) ∧
      GetLatestID s2 = 1 ∧
      k.SetEventRecord s2 ⟨7, k.RootChainTypeTron, t3, p3⟩ = (s3, none) ∧
      GetLatestID s3 = 2 ∧
      k.GetEventRecord s3 2 = Except.ok ⟨2, k.RootChainTypeTron, t3, p3⟩ ∧
      k.GetEventRecordList s3 1 10 =
        [⟨1, k.RootChainTypeEth, t1, p1⟩, ⟨2, k.RootChainTypeTron, t3, p3⟩] := by
  have hne2 : k.RootChainTypeTron ≠ k.RootChainTypeEth := fun h => hne h.symm
  have h7 : (7 : Nat) < uint64Size := by decide
  have hL0 : GetLatestID [] = 0 := rfl
  have hid1 : (0 + 1) % uint64Size = 1 := by decide
  have hid2 : (1 + 1) % uint64Size = 2 := by decide
  have hF1 : FormatUint 1 = [49] := by decide
  have hF2 : FormatUint 2 = [50] := by decide
  -- first call
  obtain ⟨s1, h1⟩ := k.SetEventRecord_succeeds htotal [] ⟨7, k.RootChainTypeEth, t1, p1⟩
    (GetRecordKey EthStateRecordPrefixKey 7)
    (GetRecordKey (k.GetRecordKeyWithTimePrefix EthStateRecordPrefixKeyWithTime t1) 7) h7
    (by simp [Keeper.GetRootChainEventRecordKey])
    (by simp [Keeper.GetRootChainEventRecordKeyWithTimePrefix]) rfl rfl rfl rfl rfl
  obtain ⟨_, _, _, _, hl1, _⟩ := k.SetEventRecord_post _ _ _ h1
  have hg1 := k.GetEventRecord_after_ingest hcodec _ _ _ h1
  rw [hL0, hid1] at hl1 hg1
  -- second call
  obtain ⟨e, h2⟩ := k.SetEventRecord_duplicate [] s1 ⟨7, k.RootChainTypeEth, t1, p1⟩
    ⟨7, k.RootChainTypeEth, t2, p2⟩ rfl rfl h1
  -- third call
  obtain ⟨rootKey, tkey, hroot, htkey, hHas⟩ := k.SetEventRecord_Has _ _ _ h1
  simp only [Keeper.GetRootChainEventRecordKey, if_true, Option.some.injEq] at hroot
  simp only [Keeper.GetRootChainEventRecordKeyWithTimePrefix, if_true, Option.some.injEq] at htkey
  subst hroot htkey
  simp only [hL0, hid1] at hHas
  obtain ⟨s3, h3⟩ := k.SetEventRecord_succeeds htotal s1 ⟨7, k.RootChainTypeTron, t3, p3⟩
    (GetRecordKey TronStateRecordPrefixKey 7)
    (GetRecordKey (k.GetRecordKeyWithTimePrefix TronStateRecordPrefixKeyWithTime t3) 7) h7
    (by simp [Keeper.GetRootChainEventRecordKey, hne2])
    (by simp [Keeper.GetRootChainEventRecordKeyWithTimePrefix, hne2])
    (by
      rw [hHas]
      simp [GetRecordKey, Keeper.GetRecordKeyWithTimePrefix, Keeper.GetEventRecordKeyWithTime_eq,
        GetEventRecordKey_eq, GetRootToHeimdallIdKey_eq, LatestMsgIDPrefixKey,
        TronStateRecordPrefixKey, EthStateRecordPrefixKey, EthStateRecordPrefixKeyWithTime,
        KVStore.Has, KVStore.find])
    (by
      rw [hHas]
      simp [GetRecordKey, Keeper.GetRecordKeyWithTimePrefix, Keeper.GetEventRecordKeyWithTime_eq,
        GetEventRecordKey_eq, GetRootToHeimdallIdKey_eq, LatestMsgIDPrefixKey,
        TronStateRecordPrefixKey, EthStateRecordPrefixKey, EthStateRecordPrefixKeyWithTime,
        KVStore.Has, KVStore.find, hne2])
    (by
      rw [hHas, hl1, hid2]
      simp [GetRecordKey, Keeper.GetRecordKeyWithTimePrefix, Keeper.GetEventRecordKeyWithTime_eq,
        GetEventRecordKey_eq, GetRootToHeimdallIdKey_eq, LatestMsgIDPrefixKey,
        TronStateRecordPrefixKey, EthStateRecordPrefixKey, EthStateRecordPrefixKeyWithTime,
        KVStore.Has, KVStore.find, hF1, hF2])
    (by
      rw [hHas]
      simp [GetRecordKey, Keeper.GetRecordKeyWithTimePrefix, Keeper.GetEventRecordKeyWithTime_eq,
        GetEventRecordKey_eq, GetRootToHeimdallIdKey_eq, LatestMsgIDPrefixKey,
        TronStateRecordPrefixKey, EthStateRecordPrefixKey, EthStateRecordPrefixKeyWithTime,
        TronStateRecordPrefixKeyWithTime, KVStore.Has, KVStore.find])
    (by
      rw [hHas, hl1, hid2]
      have hlast : k.FormatTimeBytes t3 ++ [50] ≠ k.FormatTimeBytes t1 ++ [49] :=
        append_singleton_ne _ _ 50 49 (by decide)
      simp [GetRecordKey, Keeper.GetRecordKeyWithTimePrefix, Keeper.GetEventRecordKeyWithTime_eq,
        GetEventRecordKey_eq, GetRootToHeimdallIdKey_eq, LatestMsgIDPrefixKey,
        TronStateRecordPrefixKey, EthStateRecordPrefixKey, EthStateRecordPrefixKeyWithTime,
        KVStore.Has, KVStore.find, hF1, hF2, hlast])
  obtain ⟨_, _, _, _, hl3, _⟩ := k.SetEventRecord_post _ _ _ h3
  have hg3 := k.GetEventRecord_after_ingest hcodec _ _ _ h3
  rw [hl1, hid2] at hl3 hg3
  -- the listing
  obtain ⟨w1, hw1, hscan1⟩ := k.SetEventRecord_scan [] s1 _ KVStore.Sorted_nil h1
  have hsorted1 : KVStore.Sorted s1 := by
    have := k.SetEventRecord_Sorted [] ⟨7, k.RootChainTypeEth, t1, p1⟩ KVStore.Sorted_nil
    rw [h1] at this
    exact this
  obtain ⟨w3, hw3, hscan3⟩ := k.SetEventRecord_scan s1 s3 _ hsorted1 h3
  rw [hL0, hid1] at hw1 hscan1
  rw [hl1, hid2] at hw3 hscan3
  have hlist : KVStorePrefixIterator s3 StateRecordPrefixKey =
      [(GetEventRecordKey 1, w1), (GetEventRecordKey 2, w3)] := by
    rw [hscan3, hscan1]
    have hk : GetEventRecordKey 1 ≠ GetEventRecordKey 2 := by decide
    have hlt : bytesLt (GetEventRecordKey 2) (GetEventRecordKey 1) = false := by decide
    simp [KVStorePrefixIterator, KVStore.Set, hk, hlt]
  refine ⟨s1, s1, e, s3, h1, hl1, hg1, h2, hl1, h3, hl3, hg3, ?_⟩
  simp [Keeper.GetEventRecordList, KVStorePrefixIteratorPaginated, hlist, Keeper.decodeRecords,
    hcodec.1 _ _ hw1, hcodec.1 _ _ hw3]

/-- Witness of C10: the scenario on the keeper `demoKeeper`. -/
theorem scenario_eth_duplicate_tron_witness :
    (demoKeeper.CodecRoundTrips ∧ demoKeeper.CodecTotal ∧
      demoKeeper.RootChainTypeEth ≠ demoKeeper.RootChainTypeTron) ∧
    ∃ s1 s2 e s3,
      demoKeeper.SetEventRecord [] ⟨7, demoKeeper.RootChainTypeEth, 3, [9]⟩ = (s1, none) ∧
      GetLatestID s1 = 1 ∧
      demoKeeper.GetEventRecord s1 1 = Except.ok ⟨1, demoKeeper.RootChainTypeEth, 3, [9]⟩ ∧
      demoKeeper.SetEventRecord s1 ⟨7, demoKeeper.RootChainTypeEth, 4, [8]⟩ = (s2, some e) ∧
      GetLatestID s2 = 1 ∧
      demoKeeper.SetEventRecord s2 ⟨7, demoKeeper.RootChainTypeTron, 5, [6]⟩ = (s3, none) ∧
      GetLatestID s3 = 2 ∧
      demoKeeper.GetEventRecord s3 2 = Except.ok ⟨2, demoKeeper.RootChainTypeTron, 5, [6]⟩ ∧
      demoKeeper.GetEventRecordList s3 1 10 =
        [⟨1, demoKeeper.RootChainTypeEth, 3, [9]⟩, ⟨2, demoKeeper.RootChainTypeTron, 5, [6]⟩] :=
  ⟨⟨demoKeeper_CodecRoundTrips, demoKeeper_CodecTotal, by decide⟩,
    scenario_eth_duplicate_tron demoKeeper demoKeeper_CodecRoundTrips demoKeeper_CodecTotal
      (by decide) 3 4 5 [9] [8] [6]⟩

/-- C11: for every store and every record, if the statements of
`SetEventRecordWithID` up to the write of the canonical record have run without
error (the dedupe entry, the cross-reference entry and the canonical record are
written) and the counter has not been advanced, then on the store they left the
counter is what it was, and `SetEventRecord` of the same record returns an error
and leaves that store unchanged: it writes no second canonical record. -/
theorem retry_after_interrupted_ingest_fails (k : Keeper) (s s3 : KVStore) (r : EventRecord)
    (h : k.SetEventRecordWithIDUntilCounter s r = some s3) :
    GetLatestID s3 = GetLatestID s ∧
      KVStore.Has s3 (GetEventRecordKey ((GetLatestID s + 1) % uint64Size)) = true ∧
      ∃ e, k.SetEventRecord s3 r = (s3, some e) := by
  obtain ⟨rootKey, v1, v2, v3, hroot, hs3, _⟩ := k.SetEventRecordWithIDUntilCounter_some _ _ _ h
  have hroot2 := (k.GetRootChainEventRecordKey_some _ _ _ hroot).2
  have hne : rootKey ≠ LatestMsgIDPrefixKey := by
    rcases hroot2 with h1 | h1 <;> simp [h1, LatestMsgIDPrefixKey]
  have hhas : KVStore.Has s3 rootKey = true := by
    rw [hs3, KVStore.Has_Set, KVStore.Has_Set, KVStore.Has_Set]
    simp
  refine ⟨?_, ?_, ?_⟩
  · rw [hs3, GetLatestID_Set_other _ _ _ (GetEventRecordKey_ne_counter _),
      GetLatestID_Set_other _ _ _ (GetRootToHeimdallIdKey_ne_counter _ _),
      GetLatestID_Set_other _ _ _ hne]
  · rw [hs3, KVStore.Has_Set]
    simp
  · obtain ⟨e, he⟩ := k.SetEventRecordWithID_duplicate s3 r rootKey hroot hhas
    exact ⟨e, by simp only [Keeper.SetEventRecord, he]⟩

/-- Witness of C11: eth event 7 interrupted on the empty store, then retried. -/
theorem retry_after_interrupted_ingest_fails_witness :
    demoKeeper.SetEventRecordWithIDUntilCounter [] demoEthA = some demoStoreUntilCounter ∧
    (GetLatestID demoStoreUntilCounter = GetLatestID [] ∧
      KVStore.Has demoStoreUntilCounter (GetEventRecordKey ((GetLatestID [] + 1) % uint64Size))
        = true ∧
      ∃ e, demoKeeper.SetEventRecord demoStoreUntilCounter demoEthA =
        (demoStoreUntilCounter, some e)) :=
  ⟨by decide,
    retry_after_interrupted_ingest_fails demoKeeper [] demoStoreUntilCounter demoEthA
      (by decide)⟩

/-- C12: for every store, `GetLatestID` returns 0 when the counter key is absent,
returns 0 when the bytes stored at the counter key do not parse as a base-10
unsigned 64-bit integer, and otherwise returns the parsed value; being a total
function it never fails. -/
theorem GetLatestID_absent_unparsable_parsed (s : KVStore) :
    (KVStore.Has s LatestMsgIDPrefixKey = false → GetLatestID s = 0) ∧
    (KVStore.Has s LatestMsgIDPrefixKey = true →
      ParseUint (KVStore.Get s LatestMsgIDPrefixKey) = none → GetLatestID s = 0) ∧
    (∀ n, KVStore.Has s LatestMsgIDPrefixKey = true →
      ParseUint (KVStore.Get s LatestMsgIDPrefixKey) = some n → GetLatestID s = n) := by
  refine ⟨?_, ?_, ?_⟩
  · intro h
    simp [GetLatestID, h]
  · intro h hp
    simp [GetLatestID, h, hp]
  · intro n h hp
    simp [GetLatestID, h, hp]

/-- Witness of C12: the empty store, a counter that holds a letter, and a counter
that holds the digit 5. -/
theorem GetLatestID_absent_unparsable_parsed_witness :
    (KVStore.Has [] LatestMsgIDPrefixKey = false ∧ GetLatestID [] = 0) ∧
    (KVStore.Has demoStoreCounterLetter LatestMsgIDPrefixKey = true ∧
      ParseUint (KVStore.Get demoStoreCounterLetter LatestMsgIDPrefixKey) = none ∧
      GetLatestID demoStoreCounterLetter = 0) ∧
    (KVStore.Has demoStoreCounterFive LatestMsgIDPrefixKey = true ∧
      ParseUint (KVStore.Get demoStoreCounterFive LatestMsgIDPrefixKey) = some 5 ∧
      GetLatestID demoStoreCounterFive = 5) :=
  ⟨⟨rfl, (GetLatestID_absent_unparsable_parsed []).1 rfl⟩,
    ⟨by decide, by decide,
      (GetLatestID_absent_unparsable_parsed demoStoreCounterLetter).2.1 (by decide) (by decide)⟩,
    ⟨by decide, by decide,
      (GetLatestID_absent_unparsable_parsed demoStoreCounterFive).2.2 5 (by decide)
        (by decide)⟩⟩

/-- C13, as amended: for every store and every id `n` of the `uint64` range that
is at least `GetLatestID` before the call, `GetLatestID` after `SetLatestID n` is
greater than or equal to `GetLatestID` before it.  `SetLatestID` stores `n`
whatever the counter holds. -/
theorem SetLatestID_not_below_when_given_larger (s : KVStore) (n : Nat) (hn : n < uint64Size)
    (hge : GetLatestID s ≤ n) : GetLatestID s ≤ GetLatestID (SetLatestID s n) := by
  rw [GetLatestID_SetLatestID s n hn]
  exact hge

/-- Witness of C13 as amended: the counter at 5 set to 6. -/
theorem SetLatestID_not_below_when_given_larger_witness :
    (6 < uint64Size ∧ GetLatestID demoStoreCounterFive ≤ 6) ∧
    GetLatestID demoStoreCounterFive ≤ GetLatestID (SetLatestID demoStoreCounterFive 6) :=
  ⟨⟨by decide, by decide⟩,
    SetLatestID_not_below_when_given_larger demoStoreCounterFive 6 (by decide) (by decide)⟩

/-- Counterexample to C13 as stated: on a store whose counter is 5,
`SetLatestID 3` leaves `GetLatestID` at 3. -/
theorem SetLatestID_decreases_counterexample :
    GetLatestID demoStoreCounterFive = 5 ∧
    GetLatestID (SetLatestID demoStoreCounterFive 3) = 3 ∧
    ¬ (GetLatestID demoStoreCounterFive ≤ GetLatestID (SetLatestID demoStoreCounterFive 3)) := by
  decide

/-- C14: for every store and every unsigned 64-bit `n`, `GetLatestID` read after
`SetLatestID n` returns exactly `n`; decimal formatting followed by base-10 parsing
is the identity on `uint64`; and `SetLatestID` changes no key other than the
counter key. -/
theorem GetLatestID_after_SetLatestID (s : KVStore) (n : Nat) (hn : n < uint64Size) :
    GetLatestID (SetLatestID s n) = n ∧
    ParseUint (FormatUint n) = some n ∧
    ∀ key, key ≠ LatestMsgIDPrefixKey →
      KVStore.find (SetLatestID s n) key = KVStore.find s key :=
  ⟨GetLatestID_SetLatestID s n hn, ParseUint_FormatUint n hn,
    fun key hkey => KVStore.find_Set_other s _ _ key hkey⟩

/-- Witness of C14: the largest `uint64` stored on `demoStoreSequence`. -/
theorem GetLatestID_after_SetLatestID_witness :
    maxUint64 < uint64Size ∧
    (GetLatestID (SetLatestID demoStoreSequence maxUint64) = maxUint64 ∧
    ParseUint (FormatUint maxUint64) = some maxUint64 ∧
    ∀ key, key ≠ LatestMsgIDPrefixKey →
      KVStore.find (SetLatestID demoStoreSequence maxUint64) key =
        KVStore.find demoStoreSequence key) :=
  ⟨by decide, GetLatestID_after_SetLatestID demoStoreSequence maxUint64 (by decide)⟩

/-- C17: for every store and every token `t`, after `SetRecordSequence t`
`HasRecordSequence t` is true, and for every token `u` different from `t`
`HasRecordSequence u` has the value it had before the call. -/
theorem SetRecordSequence_marks_only_its_token (s : KVStore) (t u : Bytes) (h : u ≠ t) :
    HasRecordSequence (SetRecordSequence s t) t = true ∧
      HasRecordSequence (SetRecordSequence s t) u = HasRecordSequence s u := by
  have hne : GetRecordSequenceKey u ≠ GetRecordSequenceKey t :=
    fun heq => h (GetRecordSequenceKey_inj t u heq)
  constructor
  · simp [HasRecordSequence, SetRecordSequence, KVStore.Has_Set]
  · simp [HasRecordSequence, SetRecordSequence, KVStore.Has_Set, hne]

/-- Witness of C17: the token `"b"` marked on a store where `"a"` is marked. -/
theorem SetRecordSequence_marks_only_its_token_witness :
    (([97] : Bytes) ≠ [98]) ∧
    (HasRecordSequence (SetRecordSequence demoStoreSequence [98]) [98] = true ∧
      HasRecordSequence (SetRecordSequence demoStoreSequence [98]) [97] =
        HasRecordSequence demoStoreSequence [97]) :=
  ⟨by decide, SetRecordSequence_marks_only_its_token demoStoreSequence [98] [97] (by decide)⟩

/-- C18: `SetRecordSequence` is idempotent at the store level: for every store and
token, calling it twice leaves exactly the store that calling it once leaves; it
returns no error, being a total function without an error result. -/
theorem SetRecordSequence_idempotent (s : KVStore) (t : Bytes) :
    SetRecordSequence (SetRecordSequence s t) t = SetRecordSequence s t := by
  simp only [SetRecordSequence]
  exact KVStore.Set_Set_same s _ _ _

/-- C16, as amended: every stored key other than the counter key is immutable
once written.  For every store and every key present in it, the value at the key
after `SetEventRecordWithTime` is the value before; so it is after
`SetRecordSequence` on every store written by the keeper; and for every key
other than the counter key so it is after `SetEventRecord`,
`SetEventRecordWithID` and `SetLatestID`, which overwrite the counter key. -/
theorem stored_entries_kept_except_counter (k : Keeper) (s : KVStore) (r : EventRecord)
    (latestID num : Nat) (t key v : Bytes) (hf : KVStore.find s key = some v) :
    KVStore.find (k.SetEventRecordWithTime s r latestID).1 key = some v ∧
    (k.Reached s → KVStore.find (SetRecordSequence s t) key = some v) ∧
    (key ≠ LatestMsgIDPrefixKey →
      KVStore.find (k.SetEventRecord s r).1 key = some v ∧
      KVStore.find (k.SetEventRecordWithID s r).1 key = some v ∧
      KVStore.find (SetLatestID s num) key = some v) := by
  refine ⟨k.SetEventRecordWithTime_keeps s r latestID key v hf, ?_, ?_⟩
  · intro hreached
    exact k.SetRecordSequence_find_of_Reached s hreached t key v hf
  · intro hne
    refine ⟨k.SetEventRecord_find s r key v hne hf, k.SetEventRecordWithID_find s r key v hne hf, ?_⟩
    rw [SetLatestID, KVStore.find_Set_other _ _ _ _ hne]
    exact hf

/-- Witness of C16 as amended: the dedupe entry of eth event 7 in `demoStoreA`,
the store that the ingestion of that event leaves on the empty store. -/
theorem stored_entries_kept_except_counter_witness :
    (KVStore.find demoStoreA [23, 55] = some [7, 3, 3, 101, 116, 104, 9] ∧
      demoKeeper.Reached demoStoreA ∧ ([23, 55] : Bytes) ≠ LatestMsgIDPrefixKey) ∧
    (KVStore.find (demoKeeper.SetEventRecordWithTime demoStoreA demoTronC 1).1 [23, 55] =
      some [7, 3, 3, 101, 116, 104, 9] ∧
    KVStore.find (SetRecordSequence demoStoreA [97]) [23, 55] =
      some [7, 3, 3, 101, 116, 104, 9] ∧
    KVStore.find (demoKeeper.SetEventRecord demoStoreA demoTronC).1 [23, 55] =
      some [7, 3, 3, 101, 116, 104, 9] ∧
    KVStore.find (demoKeeper.SetEventRecordWithID demoStoreA demoTronC).1 [23, 55] =
      some [7, 3, 3, 101, 116, 104, 9] ∧
    KVStore.find (SetLatestID demoStoreA 2) [23, 55] = some [7, 3, 3, 101, 116, 104, 9]) :=
  ⟨⟨by decide, demoKeeper_Reached_demoStoreA, by decide⟩,
    ⟨(stored_entries_kept_except_counter demoKeeper demoStoreA demoTronC 1 2 [97] [23, 55]
        [7, 3, 3, 101, 116, 104, 9] (by decide)).1,
      (stored_entries_kept_except_counter demoKeeper demoStoreA demoTronC 1 2 [97] [23, 55]
        [7, 3, 3, 101, 116, 104, 9] (by decide)).2.1 demoKeeper_Reached_demoStoreA,
      (stored_entries_kept_except_counter demoKeeper demoStoreA demoTronC 1 2 [97] [23, 55]
        [7, 3, 3, 101, 116, 104, 9] (by decide)).2.2 (by decide)⟩⟩

/-- Counterexample to C16 as stated: `demoStoreA` is the store that the ingestion
of eth event 7 leaves on the empty store; in it the counter key is present with
the value `"1"`; after `SetLatestID 2`, after `SetEventRecordWithID` and after
`SetEventRecord` of tron event 7, its value is `"2"`. -/
theorem stored_entries_kept_except_counter_counterexample :
    (demoKeeper.SetEventRecord [] demoEthA).1 = demoStoreA ∧
    KVStore.find demoStoreA LatestMsgIDPrefixKey = some [49] ∧
    KVStore.find (SetLatestID demoStoreA 2) LatestMsgIDPrefixKey = some [50] ∧
    KVStore.find (demoKeeper.SetEventRecordWithID demoStoreA demoTronC).1 LatestMsgIDPrefixKey =
      some [50] ∧
    KVStore.find (demoKeeper.SetEventRecord demoStoreA demoTronC).1 LatestMsgIDPrefixKey =
      some [50] := by
  decide

/-- C19: for every store (its keys strictly ascending, as in every store),
`GetRecordSequences` returns exactly the membership set of the sequence ledger:
a token occurs in the result if and only if `HasRecordSequence` of it is true,
no token occurs twice, and the result has one token for each entry of the
sequence family and none for the entries of the other families. -/
theorem GetRecordSequences_is_membership_set (s : KVStore) (hs : KVStore.Sorted s) :
    (∀ t, t ∈ GetRecordSequences s ↔ HasRecordSequence s t = true) ∧
    (GetRecordSequences s).Nodup ∧
    GetRecordSequences s =
      (s.filter (fun e => RecordSequencePrefixKey.isPrefixOf e.1)).map (fun e => e.1.drop 1) := by
  refine ⟨?_, ?_, ?_⟩
  · intro t
    rw [GetRecordSequences_eq, HasRecordSequence, KVStore.Has_iff_mem]
    simp only [KVStorePrefixIterator, List.mem_map, List.mem_filter]
    constructor
    · rintro ⟨e, ⟨hes, hp⟩, ht⟩
      have hkey := isPrefixOf_sequence_key e.1 hp
      rw [ht] at hkey
      exact ⟨e.2, by rw [← hkey]; exact hes⟩
    · rintro ⟨v, hv⟩
      exact ⟨(GetRecordSequenceKey t, v),
        ⟨hv, by simp [GetRecordSequenceKey, RecordSequencePrefixKey]⟩,
        by simp [GetRecordSequenceKey, RecordSequencePrefixKey]⟩
  · rw [GetRecordSequences_eq, KVStorePrefixIterator, List.Nodup, List.pairwise_map]
    have hfil : List.Pairwise (fun a b => bytesLt a.1 b.1 = true)
        (s.filter (fun e => RecordSequencePrefixKey.isPrefixOf e.1)) := List.Pairwise.filter _ hs
    refine List.Pairwise.imp_of_mem ?_ hfil
    intro a b ha hb hlt heq
    have hpa := isPrefixOf_sequence_key a.1 (List.mem_filter.mp ha).2
    have hpb := isPrefixOf_sequence_key b.1 (List.mem_filter.mp hb).2
    have hab : a.1 = b.1 := by rw [hpa, hpb, heq]
    rw [hab, bytesLt_irrefl] at hlt
    exact absurd hlt (by simp)
  · rw [GetRecordSequences_eq, KVStorePrefixIterator]

/-- Witness of C19: a store with two marked sequences, a canonical record and the
counter. -/
theorem GetRecordSequences_is_membership_set_witness :
    KVStore.Sorted demoStoreTwoSequences ∧
    ((∀ t, t ∈ GetRecordSequences demoStoreTwoSequences ↔
      HasRecordSequence demoStoreTwoSequences t = true) ∧
    (GetRecordSequences demoStoreTwoSequences).Nodup ∧
    GetRecordSequences demoStoreTwoSequences =
      (demoStoreTwoSequences.filter (fun e => RecordSequencePrefixKey.isPrefixOf e.1)).map
        (fun e => e.1.drop 1)) :=
  ⟨by simp [KVStore.Sorted, demoStoreTwoSequences, bytesLt],
    GetRecordSequences_is_membership_set demoStoreTwoSequences
      (by simp [KVStore.Sorted, demoStoreTwoSequences, bytesLt])⟩

/-- C15: in every store reached from the empty store by a sequence of
`SetEventRecord` calls, `GetLatestID` being below `2^64-1` before every call, the
canonical ids in use have no gaps: for every id of the `uint64` range,
`HasEventRecord id` holds if and only if `1 ≤ id ≤ GetLatestID`. -/
theorem canonical_ids_have_no_gaps (k : Keeper) (rs : List EventRecord)
    (hbelow : ∀ t ∈ k.storesBefore [] rs, GetLatestID t < maxUint64) (id : Nat)
    (hid : id < uint64Size) :
    HasEventRecord (k.SetEventRecords [] rs) id = true ↔
      1 ≤ id ∧ id ≤ GetLatestID (k.SetEventRecords [] rs) :=
  k.CanonicalIdsGapless_run rs [] CanonicalIdsGapless_nil hbelow id hid

/-- Witness of C15: eth event 7, its duplicate and tron event 7 on the empty
store, and the id 2. -/
theorem canonical_ids_have_no_gaps_witness :
    ((∀ t ∈ demoKeeper.storesBefore [] [demoEthA, demoEthB, demoTronC],
        GetLatestID t < maxUint64) ∧ 2 < uint64Size) ∧
    (HasEventRecord (demoKeeper.SetEventRecords [] [demoEthA, demoEthB, demoTronC]) 2 = true ↔
      1 ≤ 2 ∧ 2 ≤ GetLatestID (demoKeeper.SetEventRecords [] [demoEthA, demoEthB, demoTronC])) :=
  ⟨⟨by decide, by decide⟩,
    canonical_ids_have_no_gaps demoKeeper [demoEthA, demoEthB, demoTronC] (by decide) 2
      (by decide)⟩

/-- C20, as amended: for all unsigned 64-bit ids `a < b` whose decimal strings
have the same number of digits, and all leading bytes `p`, `GetRecordKey p a` is
bytewise smaller than `GetRecordKey p b`.  Across different numbers of digits the
keys compare as the decimal strings do, not as the numbers. -/
theorem GetRecordKey_order_same_digit_count (p : Bytes) (a b : Nat) (hab : a < b)
    (hb : b < uint64Size) (hlen : (FormatUint a).length = (FormatUint b).length) :
    bytesLt (GetRecordKey p a) (GetRecordKey p b) = true := by
  have hb2 : b < 10 ^ 20 := by
    simp only [uint64Size] at hb
    omega
  rw [GetRecordKey, GetRecordKey, bytesLt_append_same]
  exact formatDigits_lt 20 a b hab hb2 hlen

/-- Witness of C20 as amended: the ids 10 and 11 after the canonical record
byte. -/
theorem GetRecordKey_order_same_digit_count_witness :
    (10 < 11 ∧ 11 < uint64Size ∧ (FormatUint 10).length = (FormatUint 11).length) ∧
    bytesLt (GetRecordKey StateRecordPrefixKey 10) (GetRecordKey StateRecordPrefixKey 11) = true :=
  ⟨⟨by decide, by decide, by decide⟩,
    GetRecordKey_order_same_digit_count StateRecordPrefixKey 10 11 (by decide) (by decide)
      (by decide)⟩

/-- Counterexample to C20 as stated: 9 is below 10, and the key of 10 is bytewise
smaller than the key of 9; after ten ingestions on the empty store
`GetEventRecordList` returns the record with the canonical id 10 right after the
record with the id 1. -/
theorem GetRecordKey_order_counterexample :
    bytesLt (GetRecordKey StateRecordPrefixKey 9) (GetRecordKey StateRecordPrefixKey 10) = false ∧
    bytesLt (GetRecordKey StateRecordPrefixKey 10) (GetRecordKey StateRecordPrefixKey 9) = true ∧
    (demoKeeper.GetEventRecordList (demoKeeper.SetEventRecords [] demoTenRecords) 1 50).map
      (fun r => r.ID) = [1, 10, 2, 3, 4, 5, 6, 7, 8, 9] := by
  decide

/-- C21: index families are disjoint: for two different families, a key built by
the encoder of the one (for any id, time, chain type or token) is never equal to
a key built by the encoder of the other, and does not start with the bytes of
the key variable of the other; so a scan over the key variable of one family
returns no entry whose key is a key of another family. -/
theorem index_families_disjoint (k : Keeper) (f g : KeyFamily) (hfg : f ≠ g) (key1 key2 : Bytes)
    (h1 : k.IsKeyOf f key1) (h2 : k.IsKeyOf g key2) :
    key1 ≠ key2 ∧ f.firstBytes.isPrefixOf key2 = false ∧
      ∀ (s : KVStore) (e : Bytes × Bytes), e ∈ KVStorePrefixIterator s f.firstBytes →
        e.1 ≠ key2 := by
  obtain ⟨b1, r1, hb1, hk1⟩ := k.IsKeyOf_head f key1 h1
  obtain ⟨b2, r2, hb2, hk2⟩ := k.IsKeyOf_head g key2 h2
  have hb : b1 ≠ b2 := by
    intro hbb
    apply hfg
    apply KeyFamily.firstBytes_inj
    rw [hb1, hb2, hbb]
  have hpre : f.firstBytes.isPrefixOf key2 = false := by
    rw [hb1, hk2]
    have hbeq : (b1 == b2) = false := by simpa using hb
    simp [List.isPrefixOf, hbeq]
  refine ⟨?_, hpre, ?_⟩
  · rw [hk1, hk2]
    intro heq
    exact hb (List.cons.inj heq).1
  · intro s e he heq
    have hp := (List.mem_filter.mp he).2
    rw [heq, hpre] at hp
    exact absurd hp (by simp)

/-- Witness of C21: the canonical record key of id 1 and the cross-reference key
of eth event 1. -/
theorem index_families_disjoint_witness :
    (KeyFamily.canonicalRecord ≠ KeyFamily.crossReference ∧
      demoKeeper.IsKeyOf KeyFamily.canonicalRecord (GetEventRecordKey 1) ∧
      demoKeeper.IsKeyOf KeyFamily.crossReference (GetRootToHeimdallIdKey [101, 116, 104] 1)) ∧
    (GetEventRecordKey 1 ≠ GetRootToHeimdallIdKey [101, 116, 104] 1 ∧
      KeyFamily.canonicalRecord.firstBytes.isPrefixOf (GetRootToHeimdallIdKey [101, 116, 104] 1)
        = false ∧
      ∀ (s : KVStore) (e : Bytes × Bytes),
        e ∈ KVStorePrefixIterator s KeyFamily.canonicalRecord.firstBytes →
        e.1 ≠ GetRootToHeimdallIdKey [101, 116, 104] 1) :=
  ⟨⟨by decide, ⟨1, rfl⟩, ⟨[101, 116, 104], 1, rfl⟩⟩,
    index_families_disjoint demoKeeper KeyFamily.canonicalRecord KeyFamily.crossReference
      (by decide) _ _ ⟨1, rfl⟩ ⟨[101, 116, 104], 1, rfl⟩⟩

/-- C23: the write-once primitive: for every store, key and value,
`setEventRecordStore` returns the error of a key that already exists if and only
if the key is present in the store, and then leaves the store unchanged;
otherwise it returns no error, and the resulting store has the value at the key
and agrees with the original store on every other key. -/
theorem setEventRecordStore_write_once (s : KVStore) (key value : Bytes) :
    ((setEventRecordStore s key value).2 = some Err.keyExists ↔ KVStore.Has s key = true) ∧
    (KVStore.Has s key = true → setEventRecordStore s key value = (s, some Err.keyExists)) ∧
    (KVStore.Has s key = false →
      (setEventRecordStore s key value).2 = none ∧
      KVStore.find (setEventRecordStore s key value).1 key = some value ∧
      ∀ key2, key2 ≠ key →
        KVStore.find (setEventRecordStore s key value).1 key2 = KVStore.find s key2) := by
  refine ⟨?_, ?_, ?_⟩
  · cases h : KVStore.Has s key <;> simp [setEventRecordStore, h]
  · intro h
    simp [setEventRecordStore, h]
  · intro h
    simp only [setEventRecordStore, h, Bool.false_eq_true, if_false]
    exact ⟨trivial, KVStore.find_Set_same s key value,
      fun key2 hne => KVStore.find_Set_other s key value key2 hne⟩

/-- Witness of C23: on `demoStoreA`, the counter key, which is present, and the
sequence key of `"a"`, which is not. -/
theorem setEventRecordStore_write_once_witness :
    (KVStore.Has demoStoreA [0x18] = true ∧
      setEventRecordStore demoStoreA [0x18] [50] = (demoStoreA, some Err.keyExists)) ∧
    (KVStore.Has demoStoreA [0x12, 97] = false ∧
      (setEventRecordStore demoStoreA [0x12, 97] [1]).2 = none ∧
      KVStore.find (setEventRecordStore demoStoreA [0x12, 97] [1]).1 [0x12, 97] = some [1] ∧
      ∀ key2, key2 ≠ [0x12, 97] →
        KVStore.find (setEventRecordStore demoStoreA [0x12, 97] [1]).1 key2 =
          KVStore.find demoStoreA key2) :=
  ⟨⟨by decide, (setEventRecordStore_write_once demoStoreA [0x18] [50]).2.1 (by decide)⟩,
    ⟨by decide, (setEventRecordStore_write_once demoStoreA [0x12, 97] [1]).2.2 (by decide)⟩⟩

/-- C25, as amended: the cross-reference key encoder is injective on chain type
strings that do not end in a decimal digit: for all such strings `c1`, `c2` and
all ids `i1`, `i2` of the `uint64` range, equal keys come from equal chain types
and equal ids; so `GetHeimdallIDByRootID` never returns the entry written for a
different pair: when the pairs differ, what `GetHeimdallIDByRootID c2 i2` returns
is the same before and after `SetEventRecord` and `SetEventRecordWithID` of a
record of the chain type `c1` with the id `i1`, whatever the outcome of the
call. -/
theorem GetRootToHeimdallIdKey_injective_no_digit_at_end (k : Keeper) (s : KVStore)
    (c1 c2 : Bytes) (i1 i2 t : Nat) (p : Bytes)
    (h1 : NoDigitAtEnd c1) (h2 : NoDigitAtEnd c2) (hi1 : i1 < uint64Size)
    (hi2 : i2 < uint64Size) :
    (GetRootToHeimdallIdKey c1 i1 = GetRootToHeimdallIdKey c2 i2 → c1 = c2 ∧ i1 = i2) ∧
    (¬ (c1 = c2 ∧ i1 = i2) →
      k.GetHeimdallIDByRootID (k.SetEventRecord s ⟨i1, c1, t, p⟩).1 c2 i2 =
        k.GetHeimdallIDByRootID s c2 i2 ∧
      k.GetHeimdallIDByRootID (k.SetEventRecordWithID s ⟨i1, c1, t, p⟩).1 c2 i2 =
        k.GetHeimdallIDByRootID s c2 i2) := by
  have hinj : GetRootToHeimdallIdKey c1 i1 = GetRootToHeimdallIdKey c2 i2 →
      c1 = c2 ∧ i1 = i2 := by
    intro h
    rw [GetRootToHeimdallIdKey_eq, GetRootToHeimdallIdKey_eq] at h
    obtain ⟨hc, hd⟩ := append_digits_inj c1 c2 _ _ h1 h2 (formatDigits_digits 20 i1)
      (formatDigits_digits 20 i2) (List.cons.inj h).2
    exact ⟨hc, FormatUint_inj i1 i2 hi1 hi2 hd⟩
  refine ⟨hinj, ?_⟩
  intro hdiff
  have hne : GetRootToHeimdallIdKey c2 i2 ≠ GetRootToHeimdallIdKey c1 i1 :=
    fun heq => hdiff (hinj heq.symm)
  constructor
  · apply k.GetHeimdallIDByRootID_congr
    exact k.SetEventRecord_find_crossref s ⟨i1, c1, t, p⟩ _ _ (GetRootToHeimdallIdKey_eq c2 i2) hne
  · apply k.GetHeimdallIDByRootID_congr
    exact k.SetEventRecordWithID_find_crossref s ⟨i1, c1, t, p⟩ _ _
      (GetRootToHeimdallIdKey_eq c2 i2) hne

/-- Witness of C25 as amended: eth event 7 ingested on the empty store, and the
lookup of tron event 7. -/
theorem GetRootToHeimdallIdKey_injective_no_digit_at_end_witness :
    (NoDigitAtEnd [101, 116, 104] ∧ NoDigitAtEnd [116, 114, 111, 110] ∧
      (7 : Nat) < uint64Size ∧ ¬ (([101, 116, 104] : Bytes) = [116, 114, 111, 110] ∧ 7 = 7)) ∧
    ((GetRootToHeimdallIdKey [101, 116, 104] 7 = GetRootToHeimdallIdKey [116, 114, 111, 110] 7 →
      ([101, 116, 104] : Bytes) = [116, 114, 111, 110] ∧ 7 = 7) ∧
    (demoKeeper.GetHeimdallIDByRootID
        (demoKeeper.SetEventRecord [] ⟨7, [101, 116, 104], 3, [9]⟩).1 [116, 114, 111, 110] 7 =
      demoKeeper.GetHeimdallIDByRootID [] [116, 114, 111, 110] 7 ∧
    demoKeeper.GetHeimdallIDByRootID
        (demoKeeper.SetEventRecordWithID [] ⟨7, [101, 116, 104], 3, [9]⟩).1
        [116, 114, 111, 110] 7 =
      demoKeeper.GetHeimdallIDByRootID [] [116, 114, 111, 110] 7)) :=
  ⟨⟨by simp [NoDigitAtEnd], by simp [NoDigitAtEnd], by decide, by decide⟩,
    ⟨(GetRootToHeimdallIdKey_injective_no_digit_at_end demoKeeper [] [101, 116, 104]
        [116, 114, 111, 110] 7 7 3 [9] (by simp [NoDigitAtEnd]) (by simp [NoDigitAtEnd])
        (by decide) (by decide)).1,
      (GetRootToHeimdallIdKey_injective_no_digit_at_end demoKeeper [] [101, 116, 104]
        [116, 114, 111, 110] 7 7 3 [9] (by simp [NoDigitAtEnd]) (by simp [NoDigitAtEnd])
        (by decide) (by decide)).2 (by decide)⟩⟩

/-- Counterexample to C25 as stated: the chain type `"eth"` with the id 11 and
the chain type `"eth1"` with the id 1 have the same cross-reference key; after
the ingestion of eth event 11 on the empty store, `GetHeimdallIDByRootID` of
`"eth1"` and 1 returns the canonical id of that event. -/
theorem GetRootToHeimdallIdKey_collision_counterexample :
    GetRootToHeimdallIdKey [101, 116, 104] 11 = GetRootToHeimdallIdKey [101, 116, 104, 49] 1 ∧
    ([101, 116, 104] : Bytes) ≠ [101, 116, 104, 49] ∧ (11 : Nat) ≠ 1 ∧
    (demoKeeper.SetEventRecord [] demoEthEleven).2 = none ∧
    demoKeeper.GetHeimdallIDByRootID (demoKeeper.SetEventRecord [] demoEthEleven).1
      [101, 116, 104, 49] 1 = Except.ok 1 :=
  ⟨by decide, by decide, by decide, by decide, rfl⟩

/-- C24: in every store reached from the empty store by a sequence of
`SetEventRecord` calls (the counter below `2^64-1` before every call, codec
marshalling never failing, time formatting fixed-width on the times involved, ids
of the `uint64` range, the two chain type constants apart), a further
`SetEventRecord` call is all or nothing: it returns an error and leaves the store
exactly as it was, or it succeeds, and then the dedupe entry, the cross-reference
entry, the canonical record and both time index entries are written and the
counter is advanced by one. -/
theorem ingest_all_or_nothing_on_reached_stores (k : Keeper) (V : Nat → Prop)
    (htotal : k.CodecTotal) (hwidth : k.TimeFormatFixedWidth V) (hsep : k.ChainTypesSeparated)
    (rs : List EventRecord) (r : EventRecord)
    (hrs : ∀ q ∈ rs, V q.RecordTime ∧ q.ID < uint64Size)
    (hr : V r.RecordTime ∧ r.ID < uint64Size)
    (hbelow : ∀ t ∈ k.storesBefore [] rs, GetLatestID t < maxUint64)
    (hlt : GetLatestID (k.SetEventRecords [] rs) < maxUint64) :
    (∃ e, k.SetEventRecord (k.SetEventRecords [] rs) r = (k.SetEventRecords [] rs, some e)) ∨
    (∃ s2 rootKey tkey,
      k.SetEventRecord (k.SetEventRecords [] rs) r = (s2, none) ∧
      k.GetRootChainEventRecordKey r.RootChainType r.ID = some rootKey ∧
      k.GetRootChainEventRecordKeyWithTimePrefix r.RootChainType r.ID r.RecordTime = some tkey ∧
      KVStore.Has s2 rootKey = true ∧
      KVStore.Has s2 (GetRootToHeimdallIdKey r.RootChainType r.ID) = true ∧
      KVStore.Has s2 (GetEventRecordKey (GetLatestID (k.SetEventRecords [] rs) + 1)) = true ∧
      KVStore.Has s2 tkey = true ∧
      KVStore.Has s2
        (k.GetEventRecordKeyWithTime (GetLatestID (k.SetEventRecords [] rs) + 1) r.RecordTime)
        = true ∧
      GetLatestID s2 = GetLatestID (k.SetEventRecords [] rs) + 1) := by
  have hinv := k.IngestInv_run V htotal hwidth hsep rs [] (k.IngestInv_nil V) hrs hbelow
  have hmod : (GetLatestID (k.SetEventRecords [] rs) + 1) % uint64Size =
      GetLatestID (k.SetEventRecords [] rs) + 1 := by
    apply Nat.mod_eq_of_lt
    simp only [maxUint64] at hlt
    simp only [uint64Size]
    omega
  rcases k.SetEventRecord_fails_clean_or_succeeds V htotal hwidth hsep _ r hinv hr.1 hr.2 hlt with
    h | ⟨s2, h2⟩
  · exact Or.inl h
  · right
    obtain ⟨rootKey, tkey, hroot, htkey, hHas⟩ := k.SetEventRecord_Has _ _ _ h2
    obtain ⟨_, _, _, _, hL, _⟩ := k.SetEventRecord_post _ _ _ h2
    rw [hmod] at hL
    simp only [hmod] at hHas
    refine ⟨s2, rootKey, tkey, h2, hroot, htkey, ?_, ?_, ?_, ?_, ?_, hL⟩ <;>
      (rw [hHas]; simp)

/-- Witness of C24: tron event 7 on the store reached by eth event 7 and its
duplicate. -/
theorem ingest_all_or_nothing_on_reached_stores_witness :
    (demoKeeper.CodecTotal ∧ demoKeeper.TimeFormatFixedWidth (fun t => t < 10) ∧
      demoKeeper.ChainTypesSeparated ∧
      (∀ q ∈ [demoEthA, demoEthB], q.RecordTime < 10 ∧ q.ID < uint64Size) ∧
      (demoTronC.RecordTime < 10 ∧ demoTronC.ID < uint64Size) ∧
      (∀ t ∈ demoKeeper.storesBefore [] [demoEthA, demoEthB], GetLatestID t < maxUint64) ∧
      GetLatestID (demoKeeper.SetEventRecords [] [demoEthA, demoEthB]) < maxUint64) ∧
    ((∃ e, demoKeeper.SetEventRecord (demoKeeper.SetEventRecords [] [demoEthA, demoEthB])
        demoTronC = (demoKeeper.SetEventRecords [] [demoEthA, demoEthB], some e)) ∨
    (∃ s2 rootKey tkey,
      demoKeeper.SetEventRecord (demoKeeper.SetEventRecords [] [demoEthA, demoEthB]) demoTronC =
        (s2, none) ∧
      demoKeeper.GetRootChainEventRecordKey demoTronC.RootChainType demoTronC.ID =
        some rootKey ∧
      demoKeeper.GetRootChainEventRecordKeyWithTimePrefix demoTronC.RootChainType demoTronC.ID
        demoTronC.RecordTime = some tkey ∧
      KVStore.Has s2 rootKey = true ∧
      KVStore.Has s2 (GetRootToHeimdallIdKey demoTronC.RootChainType demoTronC.ID) = true ∧
      KVStore.Has s2
        (GetEventRecordKey (GetLatestID (demoKeeper.SetEventRecords [] [demoEthA, demoEthB]) + 1))
        = true ∧
      KVStore.Has s2 tkey = true ∧
      KVStore.Has s2
        (demoKeeper.GetEventRecordKeyWithTime
          (GetLatestID (demoKeeper.SetEventRecords [] [demoEthA, demoEthB]) + 1)
          demoTronC.RecordTime) = true ∧
      GetLatestID s2 = GetLatestID (demoKeeper.SetEventRecords [] [demoEthA, demoEthB]) + 1)) :=
  ⟨⟨demoKeeper_CodecTotal, demoKeeper_TimeFormatFixedWidth, demoKeeper_ChainTypesSeparated,
      by decide, by decide, by decide, by decide⟩,
    ingest_all_or_nothing_on_reached_stores demoKeeper (fun t => t < 10) demoKeeper_CodecTotal
      demoKeeper_TimeFormatFixedWidth demoKeeper_ChainTypesSeparated [demoEthA, demoEthB]
      demoTronC (by decide) (by decide) (by decide) (by decide)⟩

end Clerk
